import Mathlib

/-!
SoundJS `HTMLAudioTagPool`: a shallow embedding

Source: `src/soundjs/htmlaudio/HTMLAudioTagPool.js`.

The JavaScript module keeps four pieces of static state (`s._tags`, `s._tagUsed`,
`s._audioTagCount`, `s._tagPool`) and mutates DOM audio elements.  The embedding passes that
state explicitly.  An audio element is identified by the order of its creation (`Handle`), an
array cell holds either a value or `undefined` (`none`), and an operation either returns
normally or lets a `TypeError` escape; in both cases the state it leaves behind is recorded.

`s._tags` and `s._tagUsed` are plain objects, so a read `s._tags[src]` that finds no property of
the object itself goes on to `Object.prototype` (`objectPrototype` below).
-/

set_option autoImplicit false

namespace SoundJS

/-! ## Data model -/

/-- Identity of an audio element: the number of elements created before it. -/
abbrev Handle := Nat

/-- Content of a cell of a tag array: an audio element, or `undefined` (`none`), which is what a
cell reads as after `delete`. -/
abbrev Tag := Option Handle

/-- Content of a cell of a flag array: `true`, `false`, or `undefined` (`none`). -/
abbrev Flag := Option Bool

/-- A JavaScript number as far as `getDuration` looks at it.  A finite value is kept as the
rational it denotes; the rounding of a product to a double is left out. -/
inductive JsNumber where
  | nan
  | infinity
  | finite (q : ℚ)
deriving DecidableEq, Repr

/-- Whether `!x` holds for the number `x`: it does for `NaN` and for zero. -/
def JsNumber.falsy : JsNumber → Bool
  | .nan => true
  | .infinity => false
  | .finite q => decide (q = 0)

/-- Product `x * 1000`. -/
def JsNumber.times1000 : JsNumber → JsNumber
  | .nan => .nan
  | .infinity => .infinity
  | .finite q => .finite (q * 1000)

/-- Properties of an audio element that the module reads or writes. -/
structure AudioTag where
  /-- Value of `tag.autoplay`. -/
  autoplay : Bool
  /-- Value of `tag.preload`. -/
  preload : String
  /-- Value of `tag.src`; `none` until the module assigns it. -/
  src : Option String
  /-- Whether `tag.parentNode` is non-null. -/
  inDocument : Bool
  /-- Whether `s._handleMaximumInstances` is registered for the `"error"` event. -/
  errorListener : Bool
  /-- Value of `tag.duration`, in seconds; `NaN` until the browser has loaded the metadata. -/
  duration : JsNumber
deriving DecidableEq, Repr

/-- Lines written with `console.log`. -/
inductive ConsoleMessage where
  /-- Text `"[Sound.JS] Creating new audio tag for source " + src + " !This causes a delay!"`. -/
  | creatingNewTag (src : String)
  /-- Text `"IE audio tags at maximum capacity. Failed to create sound " + src + ". Please use
  audiosprites"`. -/
  | atMaximumCapacity (src : Option String)
deriving DecidableEq, Repr

/-- Static state of the module together with the part of the environment it touches. -/
structure PoolState where
  /-- Object `s._tags`: source to array of tags, in insertion order of the keys. -/
  _tags : List (String × List Tag)
  /-- Object `s._tagUsed`: source to array of flags. -/
  _tagUsed : List (String × List Flag)
  /-- Counter `s._audioTagCount`. -/
  _audioTagCount : Int
  /-- Array `s._tagPool._tags`: the tags that are free. -/
  _tagPool : List Tag
  /-- Whether the array `s._tagPool._tags` carries a property `src` equal to `null`
  (`this._tags.src = null` in `TagPool.prototype.set`). -/
  _tagPoolSrcNull : Bool
  /-- Every audio element created so far; element `h` is at index `h`. -/
  elements : List AudioTag
  /-- Output of `console.log`, oldest first. -/
  console : List ConsoleMessage
  /-- Constant `createjs.BrowserDetect.isInternetExplorer`. -/
  isInternetExplorer : Bool
  /-- Elements whose `load()` has been called by the module, oldest call first. -/
  loadCalls : List Handle
deriving DecidableEq, Repr

/-- Result of running an operation: it returns `value` in state `st`, or a `TypeError` escapes
and leaves state `st`. -/
inductive Completion (α : Type) where
  | normal (st : PoolState) (value : α)
  | thrown (st : PoolState)
deriving DecidableEq, Repr

/-- State left behind by an operation. -/
def Completion.state {α : Type} : Completion α → PoolState
  | .normal st _ => st
  | .thrown st => st

/-- Value returned, if the operation returned. -/
def Completion.value? {α : Type} : Completion α → Option α
  | .normal _ v => some v
  | .thrown _ => none

/-- Whether a `TypeError` escaped. -/
def Completion.raised {α : Type} : Completion α → Bool
  | .normal _ _ => false
  | .thrown _ => true

/-- State when the script has been loaded: `s._tags = {}`, `s._tagUsed = {}`,
`s._audioTagCount = 0`, `s._tagPool = new TagPool()`. -/
def empty (ie : Bool) : PoolState :=
  { _tags := [], _tagUsed := [], _audioTagCount := 0, _tagPool := [], _tagPoolSrcNull := false,
    elements := [], console := [], isInternetExplorer := ie, loadCalls := [] }

/-! ## JavaScript objects and arrays -/

/-- Own property `key` of the object `obj`: the value last assigned to `obj[key]`, `none` when
nothing was.  This is what the read `obj[key]` gives when the object has the property; when it
has not, the read goes on to `objectPrototype`. -/
def lookup {α : Type} : List (String × α) → String → Option α
  | [], _ => none
  | (k, v) :: rest, key => if k = key then some v else lookup rest key

/-- Property write `obj[key] = v`: an existing key keeps its place, a new key goes last. -/
def assign {α : Type} : List (String × α) → String → α → List (String × α)
  | [], key, v => [(key, v)]
  | (k, w) :: rest, key, v => if k = key then (k, v) :: rest else (k, w) :: assign rest key v

/-- Members that every plain object, `s._tags` and `s._tagUsed` among them, inherits from
`Object.prototype`, by name, each with the value of its `length` (`none`: it has no `length`).
They are the functions of ECMAScript 5.1, section 15.2.4, the four legacy accessor functions of
browsers, and `__proto__`, which reads as the object `Object.prototype`.  The read `obj[key]`
gives such a member when `lookup obj key` is `none`, and `undefined` when the name is not listed
either.  A member has no cell `m[i]` (it reads as `undefined`, and `delete m[i]` does nothing),
and neither `push` nor `splice`; an assignment `m[i] = v` would create the cell on the built-in
object, outside the state kept here.  None of them is enumerated by `for ... in`. -/
def objectPrototype : List (String × Option Nat) :=
  [("constructor", some 1), ("toString", some 0), ("toLocaleString", some 0),
    ("valueOf", some 0), ("hasOwnProperty", some 1), ("isPrototypeOf", some 1),
    ("propertyIsEnumerable", some 1), ("__defineGetter__", some 2), ("__defineSetter__", some 2),
    ("__lookupGetter__", some 1), ("__lookupSetter__", some 1), ("__proto__", none)]

/-- Value of `tags ? tags.length : 0` for `tags = obj[src]`: the length of the array that is the
own property, the `length` of the inherited member otherwise (`none`: `undefined`), and `0` when
`obj[src]` is `undefined`. -/
def lengthOf (obj : List (String × List Tag)) (src : String) : Option Nat :=
  match lookup obj src with
  | some tags => some tags.length
  | none =>
    match lookup objectPrototype src with
    | some length => length
    | none => some 0

/-- Array read `a[i]`: `undefined` for a deleted cell and for an index past the end. -/
def arrayGet {α : Type} (a : List (Option α)) (i : Nat) : Option α :=
  a[i]?.join

/-- Array write `a[i] = v`: an index past the end lengthens the array, the cells in between
reading as `undefined`. -/
def arraySet {α : Type} (a : List (Option α)) (i : Nat) (v : α) : List (Option α) :=
  if i < a.length then a.set i (some v)
  else a ++ List.replicate (i - a.length) none ++ [some v]

/-- Statement `delete a[i]`: the cell reads as `undefined` afterwards, the length is kept. -/
def arrayDelete {α : Type} (a : List (Option α)) (i : Nat) : List (Option α) :=
  a.set i none

/-- Keys of an object in the order of a `for ... in` loop: each key once, in the order of
insertion.  Keys that look like array indices, which engines enumerate first, get no special
treatment. -/
def keys {α : Type} : List (String × α) → List String
  | [] => []
  | (k, _) :: rest => k :: (keys rest).filter (fun k1 => k1 ≠ k)

/-- Apply `f` to element `h`. -/
def updateElement (es : List AudioTag) (h : Handle) (f : AudioTag → AudioTag) : List AudioTag :=
  match es.get? h with
  | some e => es.set h (f e)
  | none => es

/-- Modelled from the spec: `createjs.indexOf`, a helper of this repository that is not part of
`HTMLAudioTagPool.js`.  The spec of the Handle Pool's release reads "if the handle is not already
present in the Free Pool", so the helper returns the position of the first cell equal to the
searched value, and `-1` when there is none; `i` is the position of the first cell of `array` in
the array searched. -/
def indexOf (array : List Tag) (searchElement : Tag) (i : Nat) : Int :=
  match array with
  | [] => -1
  | x :: rest => if searchElement = x then (i : Int) else indexOf rest searchElement (i + 1)

/-! ## `TagPool` -/

/-- Method `TagPool.prototype._createTag`. -/
def TagPool._createTag : AudioTag :=
  { autoplay := false, preload := "none", src := none, inDocument := false,
    errorListener := false, duration := .nan }

/-- Method `TagPool.prototype.get`.  With an empty pool a new element is created, otherwise the
last cell is popped; `tag.parentNode` raises when the popped cell is `undefined`. -/
def TagPool.get (s : PoolState) : Completion Handle :=
  if s._tagPool.length = 0 then
    .normal { s with elements := s.elements ++ [{ TagPool._createTag with inDocument := true }] }
      s.elements.length
  else
    match s._tagPool.getLast? with
    | some (some h) =>
      .normal { s with
          _tagPool := s._tagPool.dropLast
          elements := updateElement s.elements h (fun e => { e with inDocument := true }) } h
    | _ => .thrown { s with _tagPool := s._tagPool.dropLast }

/-- Method `TagPool.prototype.set`. -/
def TagPool.set (s : PoolState) (tag : Tag) : PoolState :=
  if indexOf s._tagPool tag 0 = -1 then
    { s with _tagPoolSrcNull := true, _tagPool := s._tagPool ++ [tag] }
  else s

/-! ## `HTMLAudioTagPool` -/

/-- Outcome of the `for` loop of `HTMLAudioTagPool.get`. -/
inductive Scan where
  /-- Cell `i` holds tag `h` and `!s._tagUsed[src][i]` is true: the loop returns. -/
  | found (i : Nat) (h : Handle)
  /-- A tag was met while `s._tagUsed[src]` is `undefined`: reading its cell raises. -/
  | typeError
  /-- The loop ran to the end. -/
  | exhausted
deriving DecidableEq, Repr

/-- The `for` loop of `HTMLAudioTagPool.get` from index `i` on, over the cells that remain. -/
def scan (used : Option (List Flag)) : List Tag → Nat → Scan
  | [], _ => .exhausted
  | none :: rest, i => scan used rest (i + 1)
  | some h :: rest, i =>
    match used with
    | none => .typeError
    | some us => if arrayGet us i = some true then scan used rest (i + 1) else .found i h

/-- Cells of `s._tagUsed[src]` as the read `s._tagUsed[src][i]` sees them; `none` when
`s._tagUsed[src]` is `undefined`, where the read raises.  A member inherited from
`Object.prototype` has no cells: every read gives `undefined`, as with an empty array. -/
def flagCells (s : PoolState) (src : String) : Option (List Flag) :=
  match lookup s._tagUsed src with
  | some us => some us
  | none => (lookup objectPrototype src).map (fun _ => [])

/-- Function `HTMLAudioTagPool.get`.  When `s._tags[src]` is a member inherited from
`Object.prototype` the loop meets no tag, whatever its `length`, as when it is `undefined`; with
a `length` other than `0` the second branch is taken and `s._tags[src].push` raises, after a tag
has been obtained from the pool.  The assignment `s._tagUsed[src][i] = true` leaves the state
alone when `s._tagUsed[src]` is an inherited member. -/
def HTMLAudioTagPool.get (s : PoolState) (src : String) : Completion Handle :=
  let tags := (lookup s._tags src).getD []
  match scan (flagCells s src) tags 0 with
  | .found i h =>
    match lookup s._tagUsed src with
    | some us => .normal { s with _tagUsed := assign s._tagUsed src (arraySet us i true) } h
    | none => .normal s h
  | .typeError => .thrown s
  | .exhausted =>
    if lengthOf s._tags src = some 0 then
      match TagPool.get s with
      | .thrown s1 => .thrown s1
      | .normal s1 t =>
        .normal { s1 with
          _audioTagCount := s1._audioTagCount + 1
          _tags := assign s1._tags src [some t]
          elements := updateElement s1.elements t (fun e => { e with src := some src })
          _tagUsed := assign s1._tagUsed src [some false] } t
    else
      match TagPool.get { s with console := s.console ++ [.creatingNewTag src] } with
      | .thrown s1 => .thrown s1
      | .normal s1 t =>
        match lookup s._tags src with
        | none => .thrown { s1 with _audioTagCount := s1._audioTagCount + 1 }
        | some _ =>
          let s2 := { s1 with
            _audioTagCount := s1._audioTagCount + 1
            _tags := assign s1._tags src (tags ++ [some t]) }
          match lookup s2._tagUsed src with
          | none => .thrown s2
          | some us =>
            .normal { s2 with
              _tagUsed := assign s2._tagUsed src (us ++ [some true])
              elements := updateElement s2.elements t (fun e =>
                { e with
                  src := some src
                  errorListener := e.errorListener || s.isInternetExplorer }) }
              t

/-- The assignments `s._tagUsed[src][i] = false` made by the loop of `HTMLAudioTagPool.set`, from
index `i` on, over the cells of `s._tags[src]` that remain. -/
def markUnused (tag : Handle) : List Tag → Nat → List Flag → List Flag
  | [], _, us => us
  | t :: rest, i, us =>
    if t = some tag then markUnused tag rest (i + 1) (arraySet us i false)
    else markUnused tag rest (i + 1) us

/-- Function `HTMLAudioTagPool.set`.  Reading `s._tags[src].length` raises when `s._tags[src]`
is `undefined`, `tag.removeEventListener` raises when `tag` is `undefined`, and the assignment in
the loop raises when `s._tagUsed[src]` is `undefined`.  When `s._tags[src]` is a member inherited
from `Object.prototype`, none of its cells equals the tag, which goes to the pool; when
`s._tagUsed[src]` is one, the assignment in the loop leaves the state alone. -/
def HTMLAudioTagPool.set (s : PoolState) (src : String) (tag : Tag) : Completion Unit :=
  match lookup s._tags src with
  | none =>
    match lookup objectPrototype src with
    | none => .thrown s
    | some _ =>
      match tag with
      | none => .thrown s
      | some h =>
        let s1 := { s with
          elements := updateElement s.elements h (fun e => { e with errorListener := false }) }
        .normal (TagPool.set { s1 with _audioTagCount := s1._audioTagCount - 1 } tag) ()
  | some tags =>
    match tag with
    | none => .thrown s
    | some h =>
      let s1 := { s with
        elements := updateElement s.elements h (fun e => { e with errorListener := false }) }
      if tags.contains (some h) then
        match lookup s1._tagUsed src with
        | none =>
          match lookup objectPrototype src with
          | none => .thrown s1
          | some _ => .normal s1 ()
        | some us => .normal { s1 with _tagUsed := assign s1._tagUsed src (markUnused h tags 0 us) } ()
      else
        .normal (TagPool.set { s1 with _audioTagCount := s1._audioTagCount - 1 } tag) ()

/-- The `for` loop of `HTMLAudioTagPool.remove` over the array `s._tags[src]`, from index `i`
on, with `n` iterations to go.  The statement `delete(s._tagUsed[src][i])` raises when
`s._tagUsed[src]` is `undefined` and does nothing when it is a member inherited from
`Object.prototype`. -/
def removeLoop (src : String) : Nat → Nat → PoolState → Completion Bool
  | 0, _, s => .normal s true
  | n + 1, i, s =>
    let tags := (lookup s._tags src).getD []
    let s1 := TagPool.set s (arrayGet tags i)
    let s2 := { s1 with _tags := assign s1._tags src (arrayDelete tags i) }
    match lookup s2._tagUsed src with
    | none =>
      match lookup objectPrototype src with
      | none => .thrown s2
      | some _ => removeLoop src n (i + 1) s2
    | some us =>
      removeLoop src n (i + 1) { s2 with _tagUsed := assign s2._tagUsed src (arrayDelete us i) }

/-- The `for` loop of `HTMLAudioTagPool.remove` when `s._tags[src]` is a member inherited from
`Object.prototype`, from index `i` on, with `n` iterations to go: every cell `s._tags[src][i]`
reads as `undefined`, which is handed to the pool, and `delete` finds no cell in the member. -/
def removeLoopInherited (src : String) : Nat → Nat → PoolState → PoolState
  | 0, _, s => s
  | n + 1, i, s =>
    let s1 := TagPool.set s none
    match lookup s1._tagUsed src with
    | none => removeLoopInherited src n (i + 1) s1
    | some us =>
      removeLoopInherited src n (i + 1)
        { s1 with _tagUsed := assign s1._tagUsed src (arrayDelete us i) }

/-- Function `HTMLAudioTagPool.remove`.  A member that `s._tags` inherits from `Object.prototype`
is not `null`: the loop runs over its `length`, none when it has no `length`, and the function
returns `true`. -/
def HTMLAudioTagPool.remove (s : PoolState) (src : String) : Completion Bool :=
  match lookup s._tags src with
  | none =>
    match lookup objectPrototype src with
    | none => .normal s false
    | some length => .normal (removeLoopInherited src (length.getD 0) 0 s) true
  | some tags => removeLoop src tags.length 0 s

/-- Function `HTMLAudioTagPool.getDuration`.  Reading `s._tags[src][0]` raises when
`s._tags[src]` is `undefined` and gives `undefined` when it is a member inherited from
`Object.prototype`.  An element that does not exist has no `duration`. -/
def HTMLAudioTagPool.getDuration (s : PoolState) (src : String) : Completion JsNumber :=
  match lookup s._tags src with
  | none =>
    match lookup objectPrototype src with
    | none => .thrown s
    | some _ => .normal s (.finite 0)
  | some tags =>
    match arrayGet tags 0 with
    | none => .normal s (.finite 0)
    | some t =>
      match s.elements[t]? with
      | none => .normal s (.finite 0)
      | some e => if e.duration.falsy then .normal s (.finite 0) else .normal s e.duration.times1000

/-- The part of an `"error"` event that `_handleMaximumInstances` reads. -/
structure ErrorEvent where
  /-- Value of `e.target.error.code`. -/
  code : Nat
  /-- Element `e.currentTarget`. -/
  currentTarget : Handle
deriving DecidableEq, Repr

/-- Statements `e.currentTarget.removeEventListener(s._handleMaximumInstances);
e.currentTarget.load();`.  The first call names no event type and no listener that was ever
registered, so it is taken to return without removing the `"error"` listener. -/
def reload (s : PoolState) (e : ErrorEvent) : PoolState :=
  { s with loadCalls := s.loadCalls ++ [e.currentTarget] }

/-- How the loops of `_handleMaximumInstances` end. -/
inductive Sweep where
  /-- The loop ran to the end, with this value of `remove_count`. -/
  | done (st : PoolState) (remove_count : Nat)
  /-- The `return` inside the loop was taken, after the reload. -/
  | returned (st : PoolState)
  /-- A `TypeError` escaped. -/
  | raised (st : PoolState)
deriving DecidableEq, Repr

/-- State at the end of the loops. -/
def Sweep.state : Sweep → PoolState
  | .done st _ => st
  | .returned st => st
  | .raised st => st

/-- The inner `for` loop of `_handleMaximumInstances` over `current_tags = s._tags[src_name]`,
about to run for the indices `i, i - 1, ..., 1`.  The key comes from the `for ... in` loop, so
`s._tags` has it as a property of its own; `s._tagUsed[src_name]` is read through `flagCells`,
and its `splice` raises when it is not an array. -/
def sweepSource (e : ErrorEvent) (src_name : String) : Nat → PoolState → Nat → Sweep
  | 0, s, remove_count => .done s remove_count
  | i + 1, s, remove_count =>
    if remove_count ≥ 4 then .returned (reload s e)
    else
      match flagCells s src_name with
      | none => .raised s
      | some used =>
        if arrayGet used (i + 1) = some true then sweepSource e src_name i s remove_count
        else
          let current_tags := (lookup s._tags src_name).getD []
          match HTMLAudioTagPool.set s src_name (arrayGet current_tags (i + 1)) with
          | .thrown s1 => .raised s1
          | .normal s1 _ =>
            let s2 := { s1 with _tags := assign s1._tags src_name (current_tags.eraseIdx (i + 1)) }
            match lookup s2._tagUsed src_name with
            | none => .raised s2
            | some used1 =>
              sweepSource e src_name i
                { s2 with _tagUsed := assign s2._tagUsed src_name (used1.eraseIdx (i + 1)) }
                (remove_count + 1)

/-- The loop `for (var src_name in tags)` of `_handleMaximumInstances` over the keys that
remain. -/
def sweepSources (e : ErrorEvent) : List String → PoolState → Nat → Sweep
  | [], s, remove_count => .done s remove_count
  | src_name :: rest, s, remove_count =>
    let current_tags := (lookup s._tags src_name).getD []
    if current_tags.length > 1 then
      match sweepSource e src_name (current_tags.length - 1) s remove_count with
      | .done s1 remove_count1 => sweepSources e rest s1 remove_count1
      | .returned s1 => .returned s1
      | .raised s1 => .raised s1
    else sweepSources e rest s remove_count

/-- Value of `e.currentTarget.src`. -/
def srcOf (s : PoolState) (h : Handle) : Option String :=
  match s.elements[h]? with
  | some t => t.src
  | none => none

/-- Function `HTMLAudioTagPool._handleMaximumInstances`. -/
def HTMLAudioTagPool._handleMaximumInstances (s : PoolState) (e : ErrorEvent) :
    Completion Unit :=
  if e.code = 4 then
    match sweepSources e (keys s._tags) s 0 with
    | .done s1 remove_count =>
      if remove_count = 0 then
        .normal { s1 with
          console := s1.console ++ [.atMaximumCapacity (srcOf s1 e.currentTarget)] } ()
      else .normal (reload s1 e) ()
    | .returned s1 => .normal s1 ()
    | .raised s1 => .thrown s1
  else .normal s ()

/-! ## Sequences of calls -/

/-- A call of one of the public functions, or the browser delivering an `"error"` event to
`_handleMaximumInstances`. -/
inductive Call where
  | acquire (src : String)
  | release (src : String) (tag : Handle)
  | remove (src : String)
  | quota (e : ErrorEvent)
deriving DecidableEq, Repr

/-- State that a call leaves behind, whether it returns or raises. -/
def perform (s : PoolState) : Call → PoolState
  | .acquire src => (HTMLAudioTagPool.get s src).state
  | .release src tag => (HTMLAudioTagPool.set s src (some tag)).state
  | .remove src => (HTMLAudioTagPool.remove s src).state
  | .quota e => (HTMLAudioTagPool._handleMaximumInstances s e).state

/-- States reached from the state after loading the script by calls that `allowed` admits. -/
inductive Reachable (allowed : PoolState → Call → Prop) : PoolState → Prop where
  | loaded (ie : Bool) : Reachable allowed (empty ie)
  | step (s : PoolState) (c : Call) :
      Reachable allowed s → allowed s c → Reachable allowed (perform s c)

/-- State after a sequence of calls. -/
def performAll (s : PoolState) (calls : List Call) : PoolState :=
  calls.foldl perform s

/-- Slot array of a source; empty when the source has no entry. -/
def slotsOf (s : PoolState) (src : String) : List Tag :=
  (lookup s._tags src).getD []

/-- Flag array of a source; empty when the source has no entry. -/
def flagsOf (s : PoolState) (src : String) : List Flag :=
  (lookup s._tagUsed src).getD []

/-- Index alignment of the slot array and the flag array of one source: the same length, and the
same cells deleted. -/
def AlignedAt (ts : List Tag) (us : List Flag) : Prop :=
  us.length = ts.length ∧ ∀ i, arrayGet ts i = none ↔ arrayGet us i = none

/-- Index alignment of the registry: every source with a slot array has a flag array aligned with
it. -/
def Aligned (s : PoolState) : Prop :=
  ∀ k ts, lookup s._tags k = some ts → ∃ us, lookup s._tagUsed k = some us ∧ AlignedAt ts us

/-- The slots, paired with their flags, whose flag is `true`. -/
def busySlots (ts : List Tag) (us : List Flag) : List (Tag × Flag) :=
  (ts.zip us).filter (fun p => p.2 = some true)

/-- Every source with a slot array has a flag array, and each of its overflow slots (index 1 and
up) holds a tag. -/
def Slotted (s : PoolState) : Prop :=
  ∀ k ts, lookup s._tags k = some ts →
    (∃ us, lookup s._tagUsed k = some us) ∧
    ∀ i, 1 ≤ i → i < ts.length → arrayGet ts i ≠ none

/-- A call of `get` or of `set` on one source. -/
inductive PoolCall where
  | acquire
  | release (tag : Handle)
deriving DecidableEq, Repr

/-- A run of calls on one source, as its caller sees it. -/
structure Usage where
  /-- State of the module. -/
  st : PoolState
  /-- Tags acquired and not yet released; a tag is listed once for each `get` that returned it
  and has not been answered by a `set`. -/
  acquired : List Handle
  /-- Largest number of different tags that were acquired at the same time. -/
  peak : Nat
  /-- Whether one of the calls raised. -/
  raised : Bool
deriving DecidableEq, Repr

/-- Nothing has been called yet. -/
def Usage.start (ie : Bool) : Usage :=
  { st := empty ie, acquired := [], peak := 0, raised := false }

/-- One call on the source `src`: a tag returned by `get` is acquired once more, a tag given to
`set` once less. -/
def Usage.step (src : String) (u : Usage) : PoolCall → Usage
  | .acquire =>
    match HTMLAudioTagPool.get u.st src with
    | .normal s h =>
      { u with
        st := s
        acquired := h :: u.acquired
        peak := max u.peak (h :: u.acquired).dedup.length }
    | .thrown s => { u with st := s, raised := true }
  | .release h =>
    match HTMLAudioTagPool.set u.st src (some h) with
    | .normal s _ => { u with st := s, acquired := u.acquired.erase h }
    | .thrown s => { u with st := s, raised := true }

/-- A sequence of calls on the source `src`. -/
def Usage.run (src : String) (u : Usage) (calls : List PoolCall) : Usage :=
  calls.foldl (Usage.step src) u

/-- Every `set` of the sequence is given a tag that is acquired at that time. -/
def Usage.admissible (src : String) : Usage → List PoolCall → Bool
  | _, [] => true
  | u, .acquire :: rest => Usage.admissible src (u.step src .acquire) rest
  | u, .release h :: rest =>
    decide (h ∈ u.acquired) && Usage.admissible src (u.step src (.release h)) rest

/-- Largest number of acquisitions outstanding at one time during a run, counted by calls: a
`get` that has returned is outstanding until a `set` is given its tag, also while another
outstanding `get` has returned the same tag. -/
def Usage.outstandingPeak (src : String) : Usage → List PoolCall → Nat
  | u, [] => u.acquired.length
  | u, c :: rest => max u.acquired.length (Usage.outstandingPeak src (u.step src c) rest)

/-- What holds during a run on one source after `n` elements have been created: the source has
the slots `0 .. n - 1`, the peak is `n`, and every slot marked used holds an acquired tag. -/
def UsageInv (src : String) (u : Usage) (n : Nat) : Prop :=
  u.raised = false ∧ u.st.elements.length = n ∧ u.peak = n ∧ u.st._tagPool = [] ∧
  slotsOf u.st src = (List.range n).map some ∧
  (∃ us : List Flag, us.length = n ∧ (0 < n → lookup u.st._tagUsed src = some us) ∧
    ∀ i, arrayGet us i = some true → i ∈ u.acquired) ∧
  ∀ h ∈ u.acquired, h < n

/-- Calls in which every `set` is given an element that exists and that is either held by a slot
of the source named or held by no slot at all. -/
def Owned (s : PoolState) : Call → Prop
  | .release src tag =>
    tag < s.elements.length ∧ (some tag ∈ slotsOf s src ∨ ∀ k, some tag ∉ slotsOf s k)
  | _ => True

/-- Calls admitted by `Owned` that are not error events, every `get` being given a key that is
not the name of a member inherited from `Object.prototype`. -/
def OwnedNoQuota (s : PoolState) (c : Call) : Prop :=
  Owned s c ∧ (∀ e, c ≠ .quota e) ∧
    ∀ src, c = .acquire src → lookup objectPrototype src = none

/-- No tag is in the slots of two sources, no tag of the Free Pool is in a slot, the tags in
slots and in the Free Pool are elements that exist, and the Free Pool holds nothing twice. -/
def Separated (s : PoolState) : Prop :=
  (∀ k1 k2 h, some h ∈ slotsOf s k1 → some h ∈ slotsOf s k2 → k1 = k2) ∧
  (∀ h k, some h ∈ s._tagPool → some h ∉ slotsOf s k) ∧
  (∀ h, some h ∈ s._tagPool → h < s.elements.length) ∧
  (∀ h k, some h ∈ slotsOf s k → h < s.elements.length) ∧
  s._tagPool.Nodup

/-- Every element created is in the Free Pool or in a slot, and no slot array holds a tag
twice. -/
def Accounted (s : PoolState) : Prop :=
  (∀ h, h < s.elements.length → some h ∈ s._tagPool ∨ ∃ k, some h ∈ slotsOf s k) ∧
  (∀ k, (slotsOf s k).reduceOption.Nodup)

/-- Number of audio elements created so far. -/
def createdCount (s : PoolState) : Nat :=
  s.elements.length

/-- Number of tags held in the slot arrays of all sources. -/
def boundCount (s : PoolState) : Nat :=
  ((keys s._tags).map (fun k => (slotsOf s k).reduceOption.length)).sum

/-- Number of tags held in the Free Pool. -/
def freeCount (s : PoolState) : Nat :=
  s._tagPool.reduceOption.length

/-- Number of slots of all sources. -/
def slotCount (s : PoolState) : Nat :=
  ((keys s._tags).map (fun k => (slotsOf s k).length)).sum


/-! ## Objects and arrays: basic facts -/

theorem lookup_assign_same {α : Type} (m : List (String × α)) (k : String) (v : α) :
    lookup (assign m k v) k = some v := by
  induction m with
  | nil => simp [assign, lookup]
  | cons p rest ih =>
    obtain ⟨k0, w⟩ := p
    by_cases hk : k0 = k
    · simp [assign, lookup, hk]
    · simp [assign, lookup, hk, ih]

theorem lookup_assign_other {α : Type} (m : List (String × α)) (k k1 : String) (v : α)
    (hne : k1 ≠ k) : lookup (assign m k v) k1 = lookup m k1 := by
  induction m with
  | nil =>
    have : ¬ k = k1 := fun e => hne e.symm
    simp [assign, lookup, this]
  | cons p rest ih =>
    obtain ⟨k0, w⟩ := p
    by_cases hk : k0 = k
    · subst hk
      have : ¬ k0 = k1 := fun e => hne e.symm
      simp [assign, lookup, this]
    · by_cases hk1 : k0 = k1
      · subst hk1
        simp [assign, lookup, hk]
      · simp [assign, lookup, hk, hk1, ih]

theorem arrayGet_lt_length {α : Type} (a : List (Option α)) (i : Nat) (v : α)
    (h : arrayGet a i = some v) : i < a.length := by
  by_contra hlt
  have : a[i]? = none := List.getElem?_eq_none (Nat.le_of_not_lt hlt)
  simp [arrayGet, this] at h

theorem arrayGet_arraySet_same {α : Type} (a : List (Option α)) (i : Nat) (v : α) :
    arrayGet (arraySet a i v) i = some v := by
  unfold arrayGet arraySet
  by_cases h : i < a.length
  · simp [h]
  · have hle : a.length ≤ i := Nat.le_of_not_lt h
    have hlen : (a ++ List.replicate (i - a.length) none).length = i := by
      simp; omega
    simp only [h, if_false]
    rw [List.getElem?_append_right (by omega)]
    simp [hlen]

theorem arrayGet_arraySet_other {α : Type} (a : List (Option α)) (i j : Nat) (v : α)
    (hne : j ≠ i) : arrayGet (arraySet a i v) j = arrayGet a j := by
  unfold arrayGet arraySet
  by_cases h : i < a.length
  · have hij : i ≠ j := fun e => hne e.symm
    simp [h, List.getElem?_set_ne hij]
  · have hle : a.length ≤ i := Nat.le_of_not_lt h
    simp only [h, if_false]
    by_cases hj : j < a.length
    · rw [List.append_assoc, List.getElem?_append_left hj]
    · have hj2 : a.length ≤ j := Nat.le_of_not_lt hj
      rw [List.getElem?_eq_none hj2]
      by_cases hji : j < i
      · rw [List.getElem?_append_left (by simp; omega),
          List.getElem?_append_right hj2]
        rw [List.getElem?_replicate]
        simp
      · rw [List.getElem?_eq_none (by simp; omega)]

/-! ## Reads that may reach `Object.prototype` -/

theorem flagCells_of_lookup (s : PoolState) (k : String) (us : List Flag)
    (h : lookup s._tagUsed k = some us) : flagCells s k = some us := by
  simp [flagCells, h]

theorem flagCells_of_tagUsed_eq (s s1 : PoolState) (k : String) (h : s1._tagUsed = s._tagUsed) :
    flagCells s1 k = flagCells s k := by
  simp [flagCells, h]

theorem lengthOf_of_lookup (m : List (String × List Tag)) (k : String) (ts : List Tag)
    (h : lookup m k = some ts) : lengthOf m k = some ts.length := by
  simp [lengthOf, h]

/-- For a key that is not the name of an inherited member, `s._tags[src]` without an own entry
is `undefined`. -/
theorem lengthOf_of_plain (m : List (String × List Tag)) (k : String)
    (hk : lookup objectPrototype k = none) :
    lengthOf m k = some ((lookup m k).getD []).length := by
  cases h : lookup m k with
  | none => simp [lengthOf, h, hk]
  | some ts => simp [lengthOf, h]

/-- The three things `s._tags[src]` can be. -/
theorem lengthOf_cases (m : List (String × List Tag)) (k : String) :
    (∃ ts, lookup m k = some ts ∧ lengthOf m k = some ts.length) ∨
    (lookup m k = none ∧ lookup objectPrototype k = none ∧ lengthOf m k = some 0) ∨
    (∃ l, lookup m k = none ∧ lookup objectPrototype k = some l ∧ lengthOf m k = l) := by
  cases h : lookup m k with
  | some ts => exact Or.inl ⟨ts, rfl, by simp [lengthOf, h]⟩
  | none =>
    cases hp : lookup objectPrototype k with
    | none => exact Or.inr (Or.inl ⟨rfl, rfl, by simp [lengthOf, h, hp]⟩)
    | some l => exact Or.inr (Or.inr ⟨l, rfl, rfl, by simp [lengthOf, h, hp]⟩)

/-! ## The scan of `get` -/

/-- The scan returns the first cell that holds a tag whose flag does not read as `true`. -/
theorem scan_lowest (us : List Flag) :
    ∀ (ts : List Tag) (k i : Nat) (h : Handle), ts[i]? = some (some h) →
      arrayGet us (k + i) ≠ some true →
      (∀ j t, j < i → ts[j]? = some (some t) → arrayGet us (k + j) = some true) →
      scan (some us) ts k = .found (k + i) h := by
  intro ts
  induction ts with
  | nil => intro k i h hi; simp at hi
  | cons t rest ih =>
    intro k i h hi hfree hlow
    cases i with
    | zero =>
      simp at hi
      subst hi
      have hf : ¬ arrayGet us k = some true := by simpa using hfree
      simp [scan, hf]
    | succ i =>
      simp at hi
      have hrest : scan (some us) rest (k + 1) = .found (k + 1 + i) h := by
        apply ih (k + 1) i h hi
        · have : k + 1 + i = k + (i + 1) := by omega
          rw [this]; exact hfree
        · intro j t1 hj hjt
          have := hlow (j + 1) t1 (by omega) (by simpa using hjt)
          have e : k + 1 + j = k + (j + 1) := by omega
          rw [e]; exact this
      have e : k + 1 + i = k + (i + 1) := by omega
      cases t with
      | none => simp [scan, hrest, e]
      | some t0 =>
        have h0 := hlow 0 t0 (by omega) (by simp)
        simp at h0
        simp [scan, h0, hrest, e]

/-- The scan runs to the end when every cell that holds a tag has a flag reading `true`. -/
theorem scan_exhausted (us : List Flag) :
    ∀ (ts : List Tag) (k : Nat),
      (∀ j t, ts[j]? = some (some t) → arrayGet us (k + j) = some true) →
      scan (some us) ts k = .exhausted := by
  intro ts
  induction ts with
  | nil => intro k _; rfl
  | cons t rest ih =>
    intro k hall
    have hrest : scan (some us) rest (k + 1) = .exhausted := by
      apply ih
      intro j t1 hjt
      have := hall (j + 1) t1 (by simpa using hjt)
      have e : k + 1 + j = k + (j + 1) := by omega
      rw [e]; exact this
    cases t with
    | none => simp [scan, hrest]
    | some t0 =>
      have h0 := hall 0 t0 (by simp)
      simp at h0
      simp [scan, h0, hrest]

/-! ## `TagPool.get` -/

/-- When the cell that `pop` would take is not `undefined`, `TagPool.get` returns a tag: a new
element when the pool is empty, the last cell of the pool otherwise.  Nothing but the pool and the
elements changes. -/
theorem TagPool_get_returns (s : PoolState) (hpool : s._tagPool.getLast? ≠ some none) :
    ∃ s1 t, TagPool.get s = .normal s1 t ∧
      s1._tags = s._tags ∧ s1._tagUsed = s._tagUsed ∧ s1._audioTagCount = s._audioTagCount ∧
      s1.console = s.console ∧ s1.isInternetExplorer = s.isInternetExplorer ∧
      ((s._tagPool = [] ∧ s1._tagPool = [] ∧ t = s.elements.length ∧
          s1.elements.length = s.elements.length + 1) ∨
       (s._tagPool = s1._tagPool ++ [some t] ∧ s1.elements.length = s.elements.length)) := by
  unfold TagPool.get
  by_cases hlen : s._tagPool.length = 0
  · have hnil : s._tagPool = [] := List.length_eq_zero.mp hlen
    simp only [hlen, if_true]
    exact ⟨_, _, rfl, rfl, rfl, rfl, rfl, rfl, Or.inl ⟨hnil, hnil, rfl, by simp⟩⟩
  · have hne : s._tagPool ≠ [] := fun e => hlen (by simp [e])
    have hlast : s._tagPool.getLast? = some (s._tagPool.getLast hne) :=
      List.getLast?_eq_getLast _ hne
    have hsplit : s._tagPool = s._tagPool.dropLast ++ [s._tagPool.getLast hne] :=
      (List.dropLast_append_getLast hne).symm
    cases hx : s._tagPool.getLast hne with
    | none => rw [hx] at hlast; exact absurd hlast hpool
    | some t =>
      rw [hx] at hlast hsplit
      simp only [hlen, if_false, hlast]
      refine ⟨_, t, rfl, rfl, rfl, rfl, rfl, rfl, Or.inr ⟨hsplit, ?_⟩⟩
      simp only [updateElement]
      split <;> simp

theorem length_updateElement (es : List AudioTag) (h : Handle) (f : AudioTag → AudioTag) :
    (updateElement es h f).length = es.length := by
  unfold updateElement
  split <;> simp

/-! ## Acquire: `HTMLAudioTagPool.get` -/

/-- C1 (amended): for every state whose Free Pool would not hand out an `undefined` cell and every
source key that has no slots yet (no entry, or an empty array) and is not the name of a member
that `s._tags` inherits from `Object.prototype`, `get` obtains exactly one tag from the Handle
Pool (a new element when the pool is empty, its last cell otherwise), makes it slot 0 of the
source and returns it; the flag of slot 0 is set to `false`, that is, the slot is left marked as
not in use.  The counter goes up by one, other sources are untouched and nothing is logged. -/
theorem C1_get_creates_base_slot_flag_false (s : PoolState) (src : String)
    (hnone : (lookup s._tags src).getD [] = [])
    (hsrc : lookup objectPrototype src = none)
    (hpool : s._tagPool.getLast? ≠ some none) :
    ∃ s1 t, HTMLAudioTagPool.get s src = .normal s1 t ∧
      lookup s1._tags src = some [some t] ∧
      lookup s1._tagUsed src = some [some false] ∧
      s1._audioTagCount = s._audioTagCount + 1 ∧
      ((s._tagPool = [] ∧ s1._tagPool = [] ∧ t = s.elements.length ∧
          s1.elements.length = s.elements.length + 1) ∨
       (s._tagPool = s1._tagPool ++ [some t] ∧ s1.elements.length = s.elements.length)) ∧
      (∀ k, k ≠ src →
        lookup s1._tags k = lookup s._tags k ∧ lookup s1._tagUsed k = lookup s._tagUsed k) ∧
      s1.console = s.console := by
  obtain ⟨p, t, hget, htags, hused, hcount, hcons, _, hfrom⟩ := TagPool_get_returns s hpool
  have hrun : HTMLAudioTagPool.get s src = .normal { p with
      _audioTagCount := p._audioTagCount + 1
      _tags := assign p._tags src [some t]
      elements := updateElement p.elements t (fun e => { e with src := some src })
      _tagUsed := assign p._tagUsed src [some false] } t := by
    have hlen : lengthOf s._tags src = some 0 := by
      rw [lengthOf_of_plain _ _ hsrc, hnone]
      rfl
    unfold HTMLAudioTagPool.get
    simp only [hnone, scan, hlen, if_true, hget]
  refine ⟨_, t, hrun, lookup_assign_same _ _ _, lookup_assign_same _ _ _, ?_, ?_, ?_, hcons⟩
  · simp [hcount]
  · simpa [length_updateElement] using hfrom
  · intro k hk
    simp only [lookup_assign_other _ _ _ _ hk, htags, hused, and_self]

/-- C1 (witness): the first `get("a")` after loading the script. -/
theorem C1_get_creates_base_slot_flag_false_witness :
    ∃ s1 t, HTMLAudioTagPool.get (empty false) "a" = .normal s1 t ∧
      lookup s1._tags "a" = some [some t] ∧
      lookup s1._tagUsed "a" = some [some false] ∧
      s1._audioTagCount = (empty false)._audioTagCount + 1 ∧
      (((empty false)._tagPool = [] ∧ s1._tagPool = [] ∧ t = (empty false).elements.length ∧
          s1.elements.length = (empty false).elements.length + 1) ∨
       ((empty false)._tagPool = s1._tagPool ++ [some t] ∧
          s1.elements.length = (empty false).elements.length)) ∧
      (∀ k, k ≠ "a" →
        lookup s1._tags k = lookup (empty false)._tags k ∧
          lookup s1._tagUsed k = lookup (empty false)._tagUsed k) ∧
      s1.console = (empty false).console :=
  C1_get_creates_base_slot_flag_false (empty false) "a" (by decide) (by decide) (by decide)

/-- C1 (counterexample): after the first `get("a")` the flag of slot 0 reads `false`, not
`true`.  And the first `get("constructor")` makes no slot: `s._tags["constructor"]` is the
function `Object`, whose `length` is 1, so the second branch is taken and
`s._tags[src].push` raises; the element created for the call is left in the document. -/
theorem C1_counterexample_slot_zero_not_marked_used :
    (HTMLAudioTagPool.get (empty false) "a").value? = some 0 ∧
    lookup (HTMLAudioTagPool.get (empty false) "a").state._tags "a" = some [some 0] ∧
    arrayGet ((lookup (HTMLAudioTagPool.get (empty false) "a").state._tagUsed "a").getD []) 0
      = some false ∧
    ¬ arrayGet ((lookup (HTMLAudioTagPool.get (empty false) "a").state._tagUsed "a").getD []) 0
      = some true ∧
    lookup (empty false)._tags "constructor" = none ∧
    (HTMLAudioTagPool.get (empty false) "constructor").raised = true ∧
    lookup (HTMLAudioTagPool.get (empty false) "constructor").state._tags "constructor" = none ∧
    (HTMLAudioTagPool.get (empty false) "constructor").state.elements.length = 1 := by
  decide

/-- C2: for every state and every source key with a slot `i` that holds a tag `h` whose in-use
flag is `false`, every lower slot that holds a tag being in use, `get` returns `h`, writes `true`
into flag `i` and changes nothing else: the other flags, the length of the flag array, the slot
arrays, the Free Pool, the counter, the elements and the log are as before. -/
theorem C2_get_reuses_lowest_idle_slot (s : PoolState) (src : String)
    (ts : List Tag) (us : List Flag) (i : Nat) (h : Handle)
    (hts : lookup s._tags src = some ts) (hus : lookup s._tagUsed src = some us)
    (hi : ts[i]? = some (some h)) (hidle : arrayGet us i = some false)
    (hlow : ∀ j t, j < i → ts[j]? = some (some t) → arrayGet us j = some true) :
    HTMLAudioTagPool.get s src
        = .normal { s with _tagUsed := assign s._tagUsed src (arraySet us i true) } h ∧
      arrayGet (arraySet us i true) i = some true ∧
      (∀ j, j ≠ i → arrayGet (arraySet us i true) j = arrayGet us j) ∧
      (arraySet us i true).length = us.length ∧
      (∀ s1, s1 = (HTMLAudioTagPool.get s src).state →
        s1._tags = s._tags ∧ s1._tagPool = s._tagPool ∧
        s1._audioTagCount = s._audioTagCount ∧ s1.elements = s.elements ∧
        s1.console = s.console ∧
        ∀ k, k ≠ src → lookup s1._tagUsed k = lookup s._tagUsed k) := by
  have hscan : scan (some us) ts 0 = .found i h := by
    have := scan_lowest us ts 0 i h hi (by simp [hidle])
      (by intro j t hj hjt; simpa using hlow j t hj hjt)
    simpa using this
  have hrun : HTMLAudioTagPool.get s src
      = .normal { s with _tagUsed := assign s._tagUsed src (arraySet us i true) } h := by
    unfold HTMLAudioTagPool.get
    simp only [hts, hus, flagCells_of_lookup s src us hus, Option.getD_some, hscan]
  refine ⟨hrun, arrayGet_arraySet_same _ _ _, fun j hj => arrayGet_arraySet_other _ _ _ _ hj,
    ?_, ?_⟩
  · have hlt := arrayGet_lt_length us i false hidle
    simp [arraySet, hlt]
  · intro s1 hs1
    rw [hrun] at hs1
    subst hs1
    refine ⟨rfl, rfl, rfl, rfl, rfl, ?_⟩
    intro k hk
    exact lookup_assign_other _ _ _ _ hk

/-- C2 (witness): the second `get("a")` after loading the script; slot 0 holds tag 0 with the
flag `false`. -/
theorem C2_get_reuses_lowest_idle_slot_witness :
    HTMLAudioTagPool.get (HTMLAudioTagPool.get (empty false) "a").state "a"
        = .normal { (HTMLAudioTagPool.get (empty false) "a").state with
            _tagUsed := assign (HTMLAudioTagPool.get (empty false) "a").state._tagUsed "a"
              (arraySet [some false] 0 true) } 0 ∧
      arrayGet (arraySet [some false] 0 true) 0 = some true :=
  have h := C2_get_reuses_lowest_idle_slot (HTMLAudioTagPool.get (empty false) "a").state "a"
    [some 0] [some false] 0 0 (by decide) (by decide) (by decide) (by decide)
    (by intro j t hj; omega)
  ⟨h.1, h.2.1⟩

/-- C3 (amended): for every state whose Free Pool would not hand out an `undefined` cell and
every source key that has at least one slot, every slot that holds a tag being in use (flag
`true`), `get` obtains one tag from the Handle Pool, appends it as a new last slot and appends the flag `true`:
both arrays grow by exactly one cell and keep their earlier cells, and the tag returned is the one
appended.  The counter goes up by one, the exhaustion warning is logged and other sources are
untouched. -/
theorem C3_get_appends_overflow_slot (s : PoolState) (src : String)
    (ts : List Tag) (us : List Flag)
    (hts : lookup s._tags src = some ts) (hus : lookup s._tagUsed src = some us)
    (hslots : ts ≠ [])
    (hbusy : ∀ j t, ts[j]? = some (some t) → arrayGet us j = some true)
    (hpool : s._tagPool.getLast? ≠ some none) :
    ∃ s1 t, HTMLAudioTagPool.get s src = .normal s1 t ∧
      lookup s1._tags src = some (ts ++ [some t]) ∧
      lookup s1._tagUsed src = some (us ++ [some true]) ∧
      (ts ++ [some t]).length = ts.length + 1 ∧ (us ++ [some true]).length = us.length + 1 ∧
      s1._audioTagCount = s._audioTagCount + 1 ∧
      ((s._tagPool = [] ∧ s1._tagPool = [] ∧ t = s.elements.length ∧
          s1.elements.length = s.elements.length + 1) ∨
       (s._tagPool = s1._tagPool ++ [some t] ∧ s1.elements.length = s.elements.length)) ∧
      (∀ k, k ≠ src →
        lookup s1._tags k = lookup s._tags k ∧ lookup s1._tagUsed k = lookup s._tagUsed k) ∧
      s1.console = s.console ++ [.creatingNewTag src] := by
  have hpool1 : ({ s with console := s.console ++ [.creatingNewTag src] } : PoolState)._tagPool.getLast?
      ≠ some none := hpool
  obtain ⟨p, t, hget, htags, hused, hcount, hcons, hie, hfrom⟩ := TagPool_get_returns _ hpool1
  have hscan : scan (some us) ts 0 = .exhausted :=
    scan_exhausted us ts 0 (by intro j t1 hjt; simpa using hbusy j t1 hjt)
  have hlen : ¬ ts.length = 0 := fun e => hslots (List.length_eq_zero.mp e)
  have hus1 : lookup p._tagUsed src = some us := by rw [hused]; exact hus
  have hrun : HTMLAudioTagPool.get s src = .normal { p with
      _audioTagCount := p._audioTagCount + 1
      _tags := assign p._tags src (ts ++ [some t])
      _tagUsed := assign p._tagUsed src (us ++ [some true])
      elements := updateElement p.elements t (fun e =>
        { e with src := some src, errorListener := e.errorListener || s.isInternetExplorer }) }
      t := by
    unfold HTMLAudioTagPool.get
    simp only [hts, flagCells_of_lookup s src us hus, lengthOf_of_lookup _ _ _ hts,
      Option.some.injEq, Option.getD_some, hscan, hlen, if_false, hget, hus1]
  refine ⟨_, t, hrun, lookup_assign_same _ _ _, lookup_assign_same _ _ _, by simp, by simp,
    ?_, ?_, ?_, hcons⟩
  · simp [hcount]
  · simpa [length_updateElement] using hfrom
  · intro k hk
    simp only [lookup_assign_other _ _ _ _ hk, htags, hused, and_self]

/-- C3 (witness): the third consecutive `get("a")` after loading the script; slot 0 is in use
then. -/
theorem C3_get_appends_overflow_slot_witness :
    ∃ s1 t, HTMLAudioTagPool.get
        (HTMLAudioTagPool.get (HTMLAudioTagPool.get (empty true) "a").state "a").state "a"
        = .normal s1 t ∧
      lookup s1._tags "a" = some ([some 0] ++ [some t]) ∧
      lookup s1._tagUsed "a" = some ([some true] ++ [some true]) :=
  have h := C3_get_appends_overflow_slot
    (HTMLAudioTagPool.get (HTMLAudioTagPool.get (empty true) "a").state "a").state "a"
    [some 0] [some true] (by decide) (by decide) (by decide)
    (by
      intro j t hj
      cases j with
      | zero => decide
      | succ j => simp at hj)
    (by decide)
  h.elim fun s1 h1 => h1.elim fun t h2 => ⟨s1, t, h2.1, h2.2.1, h2.2.2.1⟩

/-- C3 (counterexample): after `get("b")`, `get("b")`, `get("a")`, `remove("a")` and
`remove("a")` the source `"b"` has one slot, which is in use, and the last cell of the Free Pool
is `undefined`.  `get("b")` pops that cell and raises at `tag.parentNode`: no slot and no flag is
appended and nothing is returned. -/
theorem C3_counterexample_pool_hands_out_undefined :
    lookup (performAll (empty false) [.acquire "b", .acquire "b", .acquire "a", .remove "a",
      .remove "a"])._tags "b" = some [some 0] ∧
    lookup (performAll (empty false) [.acquire "b", .acquire "b", .acquire "a", .remove "a",
      .remove "a"])._tagUsed "b" = some [some true] ∧
    (performAll (empty false) [.acquire "b", .acquire "b", .acquire "a", .remove "a",
      .remove "a"])._tagPool = [some 1, none] ∧
    (HTMLAudioTagPool.get (performAll (empty false) [.acquire "b", .acquire "b", .acquire "a",
      .remove "a", .remove "a"]) "b").value? = none ∧
    lookup (HTMLAudioTagPool.get (performAll (empty false) [.acquire "b", .acquire "b",
      .acquire "a", .remove "a", .remove "a"]) "b").state._tags "b" = some [some 0] ∧
    lookup (HTMLAudioTagPool.get (performAll (empty false) [.acquire "b", .acquire "b",
      .acquire "a", .remove "a", .remove "a"]) "b").state._tagUsed "b" = some [some true] := by
  decide

/-- C4 (amended): from the state after loading the script, for every source key `a` that is not
the name of a member that `s._tags` inherits from `Object.prototype`, the second of two
consecutive `get(a)` creates no overflow slot: it returns the tag of slot 0 again, the tag
the first call returned, and sets the flag of slot 0 to `true`, the source still having one slot.
It is the third consecutive `get(a)` that creates the overflow slot: afterwards `a` has the two
slots 0 and 1, the flag of slot 1 is `true`, and the call returns the tag of slot 1, which differs
from the tag of slot 0. -/
theorem C4_second_get_reuses_base_third_overflows (a : String) (ie : Bool)
    (ha : lookup objectPrototype a = none) :
    (HTMLAudioTagPool.get (empty ie) a).value? = some 0 ∧
    (HTMLAudioTagPool.get (HTMLAudioTagPool.get (empty ie) a).state a).value? = some 0 ∧
    lookup (HTMLAudioTagPool.get (HTMLAudioTagPool.get (empty ie) a).state a).state._tags a
      = some [some 0] ∧
    lookup (HTMLAudioTagPool.get (HTMLAudioTagPool.get (empty ie) a).state a).state._tagUsed a
      = some [some true] ∧
    (HTMLAudioTagPool.get
      (HTMLAudioTagPool.get (HTMLAudioTagPool.get (empty ie) a).state a).state a).value?
      = some 1 ∧
    lookup (HTMLAudioTagPool.get
      (HTMLAudioTagPool.get (HTMLAudioTagPool.get (empty ie) a).state a).state a).state._tags a
      = some [some 0, some 1] ∧
    lookup (HTMLAudioTagPool.get
      (HTMLAudioTagPool.get (HTMLAudioTagPool.get (empty ie) a).state a).state a).state._tagUsed a
      = some [some true, some true] := by
  have h1 : HTMLAudioTagPool.get (empty ie) a = .normal
      { empty ie with
        _tags := [(a, [some 0])], _tagUsed := [(a, [some false])], _audioTagCount := 1
        elements := [{ TagPool._createTag with inDocument := true, src := some a }] } 0 := by
    have hlen : lengthOf (empty ie)._tags a = some 0 := by
      rw [lengthOf_of_plain _ _ ha]
      rfl
    unfold HTMLAudioTagPool.get
    rw [hlen]
    simp [empty, lookup, scan, TagPool.get, assign, updateElement]
  rw [h1]
  simp [HTMLAudioTagPool.get, empty, lookup, scan, TagPool.get, assign, updateElement,
    arrayGet, arraySet, Completion.state, Completion.value?, lengthOf, flagCells]

/-- C4 (witness): three consecutive `get("a")` after loading the script. -/
theorem C4_second_get_reuses_base_third_overflows_witness :
    (HTMLAudioTagPool.get (empty false) "a").value? = some 0 ∧
    (HTMLAudioTagPool.get (HTMLAudioTagPool.get (empty false) "a").state "a").value? = some 0 ∧
    (HTMLAudioTagPool.get
      (HTMLAudioTagPool.get (HTMLAudioTagPool.get (empty false) "a").state "a").state "a").value?
      = some 1 :=
  have h := C4_second_get_reuses_base_third_overflows "a" false (by decide)
  ⟨h.1, h.2.1, h.2.2.2.2.1⟩

/-- C4 (counterexample): the second of two consecutive `get("a")` returns the tag the first one
returned and leaves the source with a single slot, so there is no slot 1.  And with the key
`"constructor"` neither call makes a slot: `s._tags["constructor"]` is the function `Object`, and
each call raises at `s._tags[src].push`. -/
theorem C4_counterexample_second_get_same_handle :
    (HTMLAudioTagPool.get (HTMLAudioTagPool.get (empty false) "a").state "a").value?
      = (HTMLAudioTagPool.get (empty false) "a").value? ∧
    lookup (HTMLAudioTagPool.get (HTMLAudioTagPool.get (empty false) "a").state "a").state._tags
      "a" = some [some 0] ∧
    arrayGet ((lookup
      (HTMLAudioTagPool.get (HTMLAudioTagPool.get (empty false) "a").state "a").state._tags
      "a").getD []) 1 = none ∧
    (HTMLAudioTagPool.get (empty false) "constructor").value? = none ∧
    (HTMLAudioTagPool.get
      (HTMLAudioTagPool.get (empty false) "constructor").state "constructor").value? = none ∧
    lookup (HTMLAudioTagPool.get
      (HTMLAudioTagPool.get (empty false) "constructor").state "constructor").state._tags
      "constructor" = none := by
  decide

/-! ## The loop of `set` -/

/-- Flags after the loop of `set`: `false` where the slot holds the tag, as before elsewhere. -/
theorem arrayGet_markUnused (h : Handle) :
    ∀ (ts : List Tag) (k : Nat) (us : List Flag) (j : Nat),
      arrayGet (markUnused h ts k us) j
        = if k ≤ j ∧ ts[j - k]? = some (some h) then some false else arrayGet us j := by
  intro ts
  induction ts with
  | nil => intro k us j; simp [markUnused]
  | cons t rest ih =>
    intro k us j
    by_cases ht : t = some h
    · simp only [markUnused, ht, if_true]
      rw [ih]
      by_cases hjk : j = k
      · subst hjk
        simp [arrayGet_arraySet_same]
      · rw [arrayGet_arraySet_other _ _ _ _ hjk]
        by_cases hlt : k + 1 ≤ j
        · have e : j - k = (j - (k + 1)) + 1 := by omega
          have hk : k ≤ j := by omega
          simp [hlt, hk, e]
        · have hk : ¬ k ≤ j := by omega
          simp [hlt, hk]
    · simp only [markUnused, ht, if_false]
      rw [ih]
      by_cases hjk : j = k
      · subst hjk
        simp [ht]
      · by_cases hlt : k + 1 ≤ j
        · have e : j - k = (j - (k + 1)) + 1 := by omega
          have hk : k ≤ j := by omega
          simp [hlt, hk, e]
        · have hk : ¬ k ≤ j := by omega
          simp [hlt, hk]

/-- The loop of `set` keeps the length of a flag array that is as long as the slot array. -/
theorem length_markUnused (h : Handle) :
    ∀ (ts : List Tag) (k : Nat) (us : List Flag), k + ts.length ≤ us.length →
      (markUnused h ts k us).length = us.length := by
  intro ts
  induction ts with
  | nil => intro k us _; rfl
  | cons t rest ih =>
    intro k us hlen
    simp only [List.length_cons] at hlen
    by_cases ht : t = some h
    · have hk : k < us.length := by omega
      have hset : (arraySet us k false).length = us.length := by simp [arraySet, hk]
      simp only [markUnused, ht, if_true]
      rw [ih (k + 1) _ (by rw [hset]; omega), hset]
    · simp only [markUnused, ht, if_false]
      exact ih (k + 1) us (by omega)

/-! ## `TagPool.set` -/

theorem indexOf_eq_neg_one_iff (x : Tag) :
    ∀ (l : List Tag) (i : Nat), indexOf l x i = -1 ↔ x ∉ l := by
  intro l
  induction l with
  | nil => intro i; simp [indexOf]
  | cons y rest ih =>
    intro i
    by_cases hxy : x = y
    · simp only [indexOf, hxy, if_true, List.mem_cons, true_or, not_true_eq_false, iff_false]
      omega
    · simp only [indexOf, hxy, if_false, List.mem_cons, false_or]
      exact ih (i + 1)

/-- After `TagPool.set` the pool holds what it held before and the tag put back. -/
theorem mem_TagPool_set (s : PoolState) (tag x : Tag) :
    x ∈ (TagPool.set s tag)._tagPool ↔ x ∈ s._tagPool ∨ x = tag := by
  unfold TagPool.set
  by_cases h : indexOf s._tagPool tag 0 = -1
  · simp [h]
  · have hmem : tag ∈ s._tagPool := by
      by_contra hn
      exact h ((indexOf_eq_neg_one_iff tag s._tagPool 0).mpr hn)
    simp only [h, if_false]
    constructor
    · intro hx; exact Or.inl hx
    · rintro (hx | hx)
      · exact hx
      · rw [hx]; exact hmem

/-! ## Release: `HTMLAudioTagPool.set` -/

/-- C6: for every state, source key `a` with a slot array and a flag array, and tag `h` held by
some slot `i` of `a`, `set(a, h)` returns normally, writes `false` into the flag of every slot of
`a` that holds `h`, and changes nothing else of the bookkeeping: the other flags of `a` read as
before (and the flag array keeps its length when it is as long as the slot array), the slot arrays
of all sources, the flag arrays of the other sources, the Free Pool and the counter are as
before. -/
theorem C6_set_marks_slots_of_handle_unused (s : PoolState) (a : String)
    (ts : List Tag) (us : List Flag) (i : Nat) (h : Handle)
    (hts : lookup s._tags a = some ts) (hus : lookup s._tagUsed a = some us)
    (hi : ts[i]? = some (some h)) :
    ∃ s1 us1, HTMLAudioTagPool.set s a (some h) = .normal s1 () ∧
      lookup s1._tagUsed a = some us1 ∧
      (∀ j, arrayGet us1 j = if ts[j]? = some (some h) then some false else arrayGet us j) ∧
      (ts.length ≤ us.length → us1.length = us.length) ∧
      s1._tags = s._tags ∧
      (∀ k, k ≠ a → lookup s1._tagUsed k = lookup s._tagUsed k) ∧
      s1._tagPool = s._tagPool ∧ s1._audioTagCount = s._audioTagCount := by
  have hmem : ts.contains (some h) = true := by
    have := List.getElem?_mem hi
    simpa using this
  have hrun : HTMLAudioTagPool.set s a (some h) = .normal { s with
      elements := updateElement s.elements h (fun e => { e with errorListener := false })
      _tagUsed := assign s._tagUsed a (markUnused h ts 0 us) } () := by
    unfold HTMLAudioTagPool.set
    simp only [hts, hmem, if_true, hus]
  refine ⟨_, markUnused h ts 0 us, hrun, lookup_assign_same _ _ _, ?_, ?_, rfl, ?_, rfl, rfl⟩
  · intro j
    rw [arrayGet_markUnused]
    simp
  · intro hlen
    exact length_markUnused h ts 0 us (by omega)
  · intro k hk
    exact lookup_assign_other _ _ _ _ hk

/-- C6 (witness): releasing the base tag of `"a"` after two `get("a")`; its flag goes from `true`
to `false`. -/
theorem C6_set_marks_slots_of_handle_unused_witness :
    ∃ s1 us1, HTMLAudioTagPool.set
        (HTMLAudioTagPool.get (HTMLAudioTagPool.get (empty false) "a").state "a").state "a"
        (some 0) = .normal s1 () ∧
      lookup s1._tagUsed "a" = some us1 ∧
      (∀ j, arrayGet us1 j
        = if [some 0][j]? = some (some 0) then some false else arrayGet [some true] j) :=
  have h := C6_set_marks_slots_of_handle_unused
    (HTMLAudioTagPool.get (HTMLAudioTagPool.get (empty false) "a").state "a").state "a"
    [some 0] [some true] 0 0 (by decide) (by decide) (by decide)
  h.elim fun s1 h1 => h1.elim fun us1 h2 => ⟨s1, us1, h2.1, h2.2.1, h2.2.2.1⟩

/-- C7: for every state, source key `a` with a slot array, and tag `h` that no slot of `a` holds
and that is not in the Free Pool, `set(a, h)` returns normally, appends `h` to the Free Pool,
lowers the counter by exactly one and leaves the slot arrays and the flag arrays of all sources as
they are. -/
theorem C7_set_returns_unknown_handle_to_pool (s : PoolState) (a : String)
    (ts : List Tag) (h : Handle)
    (hts : lookup s._tags a = some ts) (hslot : some h ∉ ts) (hfree : some h ∉ s._tagPool) :
    ∃ s1, HTMLAudioTagPool.set s a (some h) = .normal s1 () ∧
      s1._tagPool = s._tagPool ++ [some h] ∧
      s1._audioTagCount = s._audioTagCount - 1 ∧
      s1._tags = s._tags ∧ s1._tagUsed = s._tagUsed := by
  have hmem : ts.contains (some h) = false := by
    simpa using hslot
  have hidx : indexOf s._tagPool (some h) 0 = -1 :=
    (indexOf_eq_neg_one_iff (some h) s._tagPool 0).mpr hfree
  have hrun : HTMLAudioTagPool.set s a (some h) = .normal (TagPool.set { s with
      elements := updateElement s.elements h (fun e => { e with errorListener := false })
      _audioTagCount := s._audioTagCount - 1 } (some h)) () := by
    unfold HTMLAudioTagPool.set
    simp only [hts, hmem]
    rfl
  refine ⟨_, hrun, ?_⟩
  simp [TagPool.set, hidx]

/-- C7 (witness): a tag obtained for `"b"` is released under the key `"a"`. -/
theorem C7_set_returns_unknown_handle_to_pool_witness :
    ∃ s1, HTMLAudioTagPool.set
        (HTMLAudioTagPool.get (HTMLAudioTagPool.get (empty false) "a").state "b").state "a"
        (some 1) = .normal s1 () ∧
      s1._tagPool = [] ++ [some 1] ∧
      s1._audioTagCount = 2 - 1 ∧
      s1._tags = [("a", [some 0]), ("b", [some 1])] ∧
      s1._tagUsed = [("a", [some false]), ("b", [some false])] :=
  C7_set_returns_unknown_handle_to_pool
    (HTMLAudioTagPool.get (HTMLAudioTagPool.get (empty false) "a").state "b").state "a"
    [some 0] 1 (by decide) (by decide) (by decide)

/-- C8 (failing input): `"b"` has been acquired, `"a"` never; `set("a", tag)` with the tag obtained
for `"b"` reads `s._tags["a"].length` with `s._tags["a"]` undefined, so a `TypeError` escapes and
nothing is changed. -/
theorem C8_set_raises_for_source_never_acquired :
    (HTMLAudioTagPool.get (empty false) "b").value? = some 0 ∧
    lookup (HTMLAudioTagPool.get (empty false) "b").state._tags "a" = none ∧
    HTMLAudioTagPool.set (HTMLAudioTagPool.get (empty false) "b").state "a" (some 0)
      = .thrown (HTMLAudioTagPool.get (empty false) "b").state ∧
    (HTMLAudioTagPool.set (HTMLAudioTagPool.get (empty false) "b").state "a" (some 0)).raised
      = true := by
  decide

/-! ## Round trip -/

/-- What a scan that returns has seen. -/
theorem scan_found_spec (used : Option (List Flag)) :
    ∀ (ts : List Tag) (k i : Nat) (h : Handle), scan used ts k = .found i h →
      ∃ us, used = some us ∧ k ≤ i ∧ ts[i - k]? = some (some h) ∧
        ∀ j t, j < i - k → ts[j]? = some (some t) → arrayGet us (k + j) = some true := by
  intro ts
  induction ts with
  | nil => intro k i h hs; simp [scan] at hs
  | cons t rest ih =>
    intro k i h hs
    have step : scan used rest (k + 1) = .found i h →
        (∀ t0, t = some t0 → ∀ us, used = some us → arrayGet us k = some true) →
        ∃ us, used = some us ∧ k ≤ i ∧ (t :: rest)[i - k]? = some (some h) ∧
          ∀ j t1, j < i - k → (t :: rest)[j]? = some (some t1) →
            arrayGet us (k + j) = some true := by
      intro hrec hhead
      obtain ⟨us, hu, hle, hget, hlow⟩ := ih (k + 1) i h hrec
      have e : i - k = (i - (k + 1)) + 1 := by omega
      refine ⟨us, hu, by omega, by rw [e]; simpa using hget, ?_⟩
      intro j t1 hj hjt
      cases j with
      | zero =>
        simp at hjt
        exact hhead t1 hjt us hu
      | succ j =>
        have := hlow j t1 (by omega) (by simpa using hjt)
        have e2 : k + 1 + j = k + (j + 1) := by omega
        rw [← e2]; exact this
    cases t with
    | none =>
      simp only [scan] at hs
      exact step hs (by intro t0 h0; cases h0)
    | some t0 =>
      cases used with
      | none => simp [scan] at hs
      | some us =>
        by_cases hb : arrayGet us k = some true
        · simp only [scan, hb, if_true] at hs
          exact step hs (by
            intro t1 _ us1 hu1
            cases hu1
            exact hb)
        · simp only [scan, hb, if_false] at hs
          injection hs with hki hth
          subst hki; subst hth
          exact ⟨us, rfl, Nat.le_refl _, by simp, by intro j t1 hj; omega⟩

/-- What a scan that runs to the end has seen. -/
theorem scan_exhausted_spec (us : List Flag) :
    ∀ (ts : List Tag) (k : Nat), scan (some us) ts k = .exhausted →
      ∀ j t, ts[j]? = some (some t) → arrayGet us (k + j) = some true := by
  intro ts
  induction ts with
  | nil => intro k _ j t hjt; simp at hjt
  | cons t rest ih =>
    intro k hs j t1 hjt
    have step : scan (some us) rest (k + 1) = .exhausted → ∀ j1, j = j1 + 1 →
        arrayGet us (k + j) = some true := by
      intro hrec j1 hj1
      subst hj1
      have := ih (k + 1) hrec j1 t1 (by simpa using hjt)
      have e2 : k + 1 + j1 = k + (j1 + 1) := by omega
      rw [← e2]; exact this
    cases t with
    | none =>
      simp only [scan] at hs
      cases j with
      | zero => simp at hjt
      | succ j1 => exact step hs j1 rfl
    | some t0 =>
      by_cases hb : arrayGet us k = some true
      · simp only [scan, hb, if_true] at hs
        cases j with
        | zero => simpa using hb
        | succ j1 => exact step hs j1 rfl
      · simp [scan, hb] at hs

/-- The scan returns tag `h` when every slot holding `h` is idle and every slot before some
slot holding `h` either holds `h` or is in use. -/
theorem scan_returns_handle (us : List Flag) (h : Handle) :
    ∀ (ts : List Tag) (k i : Nat), ts[i]? = some (some h) →
      (∀ j, ts[j]? = some (some h) → arrayGet us (k + j) ≠ some true) →
      (∀ j t, j < i → ts[j]? = some (some t) → t ≠ h → arrayGet us (k + j) = some true) →
      ∃ i1, scan (some us) ts k = .found i1 h := by
  intro ts
  induction ts with
  | nil => intro k i hi; simp at hi
  | cons t rest ih =>
    intro k i hi hidle hbusy
    have hrec : ∀ i0, i = i0 + 1 → ∃ i1, scan (some us) rest (k + 1) = .found i1 h := by
      intro i0 hi0
      subst hi0
      apply ih (k + 1) i0 (by simpa using hi)
      · intro j hj
        have := hidle (j + 1) (by simpa using hj)
        have e2 : k + 1 + j = k + (j + 1) := by omega
        rw [e2]; exact this
      · intro j t1 hj hjt hne
        have := hbusy (j + 1) t1 (by omega) (by simpa using hjt) hne
        have e2 : k + 1 + j = k + (j + 1) := by omega
        rw [e2]; exact this
    cases t with
    | none =>
      cases i with
      | zero => simp at hi
      | succ i0 => simpa [scan] using hrec i0 rfl
    | some t0 =>
      by_cases hth : t0 = h
      · subst hth
        have hf : ¬ arrayGet us k = some true := by simpa using hidle 0 (by simp)
        exact ⟨k, by simp [scan, hf]⟩
      · cases i with
        | zero =>
          simp at hi
          exact absurd hi hth
        | succ i0 =>
          have hb : arrayGet us k = some true := by simpa using hbusy 0 t0 (by omega) (by simp) hth
          simpa [scan, hb] using hrec i0 rfl

/-- `TagPool.get` changes nothing but the pool and the elements. -/
theorem TagPool_get_frame (s p : PoolState) (t : Handle) (hget : TagPool.get s = .normal p t) :
    p._tags = s._tags ∧ p._tagUsed = s._tagUsed ∧ p._audioTagCount = s._audioTagCount ∧
      p.console = s.console := by
  unfold TagPool.get at hget
  split at hget
  · injection hget with hp _
    subst hp
    exact ⟨rfl, rfl, rfl, rfl⟩
  · split at hget
    · injection hget with hp _
      subst hp
      exact ⟨rfl, rfl, rfl, rfl⟩
    · cases hget

/-- After `get` has returned tag `h` for `a`, some slot `i` of `a` holds `h` and every slot before
it that holds a tag reads as in use. -/
theorem get_normal_shape (s s1 : PoolState) (a : String) (h : Handle)
    (hget : HTMLAudioTagPool.get s a = .normal s1 h) :
    ∃ ts1 us1 i, lookup s1._tags a = some ts1 ∧ flagCells s1 a = some us1 ∧
      ts1[i]? = some (some h) ∧
      ∀ j t, j < i → ts1[j]? = some (some t) → arrayGet us1 j = some true := by
  unfold HTMLAudioTagPool.get at hget
  cases hscan : scan (flagCells s a) ((lookup s._tags a).getD []) 0 with
  | found i h1 =>
    simp only [hscan] at hget
    obtain ⟨us, hu, _, hi, hlow⟩ := scan_found_spec _ _ _ _ _ hscan
    cases hts : lookup s._tags a with
    | none => simp [hts] at hi
    | some ts =>
      simp only [hts, Option.getD_some, Nat.sub_zero] at hi hlow
      cases hown : lookup s._tagUsed a with
      | none =>
        simp only [hown] at hget
        injection hget with hs1 hh
        subst hs1; subst hh
        exact ⟨ts, us, i, hts, hu, hi, fun j t hj hjt => by simpa using hlow j t hj hjt⟩
      | some us0 =>
        simp only [hown] at hget
        injection hget with hs1 hh
        subst hs1; subst hh
        have hu0 : us = us0 := by
          rw [flagCells_of_lookup s a us0 hown] at hu
          injection hu with e
          exact e.symm
        subst hu0
        refine ⟨ts, arraySet us i true, i, hts, ?_, hi, ?_⟩
        · exact flagCells_of_lookup _ _ _ (lookup_assign_same _ _ _)
        · intro j t hj hjt
          rw [arrayGet_arraySet_other _ _ _ _ (by omega)]
          simpa using hlow j t hj hjt
  | typeError => simp [hscan] at hget
  | exhausted =>
    simp only [hscan] at hget
    by_cases hlen : lengthOf s._tags a = some 0
    · simp only [hlen, if_true] at hget
      cases hp : TagPool.get s with
      | thrown p => simp [hp] at hget
      | normal p t =>
        simp only [hp] at hget
        injection hget with hs1 hh
        subst hs1; subst hh
        exact ⟨[some t], [some false], 0, lookup_assign_same _ _ _,
          flagCells_of_lookup _ _ _ (lookup_assign_same _ _ _),
          by simp, by intro j t1 hj; omega⟩
    · simp only [hlen, if_false] at hget
      cases hp : TagPool.get { s with console := s.console ++ [.creatingNewTag a] } with
      | thrown p => simp [hp] at hget
      | normal p t =>
        obtain ⟨_, hused, _, _⟩ := TagPool_get_frame _ _ _ hp
        simp only [hp] at hget
        cases hts : lookup s._tags a with
        | none => simp [hts] at hget
        | some ts =>
          simp only [hts, Option.getD_some] at hget hscan
          cases hus : lookup p._tagUsed a with
          | none => simp [hus] at hget
          | some us =>
            simp only [hus] at hget
            injection hget with hs1 hh
            subst hs1; subst hh
            have hus0 : lookup s._tagUsed a = some us := by rw [← hus, hused]
            rw [flagCells_of_lookup s a us hus0] at hscan
            have hall := scan_exhausted_spec us _ 0 hscan
            refine ⟨ts ++ [some t], us ++ [some true], ts.length, lookup_assign_same _ _ _,
              flagCells_of_lookup _ _ _ (lookup_assign_same _ _ _), by simp, ?_⟩
            intro j t1 hj hjt
            rw [List.getElem?_append_left hj] at hjt
            have hb : arrayGet us j = some true := by simpa using hall j t1 hjt
            have hjl := arrayGet_lt_length us j true hb
            unfold arrayGet at hb ⊢
            rw [List.getElem?_append_left hjl]
            exact hb

/-- C5: for every state (so also every state reachable from the one after loading the script)
and every source key `a`, if `get(a)` returns tag `h`, then `set(a, h)` returns normally and the
next `get(a)` returns the same tag `h` without creating anything: the slot arrays, the Free Pool,
the counter and the number of elements are the same as after the first `get`. -/
theorem C5_get_set_get_round_trip (s s1 : PoolState) (a : String) (h : Handle)
    (hget : HTMLAudioTagPool.get s a = .normal s1 h) :
    ∃ s2 s3, HTMLAudioTagPool.set s1 a (some h) = .normal s2 () ∧
      HTMLAudioTagPool.get s2 a = .normal s3 h ∧
      s3._tags = s1._tags ∧ s3._tagPool = s1._tagPool ∧
      s3._audioTagCount = s1._audioTagCount ∧ s3.elements.length = s1.elements.length := by
  obtain ⟨ts, us, i, hts, hcells, hi, hlow⟩ := get_normal_shape s s1 a h hget
  have hmem : ts.contains (some h) = true := by
    have := List.getElem?_mem hi
    simpa using this
  cases hown : lookup s1._tagUsed a with
  | some us0 =>
    have hu0 : us = us0 := by
      rw [flagCells_of_lookup s1 a us0 hown] at hcells
      injection hcells with e
      exact e.symm
    subst hu0
    have hset : HTMLAudioTagPool.set s1 a (some h) = .normal { s1 with
        elements := updateElement s1.elements h (fun e => { e with errorListener := false })
        _tagUsed := assign s1._tagUsed a (markUnused h ts 0 us) } () := by
      unfold HTMLAudioTagPool.set
      simp only [hts, hmem, if_true, hown]
    obtain ⟨i1, hscan⟩ := scan_returns_handle (markUnused h ts 0 us) h ts 0 i hi
      (by
        intro j hj
        rw [arrayGet_markUnused]
        simp [hj])
      (by
        intro j t hj hjt hne
        rw [arrayGet_markUnused]
        have hne2 : ¬ ts[j]? = some (some h) := by
          rw [hjt]
          intro e
          injection e with e1
          injection e1 with e2
          exact hne e2
        simpa [hne2] using hlow j t hj hjt)
    have hagain : HTMLAudioTagPool.get { s1 with
        elements := updateElement s1.elements h (fun e => { e with errorListener := false })
        _tagUsed := assign s1._tagUsed a (markUnused h ts 0 us) } a
        = .normal { s1 with
          elements := updateElement s1.elements h (fun e => { e with errorListener := false })
          _tagUsed := assign (assign s1._tagUsed a (markUnused h ts 0 us)) a
            (arraySet (markUnused h ts 0 us) i1 true) } h := by
      unfold HTMLAudioTagPool.get
      simp only [hts, flagCells, lookup_assign_same, Option.getD_some, hscan]
    exact ⟨_, _, hset, hagain, rfl, rfl, rfl, length_updateElement _ _ _⟩
  | none =>
    have hproto : ∃ l, lookup objectPrototype a = some l := by
      cases hp : lookup objectPrototype a with
      | none => simp [flagCells, hown, hp] at hcells
      | some l => exact ⟨l, rfl⟩
    obtain ⟨l, hl⟩ := hproto
    have hset : HTMLAudioTagPool.set s1 a (some h) = .normal { s1 with
        elements := updateElement s1.elements h (fun e => { e with errorListener := false }) }
        () := by
      unfold HTMLAudioTagPool.set
      simp only [hts, hmem, if_true, hown, hl]
    obtain ⟨i1, hscan⟩ := scan_returns_handle us h ts 0 i hi
      (by
        intro j _
        have hnil : us = [] := by simpa [flagCells, hown, hl] using hcells.symm
        rw [hnil]
        simp [arrayGet])
      (by
        intro j t hj hjt _
        simpa using hlow j t hj hjt)
    have hagain : HTMLAudioTagPool.get { s1 with
        elements := updateElement s1.elements h (fun e => { e with errorListener := false }) } a
        = .normal { s1 with
          elements := updateElement s1.elements h (fun e => { e with errorListener := false }) }
          h := by
      have hc : flagCells { s1 with
          elements := updateElement s1.elements h (fun e => { e with errorListener := false }) } a
          = some us := by
        exact (flagCells_of_tagUsed_eq s1 _ a rfl).trans hcells
      unfold HTMLAudioTagPool.get
      simp only [hts, hc, hown, Option.getD_some, hscan]
    exact ⟨_, _, hset, hagain, rfl, rfl, rfl, length_updateElement _ _ _⟩

/-- C5 (witness): after loading the script, `get("a")` returns tag 0, `set("a", tag 0)` releases
it and `get("a")` returns tag 0 again. -/
theorem C5_get_set_get_round_trip_witness :
    ∃ s2 s3, HTMLAudioTagPool.set (HTMLAudioTagPool.get (empty false) "a").state "a" (some 0)
        = .normal s2 () ∧
      HTMLAudioTagPool.get s2 "a" = .normal s3 0 ∧
      s3._tags = (HTMLAudioTagPool.get (empty false) "a").state._tags ∧
      s3._tagPool = (HTMLAudioTagPool.get (empty false) "a").state._tagPool ∧
      s3._audioTagCount = (HTMLAudioTagPool.get (empty false) "a").state._audioTagCount ∧
      s3.elements.length = (HTMLAudioTagPool.get (empty false) "a").state.elements.length :=
  C5_get_set_get_round_trip (empty false) (HTMLAudioTagPool.get (empty false) "a").state "a" 0
    (by decide)

/-! ## Remove: `HTMLAudioTagPool.remove` -/

theorem arrayGet_arrayDelete {α : Type} (a : List (Option α)) (i j : Nat) :
    arrayGet (arrayDelete a i) j = if j = i then none else arrayGet a j := by
  unfold arrayGet arrayDelete
  by_cases hji : j = i
  · subst hji
    by_cases hlt : j < a.length
    · simp [hlt]
    · have hlen : (a.set j none).length ≤ j := by simp; omega
      rw [List.getElem?_eq_none hlen]
      simp
  · have hij : i ≠ j := fun e => hji e.symm
    simp [hji, List.getElem?_set_ne hij]

/-- `TagPool.set` changes nothing but the pool. -/
theorem TagPool_set_frame (s : PoolState) (tag : Tag) :
    (TagPool.set s tag)._tags = s._tags ∧ (TagPool.set s tag)._tagUsed = s._tagUsed ∧
      (TagPool.set s tag)._audioTagCount = s._audioTagCount := by
  unfold TagPool.set
  split <;> exact ⟨rfl, rfl, rfl⟩

/-- The loop of `remove`, run for `n` iterations from index `i` on a source that has both arrays:
it ends normally, the cells `i .. i + n - 1` of both arrays read as `undefined` afterwards, the
other cells and the lengths are kept, other sources are untouched, and the pool has gained what
the cells of the slot array held. -/
theorem removeLoop_spec (src : String) :
    ∀ (n i : Nat) (s : PoolState) (ts : List Tag) (us : List Flag),
      lookup s._tags src = some ts → lookup s._tagUsed src = some us →
      ∃ s1 ts1 us1, removeLoop src n i s = .normal s1 true ∧
        lookup s1._tags src = some ts1 ∧ lookup s1._tagUsed src = some us1 ∧
        (∀ j, arrayGet ts1 j = if i ≤ j ∧ j < i + n then none else arrayGet ts j) ∧
        ts1.length = ts.length ∧
        (∀ j, arrayGet us1 j = if i ≤ j ∧ j < i + n then none else arrayGet us j) ∧
        us1.length = us.length ∧
        (∀ k, k ≠ src →
          lookup s1._tags k = lookup s._tags k ∧ lookup s1._tagUsed k = lookup s._tagUsed k) ∧
        (∀ x, x ∈ s._tagPool → x ∈ s1._tagPool) ∧
        (∀ j, i ≤ j → j < i + n → arrayGet ts j ∈ s1._tagPool) ∧
        s1._audioTagCount = s._audioTagCount := by
  intro n
  induction n with
  | zero =>
    intro i s ts us hts hus
    refine ⟨s, ts, us, rfl, hts, hus, ?_, rfl, ?_, rfl, ?_, ?_, ?_, rfl⟩
    · intro j
      have : ¬ (i ≤ j ∧ j < i + 0) := by omega
      simp only [this, if_false]
    · intro j
      have : ¬ (i ≤ j ∧ j < i + 0) := by omega
      simp only [this, if_false]
    · intro k _; exact ⟨rfl, rfl⟩
    · intro x hx; exact hx
    · intro j h1 h2; omega
  | succ n ih =>
    intro i s ts us hts hus
    obtain ⟨hf1, hf2, hf3⟩ := TagPool_set_frame s (arrayGet ts i)
    have hus2 : lookup (TagPool.set s (arrayGet ts i))._tagUsed src = some us := by
      rw [hf2]; exact hus
    obtain ⟨s1, ts1, us1, hrun, hts1, hus1, hcells, hlen, hflags, hflen, hother, hpool, hgain,
        hcount⟩ :=
      ih (i + 1)
        { TagPool.set s (arrayGet ts i) with
          _tags := assign (TagPool.set s (arrayGet ts i))._tags src (arrayDelete ts i)
          _tagUsed := assign (TagPool.set s (arrayGet ts i))._tagUsed src (arrayDelete us i) }
        (arrayDelete ts i) (arrayDelete us i)
        (lookup_assign_same _ _ _) (lookup_assign_same _ _ _)
    have hstep : removeLoop src (n + 1) i s = .normal s1 true := by
      rw [← hrun]
      simp only [removeLoop, hts, Option.getD_some, hus2]
    refine ⟨s1, ts1, us1, hstep, hts1, hus1, ?_, ?_, ?_, ?_, ?_, ?_, ?_, ?_⟩
    · intro j
      rw [hcells, arrayGet_arrayDelete]
      by_cases hji : j = i
      · subst hji
        have : j ≤ j ∧ j < j + (n + 1) := by omega
        simp [this]
      · by_cases hin : i + 1 ≤ j ∧ j < i + 1 + n
        · have : i ≤ j ∧ j < i + (n + 1) := by omega
          simp [hin, this]
        · have : ¬ (i ≤ j ∧ j < i + (n + 1)) := by omega
          simp [hin, this, hji]
    · rw [hlen]; simp [arrayDelete]
    · intro j
      rw [hflags, arrayGet_arrayDelete]
      by_cases hji : j = i
      · subst hji
        have : j ≤ j ∧ j < j + (n + 1) := by omega
        simp [this]
      · by_cases hin : i + 1 ≤ j ∧ j < i + 1 + n
        · have : i ≤ j ∧ j < i + (n + 1) := by omega
          simp [hin, this]
        · have : ¬ (i ≤ j ∧ j < i + (n + 1)) := by omega
          simp [hin, this, hji]
    · rw [hflen]; simp [arrayDelete]
    · intro k hk
      obtain ⟨h1, h2⟩ := hother k hk
      rw [h1, h2]
      simp only [lookup_assign_other _ _ _ _ hk, hf1, hf2, and_self]
    · intro x hx
      apply hpool
      exact (mem_TagPool_set s (arrayGet ts i) x).mpr (Or.inl hx)
    · intro j h1 h2
      by_cases hji : j = i
      · subst hji
        apply hpool
        exact (mem_TagPool_set s (arrayGet ts j) _).mpr (Or.inr rfl)
      · have := hgain j (by omega) (by omega)
        rw [arrayGet_arrayDelete] at this
        simpa [hji] using this
    · rw [hcount]; exact hf3

/-- C9 (amended): for every state and source key `a`: when `s._tags` has no entry for `a` and
`a` is not the name of a member that `s._tags` inherits from `Object.prototype`, `remove(a)`
returns `false` and leaves the whole state as it is; when `a` has a slot array and a flag array
(whether or not a slot holds a tag), `remove(a)` returns `true`, every tag that a slot of `a`
held is in the Free Pool afterwards, no slot of `a` holds a tag afterwards, and the slot and flag
arrays of every other source are as before. -/
theorem C9_remove_returns_slots_to_pool (s : PoolState) (a : String) :
    (lookup s._tags a = none → lookup objectPrototype a = none →
      HTMLAudioTagPool.remove s a = .normal s false) ∧
    (∀ ts us, lookup s._tags a = some ts → lookup s._tagUsed a = some us →
      ∃ s1, HTMLAudioTagPool.remove s a = .normal s1 true ∧
        (∀ (i : Nat) (h : Handle), ts[i]? = some (some h) → some h ∈ s1._tagPool) ∧
        (∀ i, arrayGet ((lookup s1._tags a).getD []) i = none) ∧
        (∀ k, k ≠ a →
          lookup s1._tags k = lookup s._tags k ∧ lookup s1._tagUsed k = lookup s._tagUsed k)) := by
  constructor
  · intro hnone hplain
    simp only [HTMLAudioTagPool.remove, hnone, hplain]
  · intro ts us hts hus
    obtain ⟨s1, ts1, us1, hrun, hts1, _, hcells, hlen, _, _, hother, _, hgain, _⟩ :=
      removeLoop_spec a ts.length 0 s ts us hts hus
    refine ⟨s1, ?_, ?_, ?_, hother⟩
    · simp only [HTMLAudioTagPool.remove, hts]
      exact hrun
    · intro i h hi
      have hlt : i < ts.length := by
        by_contra hc
        rw [List.getElem?_eq_none (Nat.le_of_not_lt hc)] at hi
        cases hi
      have := hgain i (Nat.zero_le _) (by omega)
      simpa [arrayGet, hi] using this
    · intro i
      rw [hts1, Option.getD_some, hcells]
      by_cases hlt : i < ts.length
      · have : 0 ≤ i ∧ i < 0 + ts.length := by omega
        simp only [this, and_self, if_true]
      · have : ¬ (0 ≤ i ∧ i < 0 + ts.length) := by omega
        simp only [this, if_false]
        unfold arrayGet
        rw [List.getElem?_eq_none (Nat.le_of_not_lt hlt)]
        rfl

/-- C9 (witness): `remove("a")` after `get("a")` and `get("b")`; tag 0 goes to the Free Pool. -/
theorem C9_remove_returns_slots_to_pool_witness :
    ∃ s1, HTMLAudioTagPool.remove
        (HTMLAudioTagPool.get (HTMLAudioTagPool.get (empty false) "a").state "b").state "a"
        = .normal s1 true ∧
      (∀ (i : Nat) (h : Handle), [some 0][i]? = some (some h) → some h ∈ s1._tagPool) ∧
      (∀ i, arrayGet ((lookup s1._tags "a").getD []) i = none) ∧
      (∀ k, k ≠ "a" →
        lookup s1._tags k = lookup
          (HTMLAudioTagPool.get (HTMLAudioTagPool.get (empty false) "a").state "b").state._tags k
        ∧ lookup s1._tagUsed k = lookup
          (HTMLAudioTagPool.get (HTMLAudioTagPool.get (empty false) "a").state "b").state._tagUsed
          k) :=
  (C9_remove_returns_slots_to_pool
    (HTMLAudioTagPool.get (HTMLAudioTagPool.get (empty false) "a").state "b").state "a").2
    [some 0] [some false] (by decide) (by decide)

/-- C9 (counterexample): after loading the script `s._tags` has no entry for `"constructor"`,
yet `remove("constructor")` returns `true` and changes the state: `s._tags["constructor"]` is the
function `Object`, which is not `null` and has `length` 1, so the loop runs once and hands the
`undefined` it reads in cell 0 to the Free Pool. -/
theorem C9_counterexample_inherited_key :
    lookup (empty false)._tags "constructor" = none ∧
    (HTMLAudioTagPool.remove (empty false) "constructor").value? = some true ∧
    (HTMLAudioTagPool.remove (empty false) "constructor").state._tagPool = [none] ∧
    (HTMLAudioTagPool.remove (empty false) "constructor").state ≠ empty false := by
  decide

/-- C10 (failing input): `get("a")`, `remove("a")`, `get("a")` after loading the script.
`remove` leaves an array of length one whose cell is `undefined`, so the last `get` takes the
branch for a source whose slots are all busy: it logs the warning, appends the tag at index 1
and marks it used, whereas the first-ever `get` put the tag at index 0 with the flag `false` and
logged nothing. -/
theorem C10_get_after_remove_takes_overflow_branch :
    HTMLAudioTagPool.remove (HTMLAudioTagPool.get (empty false) "a").state "a"
      = .normal (HTMLAudioTagPool.remove (HTMLAudioTagPool.get (empty false) "a").state "a").state
          true ∧
    lookup (HTMLAudioTagPool.remove (HTMLAudioTagPool.get (empty false) "a").state "a").state._tags
      "a" = some [none] ∧
    (HTMLAudioTagPool.get
      (HTMLAudioTagPool.remove (HTMLAudioTagPool.get (empty false) "a").state "a").state
      "a").value? = some 0 ∧
    lookup (HTMLAudioTagPool.get
      (HTMLAudioTagPool.remove (HTMLAudioTagPool.get (empty false) "a").state "a").state
      "a").state._tags "a" = some [none, some 0] ∧
    lookup (HTMLAudioTagPool.get
      (HTMLAudioTagPool.remove (HTMLAudioTagPool.get (empty false) "a").state "a").state
      "a").state._tagUsed "a" = some [none, some true] ∧
    (HTMLAudioTagPool.get
      (HTMLAudioTagPool.remove (HTMLAudioTagPool.get (empty false) "a").state "a").state
      "a").state.console = [.creatingNewTag "a"] ∧
    lookup (HTMLAudioTagPool.get (empty false) "a").state._tags "a" = some [some 0] ∧
    lookup (HTMLAudioTagPool.get (empty false) "a").state._tagUsed "a" = some [some false] ∧
    (HTMLAudioTagPool.get (empty false) "a").state.console = [] := by
  decide

/-- C11 (failing input): `get("a")`, `remove("a")`, `remove("a")` after loading the script.
The first `remove` leaves `s._tags["a"]` an array of length one whose cell is `undefined`, so the
second `remove` does not find `s._tags["a"]` to be `null`: it returns `true` again, and it pushes
`undefined` onto the Free Pool. -/
theorem C11_second_remove_returns_true :
    (HTMLAudioTagPool.remove (HTMLAudioTagPool.get (empty false) "a").state "a").value?
      = some true ∧
    (HTMLAudioTagPool.remove (HTMLAudioTagPool.get (empty false) "a").state "a").state._tagPool
      = [some 0] ∧
    (HTMLAudioTagPool.remove
      (HTMLAudioTagPool.remove (HTMLAudioTagPool.get (empty false) "a").state "a").state
      "a").value? = some true ∧
    (HTMLAudioTagPool.remove
      (HTMLAudioTagPool.remove (HTMLAudioTagPool.get (empty false) "a").state "a").state
      "a").state._tagPool = [some 0, none] := by
  decide

/-! ## Duration: `HTMLAudioTagPool.getDuration` -/

/-- C12 (failing input): `"b"` has been acquired, `"a"` never; `getDuration("a")` reads
`s._tags["a"][0]` with `s._tags["a"]` undefined, so a `TypeError` escapes where the claim has the
value 0. -/
theorem C12_getDuration_raises_for_source_never_acquired :
    lookup (HTMLAudioTagPool.get (empty false) "b").state._tags "a" = none ∧
    HTMLAudioTagPool.getDuration (HTMLAudioTagPool.get (empty false) "b").state "a"
      = .thrown (HTMLAudioTagPool.get (empty false) "b").state ∧
    (HTMLAudioTagPool.getDuration (HTMLAudioTagPool.get (empty false) "b").state "a").value?
      ≠ some (.finite 0) := by
  decide

/-! ## Quota recovery: failing inputs -/

/-- C14 (failing input): three `get("a")`, `set("a", tag 1)`, three `get("b")` on Internet
Explorer, then an `"error"` event with code 4 on tag 3.  Slot 1 of `"a"` is an idle overflow slot
holding tag 1; the event frees it, reloads tag 3, and tag 1 is afterwards neither in a slot nor in
the Free Pool: `s.set` is called while the tag is still in `s._tags["a"]`, so it only clears the
flag. -/
theorem C14_freed_handle_not_returned_to_pool :
    slotsOf (performAll (empty true) [.acquire "a", .acquire "a", .acquire "a", .release "a" 1,
      .acquire "b", .acquire "b", .acquire "b"]) "a" = [some 0, some 1] ∧
    flagsOf (performAll (empty true) [.acquire "a", .acquire "a", .acquire "a", .release "a" 1,
      .acquire "b", .acquire "b", .acquire "b"]) "a" = [some true, some false] ∧
    slotsOf (performAll (empty true) [.acquire "a", .acquire "a", .acquire "a", .release "a" 1,
      .acquire "b", .acquire "b", .acquire "b", .quota { code := 4, currentTarget := 3 }]) "a"
      = [some 0] ∧
    slotsOf (performAll (empty true) [.acquire "a", .acquire "a", .acquire "a", .release "a" 1,
      .acquire "b", .acquire "b", .acquire "b", .quota { code := 4, currentTarget := 3 }]) "b"
      = [some 2, some 3] ∧
    (performAll (empty true) [.acquire "a", .acquire "a", .acquire "a", .release "a" 1,
      .acquire "b", .acquire "b", .acquire "b",
      .quota { code := 4, currentTarget := 3 }]).loadCalls = [3] ∧
    (performAll (empty true) [.acquire "a", .acquire "a", .acquire "a", .release "a" 1,
      .acquire "b", .acquire "b", .acquire "b",
      .quota { code := 4, currentTarget := 3 }])._tagPool = [] ∧
    some 1 ∉ (performAll (empty true) [.acquire "a", .acquire "a", .acquire "a", .release "a" 1,
      .acquire "b", .acquire "b", .acquire "b",
      .quota { code := 4, currentTarget := 3 }])._tagPool := by
  decide

/-! ## `TagPool.set`: failing input -/

/-- C19 (failing input): tag 0 has been obtained for `"a"` and is not in the Free Pool.
`TagPool.set` pushes it onto the pool and sets the property `src` of the pool array, not of the
tag: the tag in the Free Pool still has the source `"a"`.  The same state is reached by
`remove("a")`. -/
theorem C19_pooled_tag_keeps_its_source :
    some 0 ∉ (HTMLAudioTagPool.get (empty false) "a").state._tagPool ∧
    (TagPool.set (HTMLAudioTagPool.get (empty false) "a").state (some 0))._tagPool = [some 0] ∧
    (TagPool.set (HTMLAudioTagPool.get (empty false) "a").state (some 0))._tagPoolSrcNull
      = true ∧
    srcOf (TagPool.set (HTMLAudioTagPool.get (empty false) "a").state (some 0)) 0 = some "a" ∧
    (performAll (empty false) [.acquire "a", .remove "a"])._tagPool = [some 0] ∧
    srcOf (performAll (empty false) [.acquire "a", .remove "a"]) 0 = some "a" := by
  decide

/-! ## Index alignment -/

theorem arrayGet_append_single {α : Type} (l : List (Option α)) (x : Option α) (j : Nat) :
    arrayGet (l ++ [x]) j
      = if j < l.length then arrayGet l j else if j = l.length then x else none := by
  unfold arrayGet
  by_cases h1 : j < l.length
  · simp [h1, List.getElem?_append_left h1]
  · by_cases h2 : j = l.length
    · subst h2
      simp
    · have h3 : (l ++ [x]).length ≤ j := by simp; omega
      simp [h1, h2, List.getElem?_eq_none h3]

theorem arrayGet_eraseIdx {α : Type} (l : List (Option α)) (i j : Nat) :
    arrayGet (l.eraseIdx i) j = if j < i then arrayGet l j else arrayGet l (j + 1) := by
  unfold arrayGet
  rw [List.getElem?_eraseIdx]
  split <;> rfl

theorem arrayGet_of_length_le {α : Type} (l : List (Option α)) (j : Nat) (h : l.length ≤ j) :
    arrayGet l j = none := by
  unfold arrayGet
  rw [List.getElem?_eq_none h]
  rfl

theorem alignedAt_arraySet (ts : List Tag) (us : List Flag) (i : Nat) (h : Handle) (v : Bool)
    (ha : AlignedAt ts us) (hi : ts[i]? = some (some h)) : AlignedAt ts (arraySet us i v) := by
  obtain ⟨hlen, hole⟩ := ha
  have hlt : i < us.length := by
    rw [hlen]
    by_contra hc
    rw [List.getElem?_eq_none (Nat.le_of_not_lt hc)] at hi
    cases hi
  refine ⟨by simp only [arraySet, hlt, if_true, List.length_set]; exact hlen, ?_⟩
  intro j
  by_cases hj : j = i
  · subst hj
    rw [arrayGet_arraySet_same]
    simp [arrayGet, hi]
  · rw [arrayGet_arraySet_other _ _ _ _ hj]
    exact hole j

theorem alignedAt_push (ts : List Tag) (us : List Flag) (t : Handle) (v : Bool)
    (ha : AlignedAt ts us) : AlignedAt (ts ++ [some t]) (us ++ [some v]) := by
  obtain ⟨hlen, hole⟩ := ha
  refine ⟨by simp [hlen], ?_⟩
  intro j
  rw [arrayGet_append_single, arrayGet_append_single, hlen]
  by_cases h1 : j < ts.length
  · simp only [h1, if_true]
    exact hole j
  · by_cases h2 : j = ts.length
    · simp [h1, h2]
    · simp [h1, h2]

theorem alignedAt_markUnused (ts : List Tag) (us : List Flag) (h : Handle)
    (ha : AlignedAt ts us) : AlignedAt ts (markUnused h ts 0 us) := by
  obtain ⟨hlen, hole⟩ := ha
  refine ⟨by rw [length_markUnused h ts 0 us (by omega)]; exact hlen, ?_⟩
  intro j
  rw [arrayGet_markUnused]
  by_cases hj : ts[j]? = some (some h)
  · simp [hj, arrayGet]
  · simp only [Nat.zero_le, Nat.sub_zero, true_and, hj, if_false]
    exact hole j

theorem alignedAt_eraseIdx (ts : List Tag) (us : List Flag) (i : Nat)
    (ha : AlignedAt ts us) : AlignedAt (ts.eraseIdx i) (us.eraseIdx i) := by
  obtain ⟨hlen, hole⟩ := ha
  refine ⟨by rw [List.length_eraseIdx, List.length_eraseIdx, hlen], ?_⟩
  intro j
  rw [arrayGet_eraseIdx, arrayGet_eraseIdx]
  split
  · exact hole j
  · exact hole (j + 1)

/-- A state is aligned when it agrees with an aligned state on all sources but one, and is
aligned at that one. -/
theorem aligned_of_lookup (s s1 : PoolState) (k : String) (ha : Aligned s)
    (hother : ∀ k1, k1 ≠ k →
      lookup s1._tags k1 = lookup s._tags k1 ∧ lookup s1._tagUsed k1 = lookup s._tagUsed k1)
    (hk : ∀ ts, lookup s1._tags k = some ts →
      ∃ us, lookup s1._tagUsed k = some us ∧ AlignedAt ts us) : Aligned s1 := by
  intro k1 ts hts
  by_cases hk1 : k1 = k
  · subst hk1
    exact hk ts hts
  · obtain ⟨h1, h2⟩ := hother k1 hk1
    rw [h1] at hts
    rw [h2]
    exact ha k1 ts hts

theorem aligned_of_eq (s s1 : PoolState) (ha : Aligned s)
    (h1 : s1._tags = s._tags) (h2 : s1._tagUsed = s._tagUsed) : Aligned s1 := by
  intro k ts hts
  rw [h1] at hts
  rw [h2]
  exact ha k ts hts

theorem TagPool_get_state_frame (s : PoolState) :
    (TagPool.get s).state._tags = s._tags ∧ (TagPool.get s).state._tagUsed = s._tagUsed := by
  unfold TagPool.get
  split
  · exact ⟨rfl, rfl⟩
  · split <;> exact ⟨rfl, rfl⟩

/-- `get` keeps the registry aligned. -/
theorem aligned_get (s : PoolState) (k : String) (ha : Aligned s) :
    Aligned (HTMLAudioTagPool.get s k).state := by
  unfold HTMLAudioTagPool.get
  cases hscan : scan (flagCells s k) ((lookup s._tags k).getD []) 0 with
  | found i h1 =>
    simp only [hscan]
    obtain ⟨us, hu, _, hi, _⟩ := scan_found_spec _ _ _ _ _ hscan
    cases hts : lookup s._tags k with
    | none => simp [hts] at hi
    | some ts =>
      simp only [hts, Option.getD_some, Nat.sub_zero] at hi
      obtain ⟨us0, hus0, hal⟩ := ha k ts hts
      rw [flagCells_of_lookup s k us0 hus0] at hu
      injection hu with e
      subst e
      simp only [hus0, Completion.state]
      apply aligned_of_lookup s _ k ha
      · intro k1 hk1
        exact ⟨rfl, lookup_assign_other _ _ _ _ hk1⟩
      · intro ts1 hts1
        have : ts1 = ts := by
          have h2 : lookup s._tags k = some ts1 := hts1
          rw [hts] at h2
          injection h2 with e
          exact e.symm
        subst this
        refine ⟨_, lookup_assign_same _ _ _, ?_⟩
        exact alignedAt_arraySet ts1 us0 i h1 true hal hi
  | typeError =>
    simp only [hscan, Completion.state]
    exact ha
  | exhausted =>
    simp only [hscan]
    by_cases hlen : lengthOf s._tags k = some 0
    · simp only [hlen, if_true]
      have hfr := TagPool_get_state_frame s
      cases hp : TagPool.get s with
      | thrown p =>
        rw [hp] at hfr
        simp only [Completion.state] at hfr ⊢
        exact aligned_of_eq s p ha hfr.1 hfr.2
      | normal p t =>
        rw [hp] at hfr
        simp only [Completion.state] at hfr ⊢
        apply aligned_of_lookup s _ k ha
        · intro k1 hk1
          simp only [lookup_assign_other _ _ _ _ hk1, hfr.1, hfr.2, and_self]
        · intro ts1 hts1
          simp only [lookup_assign_same] at hts1
          injection hts1 with e
          subst e
          refine ⟨_, lookup_assign_same _ _ _, by simp, ?_⟩
          intro j
          cases j with
          | zero => simp [arrayGet]
          | succ j => simp [arrayGet]
    · simp only [hlen, if_false]
      have hfr := TagPool_get_state_frame { s with console := s.console ++ [.creatingNewTag k] }
      cases hp : TagPool.get { s with console := s.console ++ [.creatingNewTag k] } with
      | thrown p =>
        rw [hp] at hfr
        simp only [Completion.state] at hfr ⊢
        exact aligned_of_eq s p ha hfr.1 hfr.2
      | normal p t =>
        rw [hp] at hfr
        simp only [Completion.state] at hfr
        cases hts : lookup s._tags k with
        | none =>
          simp only [Completion.state]
          exact aligned_of_eq s _ ha hfr.1 hfr.2
        | some ts =>
          obtain ⟨us, hus, hal⟩ := ha k ts hts
          have hus1 : lookup p._tagUsed k = some us := by rw [hfr.2]; exact hus
          simp only [hus1, Completion.state, Option.getD_some]
          apply aligned_of_lookup s _ k ha
          · intro k1 hk1
            simp only [lookup_assign_other _ _ _ _ hk1, hfr.1, hfr.2, and_self]
          · intro ts1 hts1
            simp only [lookup_assign_same] at hts1
            injection hts1 with e
            subst e
            exact ⟨_, lookup_assign_same _ _ _, alignedAt_push ts us t true hal⟩

/-- `TagPool.set` and the listener update of `set` do not touch the registry. -/
theorem aligned_set (s : PoolState) (k : String) (tag : Tag) (ha : Aligned s) :
    Aligned (HTMLAudioTagPool.set s k tag).state := by
  unfold HTMLAudioTagPool.set
  cases hts : lookup s._tags k with
  | none =>
    cases hproto : lookup objectPrototype k with
    | none => exact ha
    | some l =>
      cases tag with
      | none => exact ha
      | some h =>
        simp only [Completion.state]
        obtain ⟨h1, h2, _⟩ := TagPool_set_frame
          { s with
            elements := updateElement s.elements h (fun e => { e with errorListener := false })
            _audioTagCount := s._audioTagCount - 1 } (some h)
        exact aligned_of_eq s _ ha h1 h2
  | some ts =>
    cases tag with
    | none => exact ha
    | some h =>
      obtain ⟨us, hus, hal⟩ := ha k ts hts
      by_cases hc : ts.contains (some h) = true
      · simp only [hc, if_true, hus, Completion.state]
        apply aligned_of_lookup s _ k ha
        · intro k1 hk1
          exact ⟨rfl, lookup_assign_other _ _ _ _ hk1⟩
        · intro ts1 hts1
          have h2 : lookup s._tags k = some ts1 := hts1
          rw [hts] at h2
          injection h2 with e
          subst e
          exact ⟨_, lookup_assign_same _ _ _, alignedAt_markUnused ts us h hal⟩
      · simp only [hc, Completion.state]
        obtain ⟨h1, h2, _⟩ := TagPool_set_frame
          { s with
            elements := updateElement s.elements h (fun e => { e with errorListener := false })
            _audioTagCount := s._audioTagCount - 1 } (some h)
        exact aligned_of_eq s _ ha h1 h2

/-- The loop of `remove` over an inherited member: the slot arrays, the elements and the flags of
other sources are left alone, and the Free Pool gains at most the cell `undefined`. -/
theorem removeLoopInherited_spec (src : String) :
    ∀ (n i : Nat) (s : PoolState),
      (removeLoopInherited src n i s)._tags = s._tags ∧
      (∀ k, k ≠ src →
        lookup (removeLoopInherited src n i s)._tagUsed k = lookup s._tagUsed k) ∧
      (removeLoopInherited src n i s).elements = s.elements ∧
      (∀ x, x ∈ (removeLoopInherited src n i s)._tagPool ↔ x ∈ s._tagPool ∨ (x = none ∧ 0 < n)) ∧
      (s._tagPool.Nodup → (removeLoopInherited src n i s)._tagPool.Nodup) := by
  intro n
  induction n with
  | zero =>
    intro i s
    refine ⟨rfl, fun _ _ => rfl, rfl, ?_, fun h => h⟩
    intro x
    simp [removeLoopInherited]
  | succ n ih =>
    intro i s
    obtain ⟨hf1, hf2, _⟩ := TagPool_set_frame s none
    have hmem := mem_TagPool_set s none
    have hnd : s._tagPool.Nodup → (TagPool.set s none)._tagPool.Nodup := by
      intro h
      unfold TagPool.set
      by_cases hidx : indexOf s._tagPool none 0 = -1
      · have hnot : none ∉ s._tagPool := (indexOf_eq_neg_one_iff _ _ 0).mp hidx
        simp only [hidx, if_true]
        exact List.nodup_append.mpr ⟨h, List.nodup_singleton _,
          fun a ha hb => hnot (by rw [List.mem_singleton.mp hb] at ha; exact ha)⟩
      · simp only [hidx, if_false]
        exact h
    have hel : (TagPool.set s none).elements = s.elements := by
      unfold TagPool.set
      split <;> rfl
    unfold removeLoopInherited
    simp only
    cases hus : lookup (TagPool.set s none)._tagUsed src with
    | none =>
      simp only
      obtain ⟨g1, g2, g3, g4, g5⟩ := ih (i + 1) (TagPool.set s none)
      refine ⟨by rw [g1, hf1], ?_, by rw [g3, hel], ?_, fun h => g5 (hnd h)⟩
      · intro k hk
        rw [g2 k hk, hf2]
      · intro x
        rw [g4 x, hmem x]
        constructor
        · rintro (h1 | h1)
          · rcases h1 with h2 | h2
            · exact Or.inl h2
            · exact Or.inr ⟨h2, Nat.succ_pos _⟩
          · exact Or.inr ⟨h1.1, Nat.succ_pos _⟩
        · rintro (h1 | h1)
          · exact Or.inl (Or.inl h1)
          · exact Or.inl (Or.inr h1.1)
    | some us =>
      simp only
      obtain ⟨g1, g2, g3, g4, g5⟩ := ih (i + 1)
        { TagPool.set s none with
          _tagUsed := assign (TagPool.set s none)._tagUsed src (arrayDelete us i) }
      refine ⟨by rw [g1]; exact hf1, ?_, by rw [g3]; exact hel, ?_, fun h => g5 (hnd h)⟩
      · intro k hk
        rw [g2 k hk]
        simp only [lookup_assign_other _ _ _ _ hk, hf2]
      · intro x
        rw [g4 x]
        have := hmem x
        constructor
        · rintro (h1 | h1)
          · rcases this.mp h1 with h2 | h2
            · exact Or.inl h2
            · exact Or.inr ⟨h2, Nat.succ_pos _⟩
          · exact Or.inr ⟨h1.1, Nat.succ_pos _⟩
        · rintro (h1 | h1)
          · exact Or.inl (this.mpr (Or.inl h1))
          · exact Or.inl (this.mpr (Or.inr h1.1))

/-- `remove` keeps the registry aligned. -/
theorem aligned_remove (s : PoolState) (k : String) (ha : Aligned s) :
    Aligned (HTMLAudioTagPool.remove s k).state := by
  unfold HTMLAudioTagPool.remove
  cases hts : lookup s._tags k with
  | none =>
    cases hproto : lookup objectPrototype k with
    | none => exact ha
    | some l =>
      simp only [Completion.state]
      obtain ⟨g1, g2, _⟩ := removeLoopInherited_spec k (l.getD 0) 0 s
      intro k1 ts1 hts1
      rw [g1] at hts1
      have hne : k1 ≠ k := by
        intro e
        rw [e, hts] at hts1
        cases hts1
      rw [g2 k1 hne]
      exact ha k1 ts1 hts1
  | some ts =>
    obtain ⟨us, hus, hal⟩ := ha k ts hts
    obtain ⟨s1, ts1, us1, hrun, hts1, hus1, hcells, hlen, hflags, hflen, hother, _, _, _⟩ :=
      removeLoop_spec k ts.length 0 s ts us hts hus
    simp only [hrun, Completion.state]
    apply aligned_of_lookup s s1 k ha hother
    intro ts2 hts2
    rw [hts1] at hts2
    injection hts2 with e
    subst e
    refine ⟨us1, hus1, by rw [hflen, hlen]; exact hal.1, ?_⟩
    intro j
    have h1 : arrayGet ts1 j = none := by
      rw [hcells]
      split
      · rfl
      · exact arrayGet_of_length_le ts j (by omega)
    have h2 : arrayGet us1 j = none := by
      rw [hflags]
      split
      · rfl
      · exact arrayGet_of_length_le us j (by have := hal.1; omega)
    simp [h1, h2]

/-- What `set` leaves of the registry when it returns, for a source that has a slot array and a
flag array. -/
theorem set_normal_spec (s s1 : PoolState) (k : String) (tag : Tag) (ts : List Tag)
    (us : List Flag) (hts : lookup s._tags k = some ts) (hus : lookup s._tagUsed k = some us)
    (h : HTMLAudioTagPool.set s k tag = .normal s1 ()) :
    s1._tags = s._tags ∧ ∃ us1, lookup s1._tagUsed k = some us1 := by
  unfold HTMLAudioTagPool.set at h
  cases tag with
  | none => simp [hts] at h
  | some t =>
    simp only [hts] at h
    by_cases hc : ts.contains (some t) = true
    · simp only [hc, if_true, hus] at h
      injection h with e
      subst e
      exact ⟨rfl, ⟨_, lookup_assign_same _ _ _⟩⟩
    · simp only [hc] at h
      injection h with e
      subst e
      obtain ⟨h1, h2, _⟩ := TagPool_set_frame
        { s with
          elements := updateElement s.elements t (fun e => { e with errorListener := false })
          _audioTagCount := s._audioTagCount - 1 } (some t)
      exact ⟨h1, ⟨us, by rw [h2]; exact hus⟩⟩

/-- The inner loop of `_handleMaximumInstances` keeps the registry aligned, for a source that
has a slot array. -/
theorem aligned_sweepSource (e : ErrorEvent) (k : String) :
    ∀ (i : Nat) (s : PoolState) (rc : Nat), Aligned s → (∃ ts, lookup s._tags k = some ts) →
      Aligned (sweepSource e k i s rc).state := by
  intro i
  induction i with
  | zero => intro s rc ha _; exact ha
  | succ i ih =>
    intro s rc ha hown
    obtain ⟨ts, hts⟩ := hown
    obtain ⟨used, hus, _⟩ := ha k ts hts
    unfold sweepSource
    by_cases hrc : rc ≥ 4
    · simp only [hrc, if_true]
      exact aligned_of_eq s _ ha rfl rfl
    · simp only [hrc, if_false, flagCells_of_lookup s k used hus]
      by_cases hb : arrayGet used (i + 1) = some true
      · simp only [hb, if_true]
        exact ih s rc ha ⟨ts, hts⟩
      · simp only [hb, if_false]
        have hset := aligned_set s k (arrayGet ((lookup s._tags k).getD []) (i + 1)) ha
        cases hr : HTMLAudioTagPool.set s k (arrayGet ((lookup s._tags k).getD []) (i + 1)) with
        | thrown s1 =>
          rw [hr] at hset
          exact hset
        | normal s1 u =>
          rw [hr] at hset
          simp only [Completion.state] at hset
          obtain ⟨htags, ⟨us1, hus1⟩⟩ := set_normal_spec s s1 k _ ts used hts hus hr
          have hts1 : lookup s1._tags k = some ts := by rw [htags]; exact hts
          obtain ⟨us2, hus2, hal⟩ := hset k ts hts1
          rw [hus1] at hus2
          injection hus2 with e2
          subst e2
          simp only [hus1, hts, Option.getD_some]
          apply ih
          · apply aligned_of_lookup s1 _ k hset
            · intro k1 hk1
              exact ⟨lookup_assign_other _ _ _ _ hk1, lookup_assign_other _ _ _ _ hk1⟩
            · intro ts2 hts2
              simp only [lookup_assign_same] at hts2
              injection hts2 with e3
              subst e3
              exact ⟨_, lookup_assign_same _ _ _, alignedAt_eraseIdx ts us1 (i + 1) hal⟩
          · exact ⟨_, lookup_assign_same _ _ _⟩

/-- The outer loop of `_handleMaximumInstances` keeps the registry aligned. -/
theorem aligned_sweepSources (e : ErrorEvent) :
    ∀ (ks : List String) (s : PoolState) (rc : Nat), Aligned s →
      Aligned (sweepSources e ks s rc).state := by
  intro ks
  induction ks with
  | nil => intro s rc ha; exact ha
  | cons k rest ih =>
    intro s rc ha
    unfold sweepSources
    by_cases hlen : ((lookup s._tags k).getD []).length > 1
    · simp only [hlen, if_true]
      have hown : ∃ ts, lookup s._tags k = some ts := by
        cases hts : lookup s._tags k with
        | none => simp [hts] at hlen
        | some ts => exact ⟨ts, rfl⟩
      have h1 := aligned_sweepSource e k (((lookup s._tags k).getD []).length - 1) s rc ha hown
      cases hr : sweepSource e k (((lookup s._tags k).getD []).length - 1) s rc with
      | done s1 rc1 =>
        rw [hr] at h1
        exact ih s1 rc1 h1
      | returned s1 =>
        rw [hr] at h1
        exact h1
      | raised s1 =>
        rw [hr] at h1
        exact h1
    · simp only [hlen, if_false]
      exact ih s rc ha

/-- `_handleMaximumInstances` keeps the registry aligned. -/
theorem aligned_handleMaximumInstances (s : PoolState) (e : ErrorEvent) (ha : Aligned s) :
    Aligned (HTMLAudioTagPool._handleMaximumInstances s e).state := by
  unfold HTMLAudioTagPool._handleMaximumInstances
  by_cases hc : e.code = 4
  · simp only [hc, if_true]
    have h1 := aligned_sweepSources e (keys s._tags) s 0 ha
    cases hr : sweepSources e (keys s._tags) s 0 with
    | done s1 rc1 =>
      rw [hr] at h1
      simp only [Sweep.state] at h1
      by_cases h0 : rc1 = 0
      · simp only [h0, if_true, Completion.state]
        exact aligned_of_eq s1 _ h1 rfl rfl
      · simp only [h0, if_false, Completion.state]
        exact aligned_of_eq s1 _ h1 rfl rfl
    | returned s1 =>
      rw [hr] at h1
      exact h1
    | raised s1 =>
      rw [hr] at h1
      exact h1
  · simp only [hc, if_false]
    exact ha

theorem aligned_empty (ie : Bool) : Aligned (empty ie) := by
  intro k ts hts
  simp [empty, lookup] at hts

/-- Every call keeps the registry aligned. -/
theorem aligned_perform (s : PoolState) (c : Call) (ha : Aligned s) : Aligned (perform s c) := by
  cases c with
  | acquire src => exact aligned_get s src ha
  | release src tag => exact aligned_set s src (some tag) ha
  | remove src => exact aligned_remove s src ha
  | quota e => exact aligned_handleMaximumInstances s e ha

/-- C18: in every state reached from the state after loading the script by calls of `get`, `set`
and `remove` and by error events delivered to `_handleMaximumInstances`, with any arguments and
whether the calls return or raise, every source that has a slot array has a flag array of the same
length, and a cell of one is deleted exactly when the cell of the other at the same index is:
the two arrays have grown and shrunk at the same indices. -/
theorem C18_reachable_states_are_index_aligned (s : PoolState)
    (hr : Reachable (fun _ _ => True) s) :
    ∀ k ts, lookup s._tags k = some ts →
      ∃ us, lookup s._tagUsed k = some us ∧ us.length = ts.length ∧
        ∀ i, arrayGet ts i = none ↔ arrayGet us i = none := by
  have h : Aligned s := by
    induction hr with
    | loaded ie => exact aligned_empty ie
    | step s c _ _ ih => exact aligned_perform s c ih
  exact h

/-- C18 (witness): the state after `get("a")` three times, `remove("a")` and `get("a")`, in
which the slot array of `"a"` has two deleted cells and tag 1. -/
theorem C18_reachable_states_are_index_aligned_witness :
    lookup (performAll (empty false)
        [.acquire "a", .acquire "a", .acquire "a", .remove "a", .acquire "a"])._tags "a"
      = some [none, none, some 1] ∧
    ∃ us, lookup (performAll (empty false)
        [.acquire "a", .acquire "a", .acquire "a", .remove "a", .acquire "a"])._tagUsed "a"
          = some us ∧ us.length = [none, none, some 1].length ∧
        ∀ i, arrayGet [none, none, some 1] i = none ↔ arrayGet us i = none :=
  ⟨by decide, C18_reachable_states_are_index_aligned _
    (Reachable.step _ (.acquire "a") (Reachable.step _ (.remove "a")
      (Reachable.step _ (.acquire "a") (Reachable.step _ (.acquire "a")
        (Reachable.step _ (.acquire "a") (Reachable.loaded false) trivial) trivial) trivial)
      trivial) trivial) "a" [none, none, some 1] (by decide)⟩

/-! ## Quota recovery: which slots are freed -/

theorem keys_assign_of_lookup {α : Type} (m : List (String × α)) (k : String) (v w : α)
    (h : lookup m k = some w) : keys (assign m k v) = keys m := by
  induction m with
  | nil => simp [lookup] at h
  | cons p rest ih =>
    obtain ⟨k0, w0⟩ := p
    by_cases hk : k0 = k
    · simp [assign, hk, keys]
    · simp only [lookup, hk, if_false] at h
      simp [assign, hk, keys, ih h]

theorem keys_nodup {α : Type} (m : List (String × α)) : (keys m).Nodup := by
  induction m with
  | nil => simp [keys]
  | cons p rest ih =>
    obtain ⟨k0, w0⟩ := p
    simp only [keys, List.nodup_cons]
    exact ⟨by simp [List.mem_filter], ih.filter _⟩

theorem markUnused_of_not_mem (h : Handle) :
    ∀ (ts : List Tag) (k : Nat) (us : List Flag), some h ∉ ts → markUnused h ts k us = us := by
  intro ts
  induction ts with
  | nil => intro k us _; rfl
  | cons t rest ih =>
    intro k us hn
    have h1 : ¬ t = some h := fun e => hn (by simp [e])
    have h2 : some h ∉ rest := fun e => hn (by simp [e])
    simp only [markUnused, h1, if_false]
    exact ih (k + 1) us h2

theorem markUnused_append (h : Handle) :
    ∀ (A B : List Tag) (k : Nat) (us : List Flag),
      markUnused h (A ++ B) k us = markUnused h B (k + A.length) (markUnused h A k us) := by
  intro A
  induction A with
  | nil => intro B k us; simp [markUnused]
  | cons t rest ih =>
    intro B k us
    have e : k + 1 + rest.length = k + (rest.length + 1) := by omega
    by_cases ht : t = some h
    · rw [List.cons_append]
      simp only [markUnused, ht, if_true, List.length_cons]
      rw [ih, e]
    · rw [List.cons_append]
      simp only [markUnused, ht, if_false, List.length_cons]
      rw [ih, e]

theorem markUnused_single (h : Handle) (P0 S : List Tag) (Q0 R : List Flag) (u : Flag)
    (hP : some h ∉ P0) (hS : some h ∉ S) (hlen : Q0.length = P0.length) :
    markUnused h (P0 ++ [some h] ++ S) 0 (Q0 ++ [u] ++ R) = Q0 ++ [some false] ++ R := by
  rw [List.append_assoc, markUnused_append, markUnused_of_not_mem h P0 0 _ hP]
  rw [markUnused_append, markUnused_of_not_mem h S _ _ hS]
  simp only [markUnused, if_true, Nat.zero_add]
  have hlt : P0.length < (Q0 ++ [u] ++ R).length := by simp; omega
  simp only [arraySet, hlt, if_true]
  rw [← hlen, List.append_assoc, List.set_append_right _ _ (Nat.le_refl _)]
  simp

theorem busySlots_snoc (A : List Tag) (B : List Flag) (t : Tag) (u : Flag)
    (hlen : A.length = B.length) :
    busySlots (A ++ [t]) (B ++ [u])
      = busySlots A B ++ (if u = some true then [(t, u)] else []) := by
  unfold busySlots
  rw [List.zip_append hlen, List.filter_append]
  by_cases hu : u = some true
  · simp [hu]
  · simp [hu]

theorem exists_snoc_of_length {α : Type} (l : List α) (n : Nat) (h : l.length = n + 1) :
    ∃ l0 x, l = l0 ++ [x] ∧ l0.length = n := by
  rcases List.eq_nil_or_concat l with h0 | ⟨L, b, hb⟩
  · subst h0
    simp at h
  · rw [List.concat_eq_append] at hb
    subst hb
    refine ⟨L, b, rfl, ?_⟩
    simp at h
    exact h

theorem arrayGet_append_middle {α : Type} (A C : List (Option α)) (x : Option α) :
    arrayGet (A ++ [x] ++ C) A.length = x := by
  unfold arrayGet
  rw [List.append_assoc, List.getElem?_append_right (Nat.le_refl _)]
  simp

/-- The inner loop of `_handleMaximumInstances` on a source whose arrays are `P ++ S` and
`Q ++ R`, the cells of `P` and `Q` being those still to visit: the cells below some index `c ≥ 1`
are left alone, and of the cells of `P` from `c` on exactly the busy ones are kept. -/
theorem sweepSource_spec (e : ErrorEvent) (k : String) :
    ∀ (n : Nat) (s : PoolState) (rc : Nat) (P S : List Tag) (Q R : List Flag),
      lookup s._tags k = some (P ++ S) → lookup s._tagUsed k = some (Q ++ R) →
      P.length = n + 1 → Q.length = n + 1 → R.length = S.length →
      (P ++ S).reduceOption.Nodup → rc ≤ 4 →
      ∃ c m, 1 ≤ c ∧ c ≤ n + 1 ∧
        lookup (sweepSource e k n s rc).state._tags k
          = some (P.take c ++ (busySlots (P.drop c) (Q.drop c)).map Prod.fst ++ S) ∧
        lookup (sweepSource e k n s rc).state._tagUsed k
          = some (Q.take c ++ (busySlots (P.drop c) (Q.drop c)).map Prod.snd ++ R) ∧
        (∀ k1, k1 ≠ k →
          lookup (sweepSource e k n s rc).state._tags k1 = lookup s._tags k1 ∧
          lookup (sweepSource e k n s rc).state._tagUsed k1 = lookup s._tagUsed k1) ∧
        keys (sweepSource e k n s rc).state._tags = keys s._tags ∧
        (P.take c ++ (busySlots (P.drop c) (Q.drop c)).map Prod.fst ++ S).length + m
          = (P ++ S).length ∧
        rc + m ≤ 4 ∧
        (∀ s1 rc1, sweepSource e k n s rc = .done s1 rc1 → rc1 = rc + m) := by
  intro n
  induction n with
  | zero =>
    intro s rc P S Q R hts hus hP hQ hRS hnd hrc
    have hPt : P.take 1 = P := List.take_of_length_le (by omega)
    have hQt : Q.take 1 = Q := List.take_of_length_le (by omega)
    have hPd : P.drop 1 = [] := List.drop_of_length_le (by omega)
    refine ⟨1, 0, Nat.le_refl _, Nat.le_refl _, ?_, ?_, ?_, rfl, ?_, hrc, ?_⟩
    · simp [sweepSource, Sweep.state, hts, hPt, hPd, busySlots]
    · simp [sweepSource, Sweep.state, hus, hQt, hPd, busySlots]
    · intro k1 _; exact ⟨rfl, rfl⟩
    · simp [hPt, hPd, busySlots]
    · intro s1 rc1 hd
      simp only [sweepSource] at hd
      injection hd with _ h2
      omega
  | succ n ih =>
    intro s rc P S Q R hts hus hP hQ hRS hnd hrc
    obtain ⟨P0, t, hPe, hP0⟩ := exists_snoc_of_length P (n + 1) hP
    obtain ⟨Q0, u, hQe, hQ0⟩ := exists_snoc_of_length Q (n + 1) hQ
    subst hPe; subst hQe
    -- nothing removed in this call: `c` is the length of `P`
    have stop : ∀ s1 : PoolState, s1._tags = s._tags → s1._tagUsed = s._tagUsed →
        ∃ c m, 1 ≤ c ∧ c ≤ n + 1 + 1 ∧
          lookup s1._tags k = some ((P0 ++ [t]).take c ++
            (busySlots ((P0 ++ [t]).drop c) ((Q0 ++ [u]).drop c)).map Prod.fst ++ S) ∧
          lookup s1._tagUsed k = some ((Q0 ++ [u]).take c ++
            (busySlots ((P0 ++ [t]).drop c) ((Q0 ++ [u]).drop c)).map Prod.snd ++ R) ∧
          (∀ k1, k1 ≠ k → lookup s1._tags k1 = lookup s._tags k1 ∧
            lookup s1._tagUsed k1 = lookup s._tagUsed k1) ∧
          keys s1._tags = keys s._tags ∧
          ((P0 ++ [t]).take c ++
            (busySlots ((P0 ++ [t]).drop c) ((Q0 ++ [u]).drop c)).map Prod.fst ++ S).length + m
            = (P0 ++ [t] ++ S).length ∧
          rc + m ≤ 4 ∧ m = 0 := by
      intro s1 h1 h2
      have hPt : (P0 ++ [t]).take (n + 1 + 1) = P0 ++ [t] := List.take_of_length_le (by omega)
      have hQt : (Q0 ++ [u]).take (n + 1 + 1) = Q0 ++ [u] := List.take_of_length_le (by omega)
      have hPd : (P0 ++ [t]).drop (n + 1 + 1) = [] := List.drop_of_length_le (by omega)
      refine ⟨n + 1 + 1, 0, by omega, Nat.le_refl _, ?_, ?_, ?_, by rw [h1], ?_, hrc, rfl⟩
      · rw [h1, hts, hPt, hPd]; simp [busySlots]
      · rw [h2, hus, hQt, hPd]; simp [busySlots]
      · intro k1 _; rw [h1, h2]; exact ⟨rfl, rfl⟩
      · rw [hPt, hPd]; simp [busySlots]
    have hu : arrayGet (Q0 ++ [u] ++ R) (n + 1) = u := by
      rw [← hQ0]; exact arrayGet_append_middle Q0 R u
    have ht : arrayGet (P0 ++ [t] ++ S) (n + 1) = t := by
      rw [← hP0]; exact arrayGet_append_middle P0 S t
    -- conversion of the result of the recursive call
    have conv : ∀ c, c ≤ n + 1 →
        (P0 ++ [t]).take c = P0.take c ∧ (Q0 ++ [u]).take c = Q0.take c ∧
        busySlots ((P0 ++ [t]).drop c) ((Q0 ++ [u]).drop c)
          = busySlots (P0.drop c) (Q0.drop c) ++ (if u = some true then [(t, u)] else []) := by
      intro c hc
      have h1 : (P0 ++ [t]).take c = P0.take c := List.take_append_of_le_length (by omega)
      have h2 : (Q0 ++ [u]).take c = Q0.take c := List.take_append_of_le_length (by omega)
      have h3 : (P0 ++ [t]).drop c = P0.drop c ++ [t] := List.drop_append_of_le_length (by omega)
      have h4 : (Q0 ++ [u]).drop c = Q0.drop c ++ [u] := List.drop_append_of_le_length (by omega)
      refine ⟨h1, h2, ?_⟩
      rw [h3, h4]
      exact busySlots_snoc _ _ t u (by simp; omega)
    by_cases hge : rc ≥ 4
    · have hrun : sweepSource e k (n + 1) s rc = .returned (reload s e) := by
        rw [sweepSource]
        simp only [hge, if_true]
      rw [hrun]
      obtain ⟨c, m, h1, h2, h3, h4, h5, h6, h7, h8, h9⟩ := stop (reload s e) rfl rfl
      refine ⟨c, m, h1, h2, h3, h4, h5, h6, h7, h8, ?_⟩
      intro s1 rc1 hd
      cases hd
    · by_cases hb : u = some true
      · -- the slot is busy: it is kept
        subst hb
        have hb : (some true : Flag) = some true := rfl
        have hrun : sweepSource e k (n + 1) s rc = sweepSource e k n s rc := by
          rw [sweepSource]
          simp only [hge, if_false, flagCells_of_lookup s k _ hus, hus, hu, if_true]
        rw [hrun]
        obtain ⟨c, m, h1, h2, h3, h4, h5, h6, h7, h8, h9⟩ :=
          ih s rc P0 (t :: S) Q0 (some true :: R) (by rw [hts]; simp) (by rw [hus]; simp) hP0 hQ0
            (by simp [hRS]) (by simpa using hnd) hrc
        obtain ⟨c1, c2, c3⟩ := conv c h2
        refine ⟨c, m, h1, by omega, ?_, ?_, h5, h6, ?_, h8, h9⟩
        · rw [h3, c1, c3]; simp [hb]
        · rw [h4, c2, c3]; simp [hb]
        · rw [c1, c3]
          simp [hb] at h7 ⊢
          omega
      · -- the slot is idle
        cases t with
        | none =>
          have hrun : sweepSource e k (n + 1) s rc = .raised s := by
            rw [sweepSource]
            simp only [hge, if_false, flagCells_of_lookup s k _ hus, hus, hu, hb, hts, Option.getD_some, ht,
              HTMLAudioTagPool.set]
          rw [hrun]
          obtain ⟨c, m, h1, h2, h3, h4, h5, h6, h7, h8, h9⟩ := stop s rfl rfl
          refine ⟨c, m, h1, h2, h3, h4, h5, h6, h7, h8, ?_⟩
          intro s1 rc1 hd
          cases hd
        | some h =>
          have hnd2 : (P0.reduceOption ++ h :: S.reduceOption).Nodup := by
            simpa [List.reduceOption_append, List.reduceOption_cons_of_some] using hnd
          have hnP : some h ∉ P0 := by
            intro hm
            have : h ∈ P0.reduceOption := List.reduceOption_mem_iff.mpr hm
            exact (List.nodup_append.mp hnd2).2.2 this (by simp)
          have hnS : some h ∉ S := by
            intro hm
            have : h ∈ S.reduceOption := List.reduceOption_mem_iff.mpr hm
            exact (List.nodup_cons.mp (List.nodup_append.mp hnd2).2.1).1 this
          have hmark := markUnused_single h P0 S Q0 R u hnP hnS (by omega)
          have herP : (P0 ++ [some h] ++ S).eraseIdx (n + 1) = P0 ++ S := by
            rw [List.append_assoc, List.eraseIdx_append_of_length_le (by omega)]
            simp [hP0]
          have herQ : (Q0 ++ [some false] ++ R).eraseIdx (n + 1) = Q0 ++ R := by
            rw [List.append_assoc, List.eraseIdx_append_of_length_le (by omega)]
            simp [hQ0]
          have hmem : (P0 ++ [some h] ++ S).contains (some h) = true := by simp
          have hrun : sweepSource e k (n + 1) s rc = sweepSource e k n
              { s with
                elements := updateElement s.elements h (fun e => { e with errorListener := false })
                _tags := assign s._tags k (P0 ++ S)
                _tagUsed := assign (assign s._tagUsed k (Q0 ++ [some false] ++ R)) k (Q0 ++ R) }
              (rc + 1) := by
            rw [sweepSource]
            simp only [hge, if_false, flagCells_of_lookup s k _ hus, hus, hu, hb, hts, Option.getD_some, ht,
              HTMLAudioTagPool.set, hmem, if_true, hmark, lookup_assign_same, herP, herQ]
          rw [hrun]
          obtain ⟨c, m, h1, h2, h3, h4, h5, h6, h7, h8, h9⟩ :=
            ih { s with
                elements := updateElement s.elements h (fun e => { e with errorListener := false })
                _tags := assign s._tags k (P0 ++ S)
                _tagUsed := assign (assign s._tagUsed k (Q0 ++ [some false] ++ R)) k (Q0 ++ R) }
              (rc + 1) P0 S Q0 R (lookup_assign_same _ _ _) (lookup_assign_same _ _ _)
              hP0 hQ0 hRS
              (by
                have := List.nodup_append.mp hnd2
                rw [List.reduceOption_append]
                exact List.nodup_append.mpr ⟨this.1, (List.nodup_cons.mp this.2.1).2,
                  fun a ha hb => this.2.2 ha (by simp [hb])⟩)
              (by omega)
          obtain ⟨c1, c2, c3⟩ := conv c h2
          refine ⟨c, m + 1, h1, by omega, ?_, ?_, ?_, ?_, ?_, by omega, ?_⟩
          · rw [h3, c1, c3]; simp [hb]
          · rw [h4, c2, c3]; simp [hb]
          · intro k1 hk1
            obtain ⟨g1, g2⟩ := h5 k1 hk1
            rw [g1, g2]
            simp only [lookup_assign_other _ _ _ _ hk1, and_self]
          · rw [h6]
            exact keys_assign_of_lookup _ _ _ _ hts
          · rw [c1, c3]
            simp [hb] at h7 ⊢
            omega
          · intro s1 rc1 hd
            have := h9 s1 rc1 hd
            omega

theorem sum_map_update (f g : String → Nat) (k : String) (m : Nat) :
    ∀ (K : List String), K.Nodup → k ∈ K → (∀ k1, k1 ≠ k → f k1 = g k1) → f k + m = g k →
      (K.map f).sum + m = (K.map g).sum := by
  intro K
  induction K with
  | nil => intro _ hk; simp at hk
  | cons a rest ih =>
    intro hnd hk hother hkm
    obtain ⟨ha, hrest⟩ := List.nodup_cons.mp hnd
    by_cases hak : a = k
    · subst hak
      have : rest.map f = rest.map g := by
        apply List.map_congr_left
        intro x hx
        exact hother x (fun e => ha (e ▸ hx))
      simp only [List.map_cons, List.sum_cons, this]
      omega
    · have hk2 : k ∈ rest := by
        rcases List.mem_cons.mp hk with h1 | h1
        · exact absurd h1.symm hak
        · exact h1
      have := ih hrest hk2 hother hkm
      simp only [List.map_cons, List.sum_cons, hother a hak]
      omega

/-- Arrays that are left alone fit the description of the sweep, with nothing above the cut. -/
theorem unchanged_sweep (ts : List Tag) (us : List Flag) :
    ∃ c, 1 ≤ c ∧ ts = ts.take c ++ (busySlots (ts.drop c) (us.drop c)).map Prod.fst ∧
      us = us.take c ++ (busySlots (ts.drop c) (us.drop c)).map Prod.snd := by
  have hd : ts.drop (ts.length + us.length + 1) = [] := List.drop_of_length_le (by omega)
  have ht : ts.take (ts.length + us.length + 1) = ts := List.take_of_length_le (by omega)
  have hu : us.take (ts.length + us.length + 1) = us := List.take_of_length_le (by omega)
  refine ⟨ts.length + us.length + 1, by omega, ?_, ?_⟩
  · rw [ht, hd]
    simp [busySlots]
  · rw [hu, hd]
    simp [busySlots]

/-- The outer loop of `_handleMaximumInstances` over the keys `ks`, none of them twice: every
source is swept as `sweepSource_spec` says or left alone, and what the slot arrays lose in
length is what `remove_count` gains, at most four in all. -/
theorem sweepSources_spec (e : ErrorEvent) (K : List String) (hK : K.Nodup) :
    ∀ (ks : List String) (s : PoolState) (rc : Nat), ks.Nodup → (∀ k ∈ ks, k ∈ K) →
      (∀ k ∈ ks, ∀ ts, lookup s._tags k = some ts →
        (∃ us, lookup s._tagUsed k = some us ∧ us.length = ts.length) ∧ ts.reduceOption.Nodup) →
      rc ≤ 4 →
      ∃ m,
        (∀ k ts us, lookup s._tags k = some ts → lookup s._tagUsed k = some us →
          ∃ c, 1 ≤ c ∧
            lookup (sweepSources e ks s rc).state._tags k
              = some (ts.take c ++ (busySlots (ts.drop c) (us.drop c)).map Prod.fst) ∧
            lookup (sweepSources e ks s rc).state._tagUsed k
              = some (us.take c ++ (busySlots (ts.drop c) (us.drop c)).map Prod.snd)) ∧
        (∀ k, k ∉ ks →
          lookup (sweepSources e ks s rc).state._tags k = lookup s._tags k ∧
          lookup (sweepSources e ks s rc).state._tagUsed k = lookup s._tagUsed k) ∧
        keys (sweepSources e ks s rc).state._tags = keys s._tags ∧
        (K.map (fun k => (slotsOf (sweepSources e ks s rc).state k).length)).sum + m
          = (K.map (fun k => (slotsOf s k).length)).sum ∧
        rc + m ≤ 4 ∧
        (∀ s1 rc1, sweepSources e ks s rc = .done s1 rc1 → rc1 = rc + m) := by
  intro ks
  induction ks with
  | nil =>
    intro s rc _ _ _ hrc
    refine ⟨0, ?_, ?_, rfl, rfl, hrc, ?_⟩
    · intro k ts us hts hus
      obtain ⟨c, hc, h1, h2⟩ := unchanged_sweep ts us
      refine ⟨c, hc, ?_, ?_⟩
      · simp only [sweepSources, Sweep.state, hts]; rw [← h1]
      · simp only [sweepSources, Sweep.state, hus]; rw [← h2]
    · intro k _; exact ⟨rfl, rfl⟩
    · intro s1 rc1 hd
      simp only [sweepSources] at hd
      injection hd with _ h2
      omega
  | cons k0 rest ih =>
    intro s rc hnd hsub hwf hrc
    obtain ⟨hk0, hrest⟩ := List.nodup_cons.mp hnd
    have hsub2 : ∀ k ∈ rest, k ∈ K := fun k hk => hsub k (List.mem_cons_of_mem _ hk)
    have hwf2 : ∀ k ∈ rest, ∀ ts, lookup s._tags k = some ts →
        (∃ us, lookup s._tagUsed k = some us ∧ us.length = ts.length) ∧ ts.reduceOption.Nodup :=
      fun k hk => hwf k (List.mem_cons_of_mem _ hk)
    -- the source is skipped
    have skip : sweepSources e (k0 :: rest) s rc = sweepSources e rest s rc →
        ∃ m,
        (∀ k ts us, lookup s._tags k = some ts → lookup s._tagUsed k = some us →
          ∃ c, 1 ≤ c ∧
            lookup (sweepSources e (k0 :: rest) s rc).state._tags k
              = some (ts.take c ++ (busySlots (ts.drop c) (us.drop c)).map Prod.fst) ∧
            lookup (sweepSources e (k0 :: rest) s rc).state._tagUsed k
              = some (us.take c ++ (busySlots (ts.drop c) (us.drop c)).map Prod.snd)) ∧
        (∀ k, k ∉ k0 :: rest →
          lookup (sweepSources e (k0 :: rest) s rc).state._tags k = lookup s._tags k ∧
          lookup (sweepSources e (k0 :: rest) s rc).state._tagUsed k = lookup s._tagUsed k) ∧
        keys (sweepSources e (k0 :: rest) s rc).state._tags = keys s._tags ∧
        (K.map (fun k => (slotsOf (sweepSources e (k0 :: rest) s rc).state k).length)).sum + m
          = (K.map (fun k => (slotsOf s k).length)).sum ∧
        rc + m ≤ 4 ∧
        (∀ s1 rc1, sweepSources e (k0 :: rest) s rc = .done s1 rc1 → rc1 = rc + m) := by
      intro hrun
      rw [hrun]
      obtain ⟨m, h1, h2, h3, h4, h5, h6⟩ := ih s rc hrest hsub2 hwf2 hrc
      exact ⟨m, h1, fun k hk => h2 k (fun hm => hk (List.mem_cons_of_mem _ hm)), h3, h4, h5, h6⟩
    cases hts : lookup s._tags k0 with
    | none =>
      apply skip
      rw [sweepSources]
      simp [hts]
    | some ts =>
      by_cases hlen : ts.length > 1
      · obtain ⟨⟨us, hus, hul⟩, hdist⟩ := hwf k0 (List.mem_cons_self _ _) ts hts
        obtain ⟨c0, m0, g1, g2, g3, g4, g5, g6, g7, g8, g9⟩ :=
          sweepSource_spec e k0 (ts.length - 1) s rc ts [] us []
            (by simpa using hts) (by simpa using hus) (by omega) (by omega) rfl
            (by simpa using hdist) hrc
        simp only [List.append_nil] at g3 g4 g7
        have hrun : sweepSources e (k0 :: rest) s rc =
            match sweepSource e k0 (ts.length - 1) s rc with
            | .done s1 rc1 => sweepSources e rest s1 rc1
            | .returned s1 => .returned s1
            | .raised s1 => .raised s1 := by
          rw [sweepSources]
          simp only [hts, Option.getD_some, hlen, if_true]
        -- the sum over `K` after the sweep of `k0`
        have hsum : (K.map (fun k => (slotsOf (sweepSource e k0 (ts.length - 1) s rc).state
            k).length)).sum + m0 = (K.map (fun k => (slotsOf s k).length)).sum := by
          apply sum_map_update _ _ k0 m0 K hK (hsub k0 (List.mem_cons_self _ _))
          · intro k1 hk1
            simp only [slotsOf, (g5 k1 hk1).1]
          · simp only [slotsOf, g3, hts, Option.getD_some]
            exact g7
        -- the sweep of `k0` ends the loop
        have last : ∀ r : Sweep, sweepSources e (k0 :: rest) s rc = r →
            r.state = (sweepSource e k0 (ts.length - 1) s rc).state →
            (∀ s1 rc1, r ≠ .done s1 rc1) →
            ∃ m,
            (∀ k ts us, lookup s._tags k = some ts → lookup s._tagUsed k = some us →
              ∃ c, 1 ≤ c ∧
                lookup (sweepSources e (k0 :: rest) s rc).state._tags k
                  = some (ts.take c ++ (busySlots (ts.drop c) (us.drop c)).map Prod.fst) ∧
                lookup (sweepSources e (k0 :: rest) s rc).state._tagUsed k
                  = some (us.take c ++ (busySlots (ts.drop c) (us.drop c)).map Prod.snd)) ∧
            (∀ k, k ∉ k0 :: rest →
              lookup (sweepSources e (k0 :: rest) s rc).state._tags k = lookup s._tags k ∧
              lookup (sweepSources e (k0 :: rest) s rc).state._tagUsed k = lookup s._tagUsed k) ∧
            keys (sweepSources e (k0 :: rest) s rc).state._tags = keys s._tags ∧
            (K.map (fun k => (slotsOf (sweepSources e (k0 :: rest) s rc).state k).length)).sum + m
              = (K.map (fun k => (slotsOf s k).length)).sum ∧
            rc + m ≤ 4 ∧
            (∀ s1 rc1, sweepSources e (k0 :: rest) s rc = .done s1 rc1 → rc1 = rc + m) := by
          intro r hr hst hnot
          rw [hr, hst]
          refine ⟨m0, ?_, ?_, g6, hsum, g8, ?_⟩
          · intro k ts1 us1 hts1 hus1
            by_cases hk : k = k0
            · subst hk
              rw [hts] at hts1
              rw [hus] at hus1
              injection hts1 with e1
              injection hus1 with e2
              subst e1; subst e2
              exact ⟨c0, g1, g3, g4⟩
            · obtain ⟨c, hc, h1, h2⟩ := unchanged_sweep ts1 us1
              refine ⟨c, hc, ?_, ?_⟩
              · rw [(g5 k hk).1, hts1, ← h1]
              · rw [(g5 k hk).2, hus1, ← h2]
          · intro k hk
            exact g5 k (fun e1 => hk (by simp [e1]))
          · intro s1 rc1 hd
            exact absurd hd (hnot s1 rc1)
        cases hr : sweepSource e k0 (ts.length - 1) s rc with
        | done s1 rc1 =>
          rw [hr] at hrun g3 g4 g5 g6 hsum
          simp only [Sweep.state] at g3 g4 g5 g6 hsum
          have hrc1 : rc1 = rc + m0 := g9 s1 rc1 hr
          simp only at hrun
          rw [hrun]
          have hwf3 : ∀ k ∈ rest, ∀ ts, lookup s1._tags k = some ts →
              (∃ us, lookup s1._tagUsed k = some us ∧ us.length = ts.length) ∧
                ts.reduceOption.Nodup := by
            intro k hk ts1 hts1
            have hne : k ≠ k0 := fun e1 => hk0 (e1 ▸ hk)
            rw [(g5 k hne).1] at hts1
            rw [(g5 k hne).2]
            exact hwf2 k hk ts1 hts1
          obtain ⟨m1, h1, h2, h3, h4, h5, h6⟩ := ih s1 rc1 hrest hsub2 hwf3 (by omega)
          refine ⟨m0 + m1, ?_, ?_, by rw [h3, g6], by omega, by omega, ?_⟩
          · intro k ts1 us1 hts1 hus1
            by_cases hk : k = k0
            · subst hk
              rw [hts] at hts1
              rw [hus] at hus1
              injection hts1 with e1
              injection hus1 with e2
              subst e1; subst e2
              refine ⟨c0, g1, ?_, ?_⟩
              · rw [(h2 k hk0).1, g3]
              · rw [(h2 k hk0).2, g4]
            · exact h1 k ts1 us1 (by rw [(g5 k hk).1]; exact hts1)
                (by rw [(g5 k hk).2]; exact hus1)
          · intro k hk
            have hne : k ≠ k0 := fun e1 => hk (by simp [e1])
            have hnr : k ∉ rest := fun hm => hk (List.mem_cons_of_mem _ hm)
            rw [(h2 k hnr).1, (h2 k hnr).2]
            exact g5 k hne
          · intro s2 rc2 hd
            have := h6 s2 rc2 hd
            omega
        | returned s1 =>
          rw [hr] at hrun
          simp only at hrun
          exact last (.returned s1) hrun (by rw [hr]) (by intro _ _ h; cases h)
        | raised s1 =>
          rw [hr] at hrun
          simp only at hrun
          exact last (.raised s1) hrun (by rw [hr]) (by intro _ _ h; cases h)
      · apply skip
        rw [sweepSources]
        simp [hts, hlen]

theorem mem_of_lookup {α : Type} (m : List (String × α)) (k : String) (v : α)
    (h : lookup m k = some v) : (k, v) ∈ m := by
  induction m with
  | nil => simp [lookup] at h
  | cons p rest ih =>
    obtain ⟨k0, w⟩ := p
    by_cases hk : k0 = k
    · simp only [lookup, hk, if_true] at h
      injection h with e
      simp [hk, e]
    · simp only [lookup, hk, if_false] at h
      exact List.mem_cons_of_mem _ (ih h)

/-- A check of the entries that can be evaluated gives the equality of lengths. -/
theorem lengths_aligned_of_entries (s : PoolState)
    (h : ∀ p ∈ s._tags, (lookup s._tagUsed p.1).map List.length = some p.2.length) :
    ∀ k ts, lookup s._tags k = some ts →
      ∃ us, lookup s._tagUsed k = some us ∧ us.length = ts.length := by
  intro k ts hts
  have := h (k, ts) (mem_of_lookup _ _ _ hts)
  cases hus : lookup s._tagUsed k with
  | none => simp [hus] at this
  | some us =>
    simp only [hus, Option.map_some'] at this
    injection this with e
    exact ⟨us, rfl, e⟩

/-- A check of the entries that can be evaluated gives the distinctness of the tags. -/
theorem distinct_of_entries (s : PoolState) (h : ∀ p ∈ s._tags, p.2.reduceOption.Nodup) :
    ∀ k ts, lookup s._tags k = some ts → ts.reduceOption.Nodup :=
  fun k ts hts => h (k, ts) (mem_of_lookup _ _ _ hts)

/-- C13 (amended): for every state in which every source with a slot array has a flag array of
the same length and no tag is held by two slots of one source, an error event with code 4 removes
at most four slots in all; for each source there is an index `c ≥ 1` such that the slots below `c`
are kept with their flags and, of the slots from `c` on, exactly those whose flag is `true` are
kept, in their order.  So every slot removed was at an index `≥ 1` and had a flag other than
`true`, and a slot is never removed while an idle slot of the same source above it is kept. -/
theorem C13_quota_recovery_frees_top_idle_slots (s : PoolState) (e : ErrorEvent)
    (hcode : e.code = 4)
    (haligned : ∀ k ts, lookup s._tags k = some ts →
      ∃ us, lookup s._tagUsed k = some us ∧ us.length = ts.length)
    (hdistinct : ∀ k ts, lookup s._tags k = some ts → ts.reduceOption.Nodup) :
    slotCount (HTMLAudioTagPool._handleMaximumInstances s e).state ≤ slotCount s ∧
    slotCount s ≤ slotCount (HTMLAudioTagPool._handleMaximumInstances s e).state + 4 ∧
    ∀ k ts us, lookup s._tags k = some ts → lookup s._tagUsed k = some us →
      ∃ c, 1 ≤ c ∧
        lookup (HTMLAudioTagPool._handleMaximumInstances s e).state._tags k
          = some (ts.take c ++ (busySlots (ts.drop c) (us.drop c)).map Prod.fst) ∧
        lookup (HTMLAudioTagPool._handleMaximumInstances s e).state._tagUsed k
          = some (us.take c ++ (busySlots (ts.drop c) (us.drop c)).map Prod.snd) := by
  obtain ⟨m, h1, _, h3, h4, h5, _⟩ :=
    sweepSources_spec e (keys s._tags) (keys_nodup _) (keys s._tags) s 0 (keys_nodup _)
      (fun _ hk => hk) (fun k _ ts hts => ⟨haligned k ts hts, hdistinct k ts hts⟩) (by omega)
  have hreg : (HTMLAudioTagPool._handleMaximumInstances s e).state._tags
        = (sweepSources e (keys s._tags) s 0).state._tags ∧
      (HTMLAudioTagPool._handleMaximumInstances s e).state._tagUsed
        = (sweepSources e (keys s._tags) s 0).state._tagUsed := by
    unfold HTMLAudioTagPool._handleMaximumInstances
    simp only [hcode, if_true]
    cases hr : sweepSources e (keys s._tags) s 0 with
    | done s1 rc1 =>
      by_cases h0 : rc1 = 0
      · simp only [h0, if_true, Completion.state, Sweep.state, and_self]
      · simp only [h0, if_false, Completion.state, Sweep.state, reload, and_self]
    | returned s1 => exact ⟨rfl, rfl⟩
    | raised s1 => exact ⟨rfl, rfl⟩
  have hcount : slotCount (HTMLAudioTagPool._handleMaximumInstances s e).state + m
      = slotCount s := by
    simp only [slotCount, slotsOf, hreg.1, h3]
    simpa [slotsOf] using h4
  refine ⟨by omega, by omega, ?_⟩
  intro k ts us hts hus
  rw [hreg.1, hreg.2]
  exact h1 k ts us hts hus

/-- C13 (witness): the event of C14; slot 1 of `"a"` is idle and is the one slot removed. -/
theorem C13_quota_recovery_frees_top_idle_slots_witness :
    slotCount (HTMLAudioTagPool._handleMaximumInstances
      (performAll (empty true) [.acquire "a", .acquire "a", .acquire "a", .release "a" 1,
        .acquire "b", .acquire "b", .acquire "b"]) { code := 4, currentTarget := 3 }).state
      ≤ slotCount (performAll (empty true) [.acquire "a", .acquire "a", .acquire "a",
        .release "a" 1, .acquire "b", .acquire "b", .acquire "b"]) ∧
    slotCount (performAll (empty true) [.acquire "a", .acquire "a", .acquire "a",
        .release "a" 1, .acquire "b", .acquire "b", .acquire "b"])
      ≤ slotCount (HTMLAudioTagPool._handleMaximumInstances
        (performAll (empty true) [.acquire "a", .acquire "a", .acquire "a", .release "a" 1,
          .acquire "b", .acquire "b", .acquire "b"]) { code := 4, currentTarget := 3 }).state
        + 4 :=
  have h := C13_quota_recovery_frees_top_idle_slots
    (performAll (empty true) [.acquire "a", .acquire "a", .acquire "a", .release "a" 1,
      .acquire "b", .acquire "b", .acquire "b"]) { code := 4, currentTarget := 3 } rfl
    (lengths_aligned_of_entries _ (by decide)) (distinct_of_entries _ (by decide))
  ⟨h.1, h.2.1⟩

/-- C13 (counterexample): tag 0 has been released under the key `"b"` while bound to `"a"` and
handed out again for `"a"`, so that it sits in three slots of `"a"`; the arrays are aligned, slot 1
is busy and slot 2 is idle.  The error event on tag 2 frees slot 2, `s.set` clears the flags of
all slots holding tag 0, and slot 1, busy when the event arrived, is removed as well. -/
theorem C13_counterexample_busy_slot_removed :
    slotsOf (performAll (empty true) [.acquire "a", .acquire "b", .release "b" 0, .acquire "a",
      .acquire "a", .release "b" 0, .acquire "a", .release "a" 0, .acquire "a", .acquire "a",
      .acquire "b", .acquire "b"]) "a" = [some 0, some 0, some 0] ∧
    flagsOf (performAll (empty true) [.acquire "a", .acquire "b", .release "b" 0, .acquire "a",
      .acquire "a", .release "b" 0, .acquire "a", .release "a" 0, .acquire "a", .acquire "a",
      .acquire "b", .acquire "b"]) "a" = [some true, some true, some false] ∧
    slotsOf (performAll (empty true) [.acquire "a", .acquire "b", .release "b" 0, .acquire "a",
      .acquire "a", .release "b" 0, .acquire "a", .release "a" 0, .acquire "a", .acquire "a",
      .acquire "b", .acquire "b"]) "b" = [some 1, some 2] ∧
    flagsOf (performAll (empty true) [.acquire "a", .acquire "b", .release "b" 0, .acquire "a",
      .acquire "a", .release "b" 0, .acquire "a", .release "a" 0, .acquire "a", .acquire "a",
      .acquire "b", .acquire "b"]) "b" = [some true, some true] ∧
    slotsOf (performAll (empty true) [.acquire "a", .acquire "b", .release "b" 0, .acquire "a",
      .acquire "a", .release "b" 0, .acquire "a", .release "a" 0, .acquire "a", .acquire "a",
      .acquire "b", .acquire "b", .quota { code := 4, currentTarget := 2 }]) "a" = [some 0] ∧
    flagsOf (performAll (empty true) [.acquire "a", .acquire "b", .release "b" 0, .acquire "a",
      .acquire "a", .release "b" 0, .acquire "a", .release "a" 0, .acquire "a", .acquire "a",
      .acquire "b", .acquire "b", .quota { code := 4, currentTarget := 2 }]) "a"
      = [some false] := by
  decide

/-! ## Quota recovery: when the load is repeated -/

theorem mem_keys_of_lookup {α : Type} (m : List (String × α)) (k : String) (v : α)
    (h : lookup m k = some v) : k ∈ keys m := by
  induction m with
  | nil => simp [lookup] at h
  | cons p rest ih =>
    obtain ⟨k0, w⟩ := p
    by_cases hk : k0 = k
    · simp [keys, hk]
    · simp only [lookup, hk, if_false] at h
      have hk2 : ¬ k = k0 := fun e => hk e.symm
      simp [keys, List.mem_filter, ih h, hk2]

/-- The inner loop leaves everything as it is when the slots it visits are all busy. -/
theorem sweepSource_all_busy (e : ErrorEvent) (k : String) (s : PoolState) (rc : Nat)
    (us : List Flag) (hus : lookup s._tagUsed k = some us) (hrc : rc < 4) :
    ∀ n, (∀ i, 1 ≤ i → i ≤ n → arrayGet us i = some true) →
      sweepSource e k n s rc = .done s rc := by
  intro n
  induction n with
  | zero => intro _; rfl
  | succ n ih =>
    intro hb
    have hge : ¬ rc ≥ 4 := by omega
    rw [sweepSource]
    simp only [hge, if_false, flagCells_of_lookup s k us hus,
      hb (n + 1) (by omega) (Nat.le_refl _), if_true]
    exact ih (fun i h1 h2 => hb i h1 (by omega))

/-- The outer loop leaves everything as it is when all overflow slots are busy. -/
theorem sweepSources_all_busy (e : ErrorEvent) (s : PoolState) (rc : Nat) (hrc : rc < 4)
    (hs : Slotted s) :
    ∀ ks, (∀ k ∈ ks, ∀ i, 1 ≤ i → i < (slotsOf s k).length →
        arrayGet (flagsOf s k) i = some true) →
      sweepSources e ks s rc = .done s rc := by
  intro ks
  induction ks with
  | nil => intro _; rfl
  | cons k0 rest ih =>
    intro hb
    have hrest := ih (fun k hk => hb k (List.mem_cons_of_mem _ hk))
    rw [sweepSources]
    by_cases hlen : ((lookup s._tags k0).getD []).length > 1
    · simp only [hlen, if_true]
      cases hts : lookup s._tags k0 with
      | none => simp [hts] at hlen
      | some ts =>
        obtain ⟨⟨us, hus⟩, _⟩ := hs k0 ts hts
        have h0 := hb k0 (List.mem_cons_self _ _)
        simp only [slotsOf, flagsOf, hts, hus, Option.getD_some] at h0
        rw [sweepSource_all_busy e k0 s rc us hus hrc _
          (fun i h1 h2 => h0 i h1 (by simp only [Option.getD_some] at h2 hlen; omega))]
        exact hrest
    · simp only [hlen, if_false]
      exact hrest

/-- Freeing one overflow slot keeps every source with a flag array and with tags in its overflow
slots. -/
theorem slotted_splice (s : PoolState) (k : String) (ts : List Tag) (j : Nat)
    (es : List AudioTag) (used : List (String × List Flag)) (us1 : List Flag)
    (hs : Slotted s) (hts : lookup s._tags k = some ts)
    (hused : ∀ k1, k1 ≠ k → lookup used k1 = lookup s._tagUsed k1) :
    Slotted { s with
      elements := es
      _tags := assign s._tags k (ts.eraseIdx j)
      _tagUsed := assign used k us1 } := by
  intro k1 ts1 hts1
  by_cases hk : k1 = k
  · subst hk
    simp only [lookup_assign_same] at hts1
    injection hts1 with e1
    subst e1
    refine ⟨⟨us1, lookup_assign_same _ _ _⟩, ?_⟩
    intro i h1 h2
    obtain ⟨_, hh⟩ := hs k1 ts hts
    have hl := List.length_eraseIdx_le ts j
    rw [arrayGet_eraseIdx]
    by_cases hij : i < j
    · simp only [hij, if_true]
      exact hh i h1 (by omega)
    · simp only [hij, if_false]
      have hjl : j < ts.length := by
        by_contra hc
        rw [List.eraseIdx_of_length_le (Nat.le_of_not_lt hc)] at h2
        omega
      rw [List.length_eraseIdx_of_lt hjl] at h2
      exact hh (i + 1) (by omega) (by omega)
  · simp only [lookup_assign_other _ _ _ _ hk] at hts1 ⊢
    obtain ⟨⟨us, hus⟩, hh⟩ := hs k1 ts1 hts1
    exact ⟨⟨us, by rw [hused k1 hk]; exact hus⟩, hh⟩

/-- The inner loop in a state where the overflow slots hold tags: it does not raise; when it runs
to the end, the slot array of the source has lost as many cells as `remove_count` has gained, and
nothing was lost only if all the slots visited were busy, the state then being untouched; when it
returns early, `load` has been called and `remove_count` had reached four. -/
theorem sweepSource_progress (e : ErrorEvent) (k : String) :
    ∀ (n : Nat) (s : PoolState) (rc : Nat), Slotted s → n + 1 ≤ (slotsOf s k).length → rc ≤ 4 →
      (∀ s1 rc1, sweepSource e k n s rc = .done s1 rc1 →
        Slotted s1 ∧ rc ≤ rc1 ∧ rc1 ≤ 4 ∧ s1.loadCalls = s.loadCalls ∧ s1.console = s.console ∧
        (∀ k1, k1 ≠ k → lookup s1._tags k1 = lookup s._tags k1) ∧
        keys s1._tags = keys s._tags ∧
        (slotsOf s1 k).length + (rc1 - rc) = (slotsOf s k).length ∧
        (rc1 = rc → s1 = s ∧ ∀ i, 1 ≤ i → i ≤ n → arrayGet (flagsOf s k) i = some true)) ∧
      (∀ s1, sweepSource e k n s rc = .returned s1 →
        s1.loadCalls = s.loadCalls ++ [e.currentTarget] ∧ s1.console = s.console ∧
        (∀ k1, k1 ≠ k → lookup s1._tags k1 = lookup s._tags k1) ∧
        keys s1._tags = keys s._tags ∧
        (slotsOf s1 k).length + (4 - rc) = (slotsOf s k).length) ∧
      (∀ s1, sweepSource e k n s rc ≠ .raised s1) := by
  intro n
  induction n with
  | zero =>
    intro s rc hs _ hrc
    refine ⟨?_, ?_, ?_⟩
    · intro s1 rc1 hd
      simp only [sweepSource] at hd
      injection hd with h1 h2
      subst h1; subst h2
      refine ⟨hs, Nat.le_refl _, hrc, rfl, rfl, fun _ _ => rfl, rfl, by omega, ?_⟩
      intro _
      refine ⟨rfl, ?_⟩
      intro i h1 h2
      omega
    · intro s1 hd
      simp [sweepSource] at hd
    · intro s1 hd
      simp [sweepSource] at hd
  | succ n ih =>
    intro s rc hs hn hrc
    cases hts : lookup s._tags k with
    | none => simp [slotsOf, hts] at hn
    | some ts =>
      simp only [slotsOf, hts, Option.getD_some] at hn
      obtain ⟨⟨us, hus⟩, hholes⟩ := hs k ts hts
      by_cases hge : rc ≥ 4
      · have hrun : sweepSource e k (n + 1) s rc = .returned (reload s e) := by
          rw [sweepSource]
          simp only [hge, if_true]
        rw [hrun]
        refine ⟨(fun s1 rc1 hd => by cases hd), ?_, (fun s1 hd => by cases hd)⟩
        intro s1 hd
        injection hd with h1
        subst h1
        have h4 : 4 - rc = 0 := by omega
        exact ⟨rfl, rfl, fun _ _ => rfl, rfl, by rw [h4]; rfl⟩
      · by_cases hb : arrayGet us (n + 1) = some true
        · have hrun : sweepSource e k (n + 1) s rc = sweepSource e k n s rc := by
            rw [sweepSource]
            simp only [hge, if_false, flagCells_of_lookup s k us hus, hus, hb, if_true]
          rw [hrun]
          obtain ⟨h1, h2, h3⟩ := ih s rc hs (by simp only [slotsOf, hts, Option.getD_some]; omega) hrc
          refine ⟨?_, h2, h3⟩
          intro s1 rc1 hd
          obtain ⟨g1, g2, g3, g4, g5, g6, g7, g8, g9⟩ := h1 s1 rc1 hd
          refine ⟨g1, g2, g3, g4, g5, g6, g7, g8, ?_⟩
          intro heq
          obtain ⟨q1, q2⟩ := g9 heq
          refine ⟨q1, ?_⟩
          intro i hi1 hi2
          by_cases hi : i = n + 1
          · subst hi
            simp only [flagsOf, hus, Option.getD_some]
            exact hb
          · exact q2 i hi1 (by omega)
        · -- an idle slot: it holds a tag, `set` finds it, and the slot is spliced out
          cases hcell : arrayGet ts (n + 1) with
          | none => exact absurd hcell (hholes (n + 1) (by omega) (by omega))
          | some h =>
            have hmem : ts.contains (some h) = true := by
              have h1 : ts[n + 1]? = some (some h) := by
                unfold arrayGet at hcell
                cases hx : ts[n + 1]? with
                | none => simp [hx] at hcell
                | some x =>
                  rw [hx] at hcell
                  have hxh : x = some h := by simpa [Option.join] using hcell
                  rw [hxh]
              have := List.getElem?_mem h1
              simpa using this
            have hrun : sweepSource e k (n + 1) s rc = sweepSource e k n
                { s with
                  elements :=
                    updateElement s.elements h (fun e => { e with errorListener := false })
                  _tags := assign s._tags k (ts.eraseIdx (n + 1))
                  _tagUsed := assign (assign s._tagUsed k (markUnused h ts 0 us)) k
                    ((markUnused h ts 0 us).eraseIdx (n + 1)) }
                (rc + 1) := by
              rw [sweepSource]
              simp only [hge, if_false, flagCells_of_lookup s k us hus, hus, hb, hts, Option.getD_some, hcell,
                HTMLAudioTagPool.set, hmem, if_true, lookup_assign_same]
            rw [hrun]
            have hs3 := slotted_splice s k ts (n + 1)
              (updateElement s.elements h (fun e => { e with errorListener := false }))
              (assign s._tagUsed k (markUnused h ts 0 us))
              ((markUnused h ts 0 us).eraseIdx (n + 1)) hs hts
              (fun k1 hk1 => lookup_assign_other _ _ _ _ hk1)
            have hlen3 : (ts.eraseIdx (n + 1)).length + 1 = ts.length := by
              rw [List.length_eraseIdx_of_lt (by omega)]
              omega
            obtain ⟨h1, h2, h3⟩ := ih _ (rc + 1) hs3
              (by simp only [slotsOf, lookup_assign_same, Option.getD_some]; omega) (by omega)
            refine ⟨?_, ?_, h3⟩
            · intro s1 rc1 hd
              obtain ⟨g1, g2, g3, g4, g5, g6, g7, g8, _⟩ := h1 s1 rc1 hd
              simp only [slotsOf, lookup_assign_same, Option.getD_some] at g8
              refine ⟨g1, by omega, g3, g4, g5, ?_, ?_, ?_, ?_⟩
              · intro k1 hk1
                rw [g6 k1 hk1]
                exact lookup_assign_other _ _ _ _ hk1
              · rw [g7]
                exact keys_assign_of_lookup _ _ _ _ hts
              · simp only [slotsOf, hts, Option.getD_some] at g8 ⊢
                omega
              · intro heq
                omega
            · intro s1 hd
              obtain ⟨g1, g2, g3, g4, g5⟩ := h2 s1 hd
              simp only [slotsOf, lookup_assign_same, Option.getD_some] at g5
              refine ⟨g1, g2, ?_, ?_, ?_⟩
              · intro k1 hk1
                rw [g3 k1 hk1]
                exact lookup_assign_other _ _ _ _ hk1
              · rw [g4]
                exact keys_assign_of_lookup _ _ _ _ hts
              · simp only [slotsOf, hts, Option.getD_some] at g5 ⊢
                omega

/-- The outer loop in a state where the overflow slots hold tags, `K` being a list of keys without
repetition that contains the keys looped over. -/
theorem sweepSources_progress (e : ErrorEvent) (K : List String) (hK : K.Nodup) :
    ∀ (ks : List String) (s : PoolState) (rc : Nat), (∀ k ∈ ks, k ∈ K) → Slotted s → rc ≤ 4 →
      (∀ s1 rc1, sweepSources e ks s rc = .done s1 rc1 →
        rc ≤ rc1 ∧ s1.loadCalls = s.loadCalls ∧ s1.console = s.console ∧
        keys s1._tags = keys s._tags ∧
        (K.map (fun k => (slotsOf s1 k).length)).sum + (rc1 - rc)
          = (K.map (fun k => (slotsOf s k).length)).sum ∧
        (rc1 = rc → s1 = s ∧ ∀ k ∈ ks, ∀ i, 1 ≤ i → i < (slotsOf s k).length →
          arrayGet (flagsOf s k) i = some true)) ∧
      (∀ s1, sweepSources e ks s rc = .returned s1 →
        s1.loadCalls = s.loadCalls ++ [e.currentTarget] ∧ s1.console = s.console ∧
        keys s1._tags = keys s._tags ∧
        (K.map (fun k => (slotsOf s1 k).length)).sum + (4 - rc)
          = (K.map (fun k => (slotsOf s k).length)).sum) ∧
      (∀ s1, sweepSources e ks s rc ≠ .raised s1) := by
  intro ks
  induction ks with
  | nil =>
    intro s rc _ _ _
    refine ⟨?_, ?_, ?_⟩
    · intro s1 rc1 hd
      simp only [sweepSources] at hd
      injection hd with h1 h2
      subst h1; subst h2
      refine ⟨Nat.le_refl _, rfl, rfl, rfl, by omega, ?_⟩
      intro _
      refine ⟨rfl, ?_⟩
      intro k hk
      simp at hk
    · intro s1 hd
      simp [sweepSources] at hd
    · intro s1 hd
      simp [sweepSources] at hd
  | cons k0 rest ih =>
    intro s rc hsub hs hrc
    have hsub2 : ∀ k ∈ rest, k ∈ K := fun k hk => hsub k (List.mem_cons_of_mem _ hk)
    by_cases hlen : ((lookup s._tags k0).getD []).length > 1
    · have hrun : sweepSources e (k0 :: rest) s rc =
          match sweepSource e k0 (((lookup s._tags k0).getD []).length - 1) s rc with
          | .done s1 rc1 => sweepSources e rest s1 rc1
          | .returned s1 => .returned s1
          | .raised s1 => .raised s1 := by
        rw [sweepSources]
        simp only [hlen, if_true]
      obtain ⟨p1, p2, p3⟩ := sweepSource_progress e k0
        (((lookup s._tags k0).getD []).length - 1) s rc hs
        (by simp only [slotsOf]; omega) hrc
      rw [hrun]
      cases hr : sweepSource e k0 (((lookup s._tags k0).getD []).length - 1) s rc with
      | done s1 rc1 =>
        obtain ⟨g1, g2, g3, g4, g5, g6, g7, g8, g9⟩ := p1 s1 rc1 hr
        obtain ⟨q1, q2, q3⟩ := ih s1 rc1 hsub2 g1 g3
        have hsum : (K.map (fun k => (slotsOf s1 k).length)).sum + (rc1 - rc)
            = (K.map (fun k => (slotsOf s k).length)).sum := by
          apply sum_map_update _ _ k0 _ K hK (hsub k0 (List.mem_cons_self _ _))
          · intro k1 hk1
            simp only [slotsOf, g6 k1 hk1]
          · exact g8
        simp only
        refine ⟨?_, ?_, q3⟩
        · intro s2 rc2 hd
          obtain ⟨r1, r2, r3, r4, r5, r6⟩ := q1 s2 rc2 hd
          refine ⟨by omega, by rw [r2, g4], by rw [r3, g5], by rw [r4, g7], by omega, ?_⟩
          intro heq
          have e1 : rc1 = rc := by omega
          have e2 : rc2 = rc1 := by omega
          obtain ⟨u1, u2⟩ := g9 e1
          obtain ⟨v1, v2⟩ := r6 e2
          subst u1
          refine ⟨v1, ?_⟩
          intro k hk i hi1 hi2
          rcases List.mem_cons.mp hk with h0 | h0
          · subst h0
            exact u2 i hi1 (by simp only [slotsOf] at hi2; omega)
          · exact v2 k h0 i hi1 hi2
        · intro s2 hd
          obtain ⟨r1, r2, r3, r4⟩ := q2 s2 hd
          refine ⟨by rw [r1, g4], by rw [r2, g5], by rw [r3, g7], by omega⟩
      | returned s1 =>
        obtain ⟨g1, g2, g3, g4, g5⟩ := p2 s1 hr
        have hsum : (K.map (fun k => (slotsOf s1 k).length)).sum + (4 - rc)
            = (K.map (fun k => (slotsOf s k).length)).sum := by
          apply sum_map_update _ _ k0 _ K hK (hsub k0 (List.mem_cons_self _ _))
          · intro k1 hk1
            simp only [slotsOf, g3 k1 hk1]
          · exact g5
        simp only
        refine ⟨(fun s2 rc2 hd => by cases hd), ?_, (fun s2 hd => by cases hd)⟩
        intro s2 hd
        injection hd with h1
        subst h1
        exact ⟨g1, g2, g4, hsum⟩
      | raised s1 => exact absurd hr (p3 s1)
    · have hrun : sweepSources e (k0 :: rest) s rc = sweepSources e rest s rc := by
        rw [sweepSources]
        simp only [hlen, if_false]
      rw [hrun]
      obtain ⟨q1, q2, q3⟩ := ih s rc hsub2 hs hrc
      refine ⟨?_, q2, q3⟩
      intro s1 rc1 hd
      obtain ⟨r1, r2, r3, r4, r5, r6⟩ := q1 s1 rc1 hd
      refine ⟨r1, r2, r3, r4, r5, ?_⟩
      intro heq
      obtain ⟨v1, v2⟩ := r6 heq
      refine ⟨v1, ?_⟩
      intro k hk i hi1 hi2
      rcases List.mem_cons.mp hk with h0 | h0
      · subst h0
        simp only [slotsOf] at hi2
        omega
      · exact v2 k h0 i hi1 hi2

/-- C20 (amended): an error event whose code is not 4 changes nothing and repeats no load.  For
an event with code 4, in every state in which each source with a slot array has a flag array and each
overflow slot holds a tag: when every overflow slot of every source is busy, nothing is freed, the
state is left as it is but for the line logged for the failure, and no load is repeated; when
some overflow slot is idle, the handler returns normally, at least one slot has been freed, `load`
has been called once more, on the element the event was delivered to, and nothing is logged. -/
theorem C20_quota_recovery_reloads_iff_slot_freed (s : PoolState) (e : ErrorEvent)
    (hflags : ∀ k ts, lookup s._tags k = some ts → ∃ us, lookup s._tagUsed k = some us)
    (htags : ∀ k ts i, lookup s._tags k = some ts → 1 ≤ i → i < ts.length →
      arrayGet ts i ≠ none) :
    (e.code ≠ 4 → HTMLAudioTagPool._handleMaximumInstances s e = .normal s ()) ∧
    (e.code = 4 →
      ((∀ k i, 1 ≤ i → i < (slotsOf s k).length → arrayGet (flagsOf s k) i = some true) →
        HTMLAudioTagPool._handleMaximumInstances s e = .normal { s with
          console := s.console ++ [.atMaximumCapacity (srcOf s e.currentTarget)] } ()) ∧
      ((∃ k i, 1 ≤ i ∧ i < (slotsOf s k).length ∧ arrayGet (flagsOf s k) i ≠ some true) →
        ∃ s1, HTMLAudioTagPool._handleMaximumInstances s e = .normal s1 () ∧
          slotCount s1 < slotCount s ∧
          s1.loadCalls = s.loadCalls ++ [e.currentTarget] ∧ s1.console = s.console)) := by
  have hs : Slotted s := fun k ts hts => ⟨hflags k ts hts, fun i h1 h2 => htags k ts i hts h1 h2⟩
  refine ⟨?_, ?_⟩
  · intro hc
    simp [HTMLAudioTagPool._handleMaximumInstances, hc]
  · intro hc
    refine ⟨?_, ?_⟩
    · intro hbusy
      have := sweepSources_all_busy e s 0 (by omega) hs (keys s._tags)
        (fun k _ i h1 h2 => hbusy k i h1 h2)
      simp [HTMLAudioTagPool._handleMaximumInstances, hc, this]
    · rintro ⟨k, i, hi1, hi2, hidle⟩
      obtain ⟨p1, p2, p3⟩ := sweepSources_progress e (keys s._tags) (keys_nodup _)
        (keys s._tags) s 0 (fun _ hk => hk) hs (by omega)
      have hk : k ∈ keys s._tags := by
        cases hts : lookup s._tags k with
        | none => simp [slotsOf, hts] at hi2
        | some ts => exact mem_keys_of_lookup _ _ _ hts
      unfold HTMLAudioTagPool._handleMaximumInstances
      simp only [hc, if_true]
      cases hr : sweepSources e (keys s._tags) s 0 with
      | done s1 rc1 =>
        obtain ⟨r1, r2, r3, r4, r5, r6⟩ := p1 s1 rc1 hr
        have hne : ¬ rc1 = 0 := by
          intro h0
          obtain ⟨_, v2⟩ := r6 h0
          exact hidle (v2 k hk i hi1 hi2)
        simp only [hne, if_false]
        refine ⟨reload s1 e, rfl, ?_, by simp only [reload, r2], r3⟩
        have : slotCount (reload s1 e) = (List.map (fun k => (slotsOf s1 k).length)
            (keys s._tags)).sum := by
          simp only [slotCount, reload, r4]
          rfl
        rw [this]
        simp only [slotCount]
        omega
      | returned s1 =>
        obtain ⟨r1, r2, r3, r4⟩ := p2 s1 hr
        refine ⟨s1, rfl, ?_, r1, r2⟩
        simp only [slotCount, r3]
        omega
      | raised s1 => exact absurd hr (p3 s1)

/-- A check of the entries that can be evaluated gives the flag arrays. -/
theorem flags_of_entries (s : PoolState)
    (h : ∀ p ∈ s._tags, (lookup s._tagUsed p.1).isSome = true) :
    ∀ k ts, lookup s._tags k = some ts → ∃ us, lookup s._tagUsed k = some us := by
  intro k ts hts
  have := h (k, ts) (mem_of_lookup _ _ _ hts)
  exact Option.isSome_iff_exists.mp this

/-- A check of the entries that can be evaluated gives the tags of the overflow slots. -/
theorem overflow_tags_of_entries (s : PoolState)
    (h : ∀ p ∈ s._tags, ∀ i, i < p.2.length → 1 ≤ i → arrayGet p.2 i ≠ none) :
    ∀ k ts i, lookup s._tags k = some ts → 1 ≤ i → i < ts.length → arrayGet ts i ≠ none :=
  fun k ts i hts h1 h2 => h (k, ts) (mem_of_lookup _ _ _ hts) i h2 h1

/-- C20 (witness): the event of C14; slot 1 of `"a"` is idle, so the load of tag 3 is
repeated. -/
theorem C20_quota_recovery_reloads_iff_slot_freed_witness :
    ∃ s1, HTMLAudioTagPool._handleMaximumInstances
        (performAll (empty true) [.acquire "a", .acquire "a", .acquire "a", .release "a" 1,
          .acquire "b", .acquire "b", .acquire "b"]) { code := 4, currentTarget := 3 }
        = .normal s1 () ∧
      slotCount s1 < slotCount (performAll (empty true) [.acquire "a", .acquire "a",
        .acquire "a", .release "a" 1, .acquire "b", .acquire "b", .acquire "b"]) ∧
      s1.loadCalls = (performAll (empty true) [.acquire "a", .acquire "a", .acquire "a",
        .release "a" 1, .acquire "b", .acquire "b", .acquire "b"]).loadCalls ++ [3] ∧
      s1.console = (performAll (empty true) [.acquire "a", .acquire "a", .acquire "a",
        .release "a" 1, .acquire "b", .acquire "b", .acquire "b"]).console :=
  ((C20_quota_recovery_reloads_iff_slot_freed
    (performAll (empty true) [.acquire "a", .acquire "a", .acquire "a", .release "a" 1,
      .acquire "b", .acquire "b", .acquire "b"]) { code := 4, currentTarget := 3 }
    (flags_of_entries _ (by decide)) (overflow_tags_of_entries _ (by decide))).2 rfl).2
    ⟨"a", 1, by decide, by decide, by decide⟩

/-- C20 (counterexample): after three `get("a")` and `remove("a")` the slot array and the flag
array of `"a"` have two cells, both deleted.  An error event with code 4 finds slot 1 not in use
and calls `s.set("a", undefined)`, which raises at `tag.removeEventListener`: no slot is freed,
the state is as before, and neither is the load repeated nor the failure logged. -/
theorem C20_counterexample_deleted_overflow_cell :
    slotsOf (performAll (empty true) [.acquire "a", .acquire "a", .acquire "a", .remove "a"])
      "a" = [none, none] ∧
    flagsOf (performAll (empty true) [.acquire "a", .acquire "a", .acquire "a", .remove "a"])
      "a" = [none, none] ∧
    HTMLAudioTagPool._handleMaximumInstances
      (performAll (empty true) [.acquire "a", .acquire "a", .acquire "a", .remove "a"])
      { code := 4, currentTarget := 1 }
      = .thrown (performAll (empty true) [.acquire "a", .acquire "a", .acquire "a",
        .remove "a"]) ∧
    (performAll (empty true) [.acquire "a", .acquire "a", .acquire "a", .remove "a"]).console
      = [.creatingNewTag "a"] ∧
    (performAll (empty true) [.acquire "a", .acquire "a", .acquire "a", .remove "a"]).loadCalls
      = [] := by
  decide

/-! ## Handles created and peak demand on one source -/

theorem lookup_of_slotsOf (s : PoolState) (k : String) (l : List Tag)
    (h : slotsOf s k = l) (hne : l ≠ []) : lookup s._tags k = some l := by
  unfold slotsOf at h
  cases hl : lookup s._tags k with
  | none =>
    rw [hl] at h
    exact absurd h.symm hne
  | some ts =>
    rw [hl] at h
    simp only [Option.getD_some] at h
    rw [h]

theorem scan_ne_typeError (us : List Flag) :
    ∀ (ts : List Tag) (k : Nat), scan (some us) ts k ≠ .typeError := by
  intro ts
  induction ts with
  | nil => intro k h; simp [scan] at h
  | cons t rest ih =>
    intro k
    cases t with
    | none => simpa [scan] using ih (k + 1)
    | some t0 =>
      by_cases hb : arrayGet us k = some true
      · simpa [scan, hb] using ih (k + 1)
      · simp [scan, hb]

theorem dedup_length_le_of_lt (l : List Nat) (n : Nat)
    (hlt : ∀ h ∈ l, h < n) : l.dedup.length ≤ n := by
  have := (List.Nodup.subperm (List.nodup_dedup l)
    (fun h hh => List.mem_range.mpr (hlt h (List.mem_dedup.mp hh)))).length_le
  simpa using this

theorem dedup_length_ge_of_all_mem (l : List Nat) (n : Nat) (hall : ∀ i, i < n → i ∈ l) :
    n ≤ l.dedup.length := by
  have := (List.Nodup.subperm (List.nodup_range n)
    (fun i hi => List.mem_dedup.mpr (hall i (List.mem_range.mp hi)))).length_le
  simpa using this

/-- With an empty Free Pool, `get` on a source without slots whose key is not the name of an
inherited member creates an element and makes it slot 0. -/
theorem get_base_of_empty_pool (s : PoolState) (k : String)
    (hslots : slotsOf s k = []) (hplain : lookup objectPrototype k = none)
    (hpool : s._tagPool = []) :
    ∃ s1, HTMLAudioTagPool.get s k = .normal s1 s.elements.length ∧
      slotsOf s1 k = [some s.elements.length] ∧
      lookup s1._tagUsed k = some [some false] ∧
      s1._tagPool = [] ∧ s1.elements.length = s.elements.length + 1 := by
  have hget : TagPool.get s = .normal
      { s with elements := s.elements ++ [{ TagPool._createTag with inDocument := true }] }
      s.elements.length := by
    simp [TagPool.get, hpool]
  unfold slotsOf at hslots
  have hrun : HTMLAudioTagPool.get s k = .normal
      { s with
        _audioTagCount := s._audioTagCount + 1
        _tags := assign s._tags k [some s.elements.length]
        elements := updateElement
          (s.elements ++ [{ TagPool._createTag with inDocument := true }]) s.elements.length
          (fun e => { e with src := some k })
        _tagUsed := assign s._tagUsed k [some false] } s.elements.length := by
    have hlen : lengthOf s._tags k = some 0 := by
      rw [lengthOf_of_plain _ _ hplain, hslots]
      rfl
    unfold HTMLAudioTagPool.get
    simp only [hslots, scan, hlen, if_true, hget]
  refine ⟨_, hrun, ?_, ?_, ?_, ?_⟩
  · simp [slotsOf, lookup_assign_same]
  · exact lookup_assign_same _ _ _
  · exact hpool
  · simp [length_updateElement]

/-- With an empty Free Pool, `get` on a source whose slots are all busy creates an element and
appends it. -/
theorem get_overflow_of_empty_pool (s : PoolState) (k : String) (ts : List Tag) (us : List Flag)
    (hts : lookup s._tags k = some ts) (hne : ts ≠ []) (hus : lookup s._tagUsed k = some us)
    (hscan : scan (some us) ts 0 = .exhausted) (hpool : s._tagPool = []) :
    ∃ s1, HTMLAudioTagPool.get s k = .normal s1 s.elements.length ∧
      slotsOf s1 k = ts ++ [some s.elements.length] ∧
      lookup s1._tagUsed k = some (us ++ [some true]) ∧
      s1._tagPool = [] ∧ s1.elements.length = s.elements.length + 1 := by
  have hget : TagPool.get { s with console := s.console ++ [.creatingNewTag k] } = .normal
      { s with
        console := s.console ++ [.creatingNewTag k]
        elements := s.elements ++ [{ TagPool._createTag with inDocument := true }] }
      s.elements.length := by
    simp [TagPool.get, hpool]
  have hlen : ¬ ts.length = 0 := fun e => hne (List.length_eq_zero.mp e)
  have hrun : HTMLAudioTagPool.get s k = .normal
      { s with
        console := s.console ++ [.creatingNewTag k]
        _audioTagCount := s._audioTagCount + 1
        _tags := assign s._tags k (ts ++ [some s.elements.length])
        _tagUsed := assign s._tagUsed k (us ++ [some true])
        elements := updateElement
          (s.elements ++ [{ TagPool._createTag with inDocument := true }]) s.elements.length
          (fun e => { e with
            src := some k, errorListener := e.errorListener || s.isInternetExplorer }) }
      s.elements.length := by
    unfold HTMLAudioTagPool.get
    simp only [hts, flagCells_of_lookup s k us hus, lengthOf_of_lookup _ _ _ hts,
      Option.some.injEq, hus, Option.getD_some, hscan, hlen, if_false, hget]
  refine ⟨_, hrun, ?_, ?_, ?_, ?_⟩
  · simp [slotsOf, lookup_assign_same]
  · exact lookup_assign_same _ _ _
  · exact hpool
  · simp [length_updateElement]

/-- A scan that finds a slot makes `get` return its tag and set its flag. -/
theorem get_found (s : PoolState) (k : String) (ts : List Tag) (us : List Flag) (i : Nat)
    (h : Handle) (hts : lookup s._tags k = some ts) (hus : lookup s._tagUsed k = some us)
    (hscan : scan (some us) ts 0 = .found i h) :
    HTMLAudioTagPool.get s k
      = .normal { s with _tagUsed := assign s._tagUsed k (arraySet us i true) } h := by
  unfold HTMLAudioTagPool.get
  simp only [hts, flagCells_of_lookup s k us hus, hus, Option.getD_some, hscan]

theorem getElem?_range_map_some (n j : Nat) (t : Handle)
    (h : ((List.range n).map some)[j]? = some (some t)) : t = j ∧ j < n := by
  rw [List.getElem?_map] at h
  by_cases hj : j < n
  · rw [List.getElem?_range hj] at h
    simp at h
    exact ⟨h.symm, hj⟩
  · rw [List.getElem?_eq_none (by simpa using hj)] at h
    simp at h

theorem getElem?_range_map_some_self (n j : Nat) (hj : j < n) :
    ((List.range n).map some)[j]? = some (some j) := by
  rw [List.getElem?_map, List.getElem?_range hj]
  rfl

/-- A `get` keeps the invariant of a run; the number of elements grows by one exactly when no
slot is idle. -/
theorem usage_acquire (src : String) (u : Usage) (n : Nat)
    (hsrc : lookup objectPrototype src = none) (hinv : UsageInv src u n) :
    ∃ n1, UsageInv src (u.step src .acquire) n1 := by
  obtain ⟨hr, hel, hpk, hpool, hslots, ⟨us, hul, hudef, hflags⟩, hlt⟩ := hinv
  by_cases hn : n = 0
  · subst hn
    obtain ⟨s1, hget, hs1, hu1, hp1, he1⟩ :=
      get_base_of_empty_pool u.st src (by simpa using hslots) hsrc hpool
    have hacq : u.acquired = [] := by
      apply List.eq_nil_iff_forall_not_mem.mpr
      intro a ha
      exact absurd (hlt a ha) (Nat.not_lt_zero a)
    refine ⟨1, ?_⟩
    simp only [Usage.step, hget]
    refine ⟨hr, by rw [he1, hel], ?_, hp1, ?_, ⟨[some false], rfl, fun _ => hu1, ?_⟩, ?_⟩
    · simp [hpk, hacq]
    · rw [hs1, hel]; rfl
    · intro i hi
      cases i with
      | zero => simp [arrayGet] at hi
      | succ i => simp [arrayGet] at hi
    · intro h hh
      rw [hacq] at hh
      simp at hh
      rw [hh, hel]
      exact Nat.zero_lt_one
  · have hpos : 0 < n := Nat.pos_of_ne_zero hn
    have hne : (List.range n).map some ≠ [] := by
      intro e
      have := congrArg List.length e
      simp at this
      exact hn this
    have hts := lookup_of_slotsOf u.st src _ hslots hne
    have hus := hudef hpos
    cases hscan : scan (some us) ((List.range n).map some) 0 with
    | found i h =>
      obtain ⟨us0, hu0, _, hi, _⟩ := scan_found_spec _ _ _ _ _ hscan
      obtain ⟨hhi, hin⟩ := getElem?_range_map_some n i h (by simpa using hi)
      have hhn : h < n := by rw [hhi]; exact hin
      have hget := get_found u.st src _ us i h hts hus hscan
      refine ⟨n, ?_⟩
      simp only [Usage.step, hget]
      have hlt2 : ∀ x ∈ h :: u.acquired, x < n := by
        intro x hx
        rcases List.mem_cons.mp hx with h1 | h1
        · rw [h1]; exact hhn
        · exact hlt x h1
      refine ⟨hr, hel, ?_, hpool, hslots, ⟨arraySet us i true, ?_, fun _ => lookup_assign_same _ _ _,
        ?_⟩, hlt2⟩
      · have := dedup_length_le_of_lt _ n hlt2
        simp only [hpk]
        omega
      · have hiu : i < us.length := by rw [hul]; exact hin
        simp only [arraySet, hiu, if_true, List.length_set]
        exact hul
      · intro j hj
        by_cases hjh : j = i
        · rw [hjh, ← hhi]
          exact List.mem_cons_self _ _
        · rw [arrayGet_arraySet_other _ _ _ _ hjh] at hj
          exact List.mem_cons_of_mem _ (hflags j hj)
    | typeError => exact absurd hscan (scan_ne_typeError us _ 0)
    | exhausted =>
      have hall := scan_exhausted_spec us _ 0 hscan
      have hmem : ∀ i, i < n → i ∈ u.acquired := by
        intro i hi
        apply hflags
        have := hall i i (getElem?_range_map_some_self n i hi)
        simpa using this
      obtain ⟨s1, hget, hs1, hu1, hp1, he1⟩ :=
        get_overflow_of_empty_pool u.st src _ us hts hne hus hscan hpool
      rw [hel] at hget hs1 he1
      have hlt2 : ∀ x ∈ n :: u.acquired, x < n + 1 := by
        intro x hx
        rcases List.mem_cons.mp hx with h1 | h1
        · rw [h1]
          exact Nat.lt_succ_self n
        · exact Nat.lt_succ_of_lt (hlt x h1)
      have hmem2 : ∀ i, i < n + 1 → i ∈ n :: u.acquired := by
        intro i hi
        by_cases hin : i = n
        · rw [hin]
          exact List.mem_cons_self _ _
        · exact List.mem_cons_of_mem _ (hmem i (by omega))
      have hlen : (n :: u.acquired).dedup.length = n + 1 :=
        Nat.le_antisymm (dedup_length_le_of_lt _ _ hlt2) (dedup_length_ge_of_all_mem _ _ hmem2)
      refine ⟨n + 1, ?_⟩
      simp only [Usage.step, hget]
      refine ⟨hr, he1, ?_, hp1, ?_, ⟨us ++ [some true], by simp [hul], fun _ => hu1, ?_⟩, hlt2⟩
      · simp only [hpk, hlen]
        omega
      · rw [hs1, List.range_succ]
        simp
      · intro j hj
        rw [arrayGet_append_single] at hj
        by_cases h1 : j < us.length
        · simp only [h1, if_true] at hj
          exact List.mem_cons_of_mem _ (hflags j hj)
        · by_cases h2 : j = us.length
          · rw [h2, hul]
            exact List.mem_cons_self _ _
          · simp [h1, h2] at hj

/-- A `set` of an acquired tag keeps the invariant of a run. -/
theorem usage_release (src : String) (u : Usage) (n : Nat) (h : Handle)
    (hinv : UsageInv src u n) (hacq : h ∈ u.acquired) :
    UsageInv src (u.step src (.release h)) n := by
  obtain ⟨hr, hel, hpk, hpool, hslots, ⟨us, hul, hudef, hflags⟩, hlt⟩ := hinv
  have hhn : h < n := hlt h hacq
  have hpos : 0 < n := Nat.lt_of_le_of_lt (Nat.zero_le h) hhn
  have hne : (List.range n).map some ≠ [] := by
    intro e
    have := congrArg List.length e
    simp at this
    omega
  have hts := lookup_of_slotsOf u.st src _ hslots hne
  have hus := hudef hpos
  have hcell := getElem?_range_map_some_self n h hhn
  have hmem : ((List.range n).map some).contains (some h) = true := by
    have := List.getElem?_mem hcell
    simpa using this
  have hset : HTMLAudioTagPool.set u.st src (some h) = .normal { u.st with
      elements := updateElement u.st.elements h (fun e => { e with errorListener := false })
      _tagUsed := assign u.st._tagUsed src (markUnused h ((List.range n).map some) 0 us) } () := by
    unfold HTMLAudioTagPool.set
    simp only [hts, hmem, if_true, hus]
  simp only [Usage.step, hset]
  refine ⟨hr, by simp only [length_updateElement]; exact hel, hpk, hpool, hslots,
    ⟨markUnused h ((List.range n).map some) 0 us, ?_, fun _ => lookup_assign_same _ _ _, ?_⟩,
    ?_⟩
  · rw [length_markUnused h _ 0 us (by simp [hul])]
    exact hul
  · intro j hj
    rw [arrayGet_markUnused] at hj
    by_cases hc : ((List.range n).map some)[j]? = some (some h)
    · simp [hc] at hj
    · simp only [Nat.zero_le, Nat.sub_zero, true_and, hc, if_false] at hj
      have hjh : j ≠ h := by
        intro e
        rw [e] at hc
        exact hc hcell
      exact (List.mem_erase_of_ne hjh).mpr (hflags j hj)
  · intro x hx
    exact hlt x (List.mem_of_mem_erase hx)

/-- C15 (amended): for every sequence of `get` and `set` calls on one source key that is not the
name of a member that `s._tags` inherits from `Object.prototype`, started in the state after
loading the script, in which every `set` is given a tag that is acquired at that time (a `get`
has returned it and no `set` has answered that `get` yet), no call raises and the number of
audio elements created is the largest number of different tags that were acquired at the same
time.  A tag that two `get` have returned without a `set` in between, as the base tag is, is one
tag. -/
theorem C15_created_handles_equal_peak_demand (src : String) (ie : Bool)
    (calls : List PoolCall) (hsrc : lookup objectPrototype src = none)
    (hadm : Usage.admissible src (Usage.start ie) calls = true) :
    (Usage.run src (Usage.start ie) calls).raised = false ∧
    createdCount (Usage.run src (Usage.start ie) calls).st
      = (Usage.run src (Usage.start ie) calls).peak := by
  have hstart : UsageInv src (Usage.start ie) 0 := by
    refine ⟨rfl, rfl, rfl, rfl, rfl, ⟨[], rfl, fun h => by omega, ?_⟩, ?_⟩
    · intro i hi
      simp [arrayGet] at hi
    · intro h hh
      simp [Usage.start] at hh
  have hrun : ∀ (cs : List PoolCall) (u : Usage) (n : Nat), UsageInv src u n →
      Usage.admissible src u cs = true → ∃ n1, UsageInv src (Usage.run src u cs) n1 := by
    intro cs
    induction cs with
    | nil => intro u n hinv _; exact ⟨n, hinv⟩
    | cons c rest ih =>
      intro u n hinv hadm
      cases c with
      | acquire =>
        obtain ⟨n1, h1⟩ := usage_acquire src u n hsrc hinv
        exact ih _ n1 h1 hadm
      | release h =>
        simp only [Usage.admissible, Bool.and_eq_true, decide_eq_true_eq] at hadm
        exact ih _ n (usage_release src u n h hinv hadm.1) hadm.2
  obtain ⟨n1, h1⟩ := hrun calls _ 0 hstart hadm
  exact ⟨h1.1, by rw [createdCount, h1.2.1, h1.2.2.1]⟩

/-- C15 (witness): `get`, `get`, `get`, `set` of tag 1, `get`, `set` of tag 0, `get` on `"a"`: two
elements are created and at most two tags are acquired at a time. -/
theorem C15_created_handles_equal_peak_demand_witness :
    (Usage.run "a" (Usage.start false)
      [.acquire, .acquire, .acquire, .release 1, .acquire, .release 0, .acquire]).raised = false ∧
    createdCount (Usage.run "a" (Usage.start false)
      [.acquire, .acquire, .acquire, .release 1, .acquire, .release 0, .acquire]).st
      = (Usage.run "a" (Usage.start false)
        [.acquire, .acquire, .acquire, .release 1, .acquire, .release 0, .acquire]).peak :=
  C15_created_handles_equal_peak_demand "a" false
    [.acquire, .acquire, .acquire, .release 1, .acquire, .release 0, .acquire] (by decide)
    (by decide)

/-- C15 (counterexample): two consecutive `get("a")` return the same tag, so two acquisitions
are outstanding at the same time while one element has been created.  And `get("constructor")`
creates an element and raises, so an element has been created while nothing is acquired. -/
theorem C15_counterexample_two_outstanding_one_created :
    Usage.admissible "a" (Usage.start false) [.acquire, .acquire] = true ∧
    (Usage.run "a" (Usage.start false) [.acquire, .acquire]).raised = false ∧
    (Usage.run "a" (Usage.start false) [.acquire, .acquire]).acquired = [0, 0] ∧
    createdCount (Usage.run "a" (Usage.start false) [.acquire, .acquire]).st = 1 ∧
    Usage.outstandingPeak "a" (Usage.start false) [.acquire, .acquire] = 2 ∧
    (Usage.run "constructor" (Usage.start false) [.acquire]).raised = true ∧
    createdCount (Usage.run "constructor" (Usage.start false) [.acquire]).st = 1 ∧
    Usage.outstandingPeak "constructor" (Usage.start false) [.acquire] = 0 := by
  decide

/-! ## A tag belongs to one source -/

theorem slotsOf_assign (s s1 : PoolState) (k k1 : String) (v : List Tag)
    (h : s1._tags = assign s._tags k v) :
    slotsOf s1 k1 = if k1 = k then v else slotsOf s k1 := by
  unfold slotsOf
  rw [h]
  by_cases hk : k1 = k
  · subst hk
    simp [lookup_assign_same]
  · simp [hk, lookup_assign_other _ _ _ _ hk]

theorem slotsOf_of_tags_eq (s s1 : PoolState) (k : String) (h : s1._tags = s._tags) :
    slotsOf s1 k = slotsOf s k := by
  unfold slotsOf
  rw [h]

/-- The three ways `TagPool.get` can go. -/
theorem TagPool_get_cases (s : PoolState) :
    (s._tagPool = [] ∧ TagPool.get s = .normal
      { s with elements := s.elements ++ [{ TagPool._createTag with inDocument := true }] }
      s.elements.length) ∨
    (∃ rest t, s._tagPool = rest ++ [some t] ∧ TagPool.get s = .normal
      { s with
        _tagPool := rest
        elements := updateElement s.elements t (fun e => { e with inDocument := true }) } t) ∨
    (∃ rest, s._tagPool = rest ++ [none] ∧ TagPool.get s = .thrown { s with _tagPool := rest }) := by
  rcases List.eq_nil_or_concat s._tagPool with h0 | ⟨rest, x, hx⟩
  · left
    exact ⟨h0, by simp [TagPool.get, h0]⟩
  · rw [List.concat_eq_append] at hx
    right
    have hlen : ¬ (rest ++ [x]).length = 0 := by simp
    cases x with
    | none =>
      right
      refine ⟨rest, hx, ?_⟩
      unfold TagPool.get
      simp only [hx, hlen, if_false, List.getLast?_append, List.getLast?_singleton,
        List.dropLast_concat]
      rfl
    | some t =>
      left
      refine ⟨rest, t, hx, ?_⟩
      unfold TagPool.get
      simp only [hx, hlen, if_false, List.getLast?_append, List.getLast?_singleton,
        List.dropLast_concat]
      rfl

/-- A state whose slots and Free Pool hold no more than those of a separated state is
separated. -/
theorem separated_mono (s s1 : PoolState) (hs : Separated s)
    (hpool : ∀ x ∈ s1._tagPool, x ∈ s._tagPool) (hnd : s1._tagPool.Nodup)
    (hlen : s.elements.length ≤ s1.elements.length)
    (hslots : ∀ k h, some h ∈ slotsOf s1 k → some h ∈ slotsOf s k) : Separated s1 := by
  obtain ⟨i1, i2, i3, i4, _⟩ := hs
  refine ⟨?_, ?_, ?_, ?_, hnd⟩
  · intro k1 k2 h h1 h2
    exact i1 k1 k2 h (hslots k1 h h1) (hslots k2 h h2)
  · intro h k hp hk
    exact i2 h k (hpool _ hp) (hslots k h hk)
  · intro h hp
    exact Nat.lt_of_lt_of_le (i3 h (hpool _ hp)) hlen
  · intro h k hk
    exact Nat.lt_of_lt_of_le (i4 h k (hslots k h hk)) hlen

/-- Binding to the source `k` a tag `t` that is in no slot and not in the Free Pool keeps the
state separated. -/
theorem separated_bind (s s1 : PoolState) (k : String) (t : Handle) (hs : Separated s)
    (hfresh : ∀ k1, some t ∉ slotsOf s k1) (htpool : some t ∉ s1._tagPool)
    (hpool : ∀ x ∈ s1._tagPool, x ∈ s._tagPool) (hnd : s1._tagPool.Nodup)
    (hlen : s.elements.length ≤ s1.elements.length) (ht : t < s1.elements.length)
    (hslots : ∀ k1, slotsOf s1 k1 = if k1 = k then slotsOf s k ++ [some t] else slotsOf s k1) :
    Separated s1 := by
  obtain ⟨i1, i2, i3, i4, _⟩ := hs
  have old : ∀ k1 h, some h ∈ slotsOf s1 k1 → (h = t ∧ k1 = k) ∨ some h ∈ slotsOf s k1 := by
    intro k1 h hm
    rw [hslots k1] at hm
    by_cases hk : k1 = k
    · simp only [hk, if_true, List.mem_append, List.mem_singleton] at hm
      rcases hm with h1 | h1
      · right; rw [hk]; exact h1
      · left
        injection h1 with e
        exact ⟨e, hk⟩
    · simp only [hk, if_false] at hm
      right; exact hm
  refine ⟨?_, ?_, ?_, ?_, hnd⟩
  · intro k1 k2 h h1 h2
    rcases old k1 h h1 with ⟨e1, e2⟩ | o1
    · rcases old k2 h h2 with ⟨_, e4⟩ | o2
      · rw [e2, e4]
      · rw [e1] at o2
        exact absurd o2 (hfresh k2)
    · rcases old k2 h h2 with ⟨e3, _⟩ | o2
      · rw [e3] at o1
        exact absurd o1 (hfresh k1)
      · exact i1 k1 k2 h o1 o2
  · intro h k1 hp hk
    rcases old k1 h hk with ⟨e1, _⟩ | o1
    · rw [e1] at hp
      exact htpool hp
    · exact i2 h k1 (hpool _ hp) o1
  · intro h hp
    exact Nat.lt_of_lt_of_le (i3 h (hpool _ hp)) hlen
  · intro h k1 hk
    rcases old k1 h hk with ⟨e1, _⟩ | o1
    · rw [e1]; exact ht
    · exact Nat.lt_of_lt_of_le (i4 h k1 o1) hlen

/-- What `TagPool.get` hands out in a separated state is in no slot and no longer in the Free
Pool. -/
theorem TagPool_get_separated (s : PoolState) (hs : Separated s) :
    (∀ p t, TagPool.get s = .normal p t →
      (∀ k1, some t ∉ slotsOf s k1) ∧ some t ∉ p._tagPool ∧
      (∀ x ∈ p._tagPool, x ∈ s._tagPool) ∧ p._tagPool.Nodup ∧
      s.elements.length ≤ p.elements.length ∧ t < p.elements.length ∧
      p._tags = s._tags ∧ p._tagUsed = s._tagUsed) ∧
    (∀ p, TagPool.get s = .thrown p →
      (∀ x ∈ p._tagPool, x ∈ s._tagPool) ∧ p._tagPool.Nodup ∧
      s.elements.length ≤ p.elements.length ∧ p._tags = s._tags ∧ p._tagUsed = s._tagUsed) := by
  obtain ⟨i1, i2, i3, i4, i5⟩ := hs
  rcases TagPool_get_cases s with ⟨hp, hget⟩ | ⟨rest, t, hp, hget⟩ | ⟨rest, hp, hget⟩
  · rw [hget]
    refine ⟨?_, (fun p h => by cases h)⟩
    intro p t h
    injection h with e1 e2
    subst e1; subst e2
    refine ⟨?_, by simp [hp], fun x hx => hx, i5, by simp, by simp, rfl, rfl⟩
    intro k1 hm
    exact absurd (i4 _ k1 hm) (Nat.lt_irrefl _)
  · rw [hget]
    refine ⟨?_, (fun p h => by cases h)⟩
    intro p t1 h
    injection h with e1 e2
    subst e1; subst e2
    rw [hp] at i5
    have hmem : some t ∈ s._tagPool := by rw [hp]; simp
    have hnd := List.nodup_append.mp i5
    refine ⟨fun k1 => i2 t k1 hmem, ?_, ?_, hnd.1, ?_, ?_, rfl, rfl⟩
    · intro hm
      exact hnd.2.2 hm (List.mem_singleton.mpr rfl)
    · intro x hx
      rw [hp]
      exact List.mem_append_left _ hx
    · simp [length_updateElement]
    · simp only [length_updateElement]
      exact i3 t hmem
  · rw [hget]
    refine ⟨(fun p t h => by cases h), ?_⟩
    intro p h
    injection h with e1
    subst e1
    rw [hp] at i5
    refine ⟨?_, (List.nodup_append.mp i5).1, Nat.le_refl _, rfl, rfl⟩
    intro x hx
    rw [hp]
    exact List.mem_append_left _ hx

theorem slotsOf_nil_of_lengthOf (s : PoolState) (k : String)
    (h : lengthOf s._tags k = some 0) : slotsOf s k = [] := by
  unfold slotsOf
  cases hts : lookup s._tags k with
  | none => rfl
  | some ts =>
    rw [lengthOf_of_lookup _ _ _ hts] at h
    injection h with e
    exact List.length_eq_zero.mp e

/-- `get` keeps an aligned state separated. -/
theorem separated_get (s : PoolState) (k : String) (hs : Separated s) (ha : Aligned s) :
    Separated (HTMLAudioTagPool.get s k).state := by
  unfold HTMLAudioTagPool.get
  cases hscan : scan (flagCells s k) ((lookup s._tags k).getD []) 0 with
  | found i h1 =>
    simp only [hscan]
    cases hown : lookup s._tagUsed k with
    | none => exact hs
    | some us =>
      simp only [Completion.state]
      exact separated_mono s _ hs (fun x hx => hx) hs.2.2.2.2 (Nat.le_refl _) (fun k h hm => hm)
  | typeError =>
    simp only [hscan, Completion.state]
    exact hs
  | exhausted =>
    simp only [hscan]
    by_cases hlen : lengthOf s._tags k = some 0
    · simp only [hlen, if_true]
      have hnil : slotsOf s k = [] := slotsOf_nil_of_lengthOf s k hlen
      obtain ⟨g1, g2⟩ := TagPool_get_separated s hs
      cases hp : TagPool.get s with
      | thrown p =>
        obtain ⟨q1, q2, q3, q4, _⟩ := g2 p hp
        simp only [Completion.state]
        exact separated_mono s p hs q1 q2 q3
          (fun k1 h hm => by rw [slotsOf_of_tags_eq s p k1 q4] at hm; exact hm)
      | normal p t =>
        obtain ⟨q1, q2, q3, q4, q5, q6, q7, _⟩ := g1 p t hp
        simp only [Completion.state]
        refine separated_bind s _ k t hs q1 ?_ ?_ ?_ ?_ ?_ ?_
        · exact q2
        · exact q3
        · exact q4
        · simp only [length_updateElement]; exact q5
        · simp only [length_updateElement]; exact q6
        · intro k1
          rw [slotsOf_assign s _ k k1 [some t] (by rw [q7]), hnil]
          rfl
    · simp only [hlen, if_false]
      have hs0 : Separated { s with console := s.console ++ [.creatingNewTag k] } :=
        separated_mono s _ hs (fun x hx => hx) hs.2.2.2.2 (Nat.le_refl _) (fun k h hm => hm)
      obtain ⟨g1, g2⟩ := TagPool_get_separated _ hs0
      cases hp : TagPool.get { s with console := s.console ++ [.creatingNewTag k] } with
      | thrown p =>
        obtain ⟨q1, q2, q3, q4, _⟩ := g2 p hp
        simp only [Completion.state]
        exact separated_mono s p hs q1 q2 q3
          (fun k1 h hm => by rw [slotsOf_of_tags_eq s p k1 q4] at hm; exact hm)
      | normal p t =>
        obtain ⟨q1, q2, q3, q4, q5, q6, q7, q8⟩ := g1 p t hp
        cases hts : lookup s._tags k with
        | none =>
          simp only [Completion.state]
          exact separated_mono s _ hs q3 q4 q5
            (fun k1 h hm => by
              rw [slotsOf_of_tags_eq s _ k1 (by exact q7)] at hm
              exact hm)
        | some ts =>
          obtain ⟨us, hus, _⟩ := ha k ts hts
          have hus1 : lookup p._tagUsed k = some us := by rw [q8]; exact hus
          simp only [hus1, Completion.state, Option.getD_some]
          refine separated_bind s _ k t hs q1 ?_ ?_ ?_ ?_ ?_ ?_
          · exact q2
          · exact q3
          · exact q4
          · simp only [length_updateElement]; exact q5
          · simp only [length_updateElement]; exact q6
          · intro k1
            rw [slotsOf_assign s _ k k1 (ts ++ [some t]) (by rw [q7])]
            simp only [slotsOf, hts, Option.getD_some]

/-- Handing to the Free Pool an element that exists and is in no slot keeps the state
separated. -/
theorem separated_TagPool_set (s : PoolState) (h : Handle) (hs : Separated s)
    (hlt : h < s.elements.length) (hnone : ∀ k1, some h ∉ slotsOf s k1) :
    Separated (TagPool.set s (some h)) := by
  obtain ⟨i1, i2, i3, i4, i5⟩ := hs
  unfold TagPool.set
  by_cases hidx : indexOf s._tagPool (some h) 0 = -1
  · have hnot : some h ∉ s._tagPool := (indexOf_eq_neg_one_iff _ _ 0).mp hidx
    simp only [hidx, if_true]
    refine ⟨i1, ?_, ?_, i4, ?_⟩
    · intro h1 k1 hp hk
      rcases List.mem_append.mp hp with e | e
      · exact i2 h1 k1 e hk
      · simp only [List.mem_singleton] at e
        injection e with e1
        rw [e1] at hk
        exact hnone k1 hk
    · intro h1 hp
      rcases List.mem_append.mp hp with e | e
      · exact i3 h1 e
      · simp only [List.mem_singleton] at e
        injection e with e1
        rw [e1]; exact hlt
    · exact List.nodup_append.mpr ⟨i5, List.nodup_singleton _,
        fun a ha hb => hnot (by rw [List.mem_singleton.mp hb] at ha; exact ha)⟩
  · simp only [hidx, if_false]
    exact ⟨i1, i2, i3, i4, i5⟩

/-- `set` of an element that is in a slot of the source named, or in no slot, keeps the state
separated. -/
theorem separated_set (s : PoolState) (k : String) (h : Handle) (hs : Separated s)
    (hown : Owned s (.release k h)) : Separated (HTMLAudioTagPool.set s k (some h)).state := by
  obtain ⟨hlt, hwhere⟩ := hown
  have hs0 : Separated { s with
      elements := updateElement s.elements h (fun e => { e with errorListener := false })
      _audioTagCount := s._audioTagCount - 1 } :=
    separated_mono s _ hs (fun x hx => hx) hs.2.2.2.2
      (by simp [length_updateElement]) (fun k h hm => hm)
  have hlt0 : h < ({ s with
      elements := updateElement s.elements h (fun e => { e with errorListener := false })
      _audioTagCount := s._audioTagCount - 1 } : PoolState).elements.length := by
    simp only [length_updateElement]
    exact hlt
  unfold HTMLAudioTagPool.set
  cases hts : lookup s._tags k with
  | none =>
    cases hproto : lookup objectPrototype k with
    | none => exact hs
    | some l =>
      simp only [Completion.state]
      have hnone : ∀ k1, some h ∉ slotsOf s k1 := by
        rcases hwhere with h1 | h1
        · simp [slotsOf, hts] at h1
        · exact h1
      exact separated_TagPool_set _ h hs0 hlt0 hnone
  | some ts =>
    simp only
    by_cases hc : ts.contains (some h) = true
    · simp only [hc, if_true]
      cases hus : lookup s._tagUsed k with
      | none =>
        cases hproto : lookup objectPrototype k with
        | none =>
          simp only [Completion.state]
          exact separated_mono s _ hs (fun x hx => hx) hs.2.2.2.2
            (by simp [length_updateElement]) (fun k h hm => hm)
        | some l =>
          simp only [Completion.state]
          exact separated_mono s _ hs (fun x hx => hx) hs.2.2.2.2
            (by simp [length_updateElement]) (fun k h hm => hm)
      | some us =>
        simp only [Completion.state]
        exact separated_mono s _ hs (fun x hx => hx) hs.2.2.2.2
          (by simp [length_updateElement]) (fun k h hm => hm)
    · simp only [hc, Bool.false_eq_true, if_false, Completion.state]
      have hnone : ∀ k1, some h ∉ slotsOf s k1 := by
        rcases hwhere with h1 | h1
        · simp only [slotsOf, hts, Option.getD_some] at h1
          exact absurd (by simpa using h1) hc
        · exact h1
      exact separated_TagPool_set _ h hs0 hlt0 hnone

theorem TagPool_set_nodup (s : PoolState) (tag : Tag) (h : s._tagPool.Nodup) :
    (TagPool.set s tag)._tagPool.Nodup := by
  unfold TagPool.set
  by_cases hidx : indexOf s._tagPool tag 0 = -1
  · have hnot : tag ∉ s._tagPool := (indexOf_eq_neg_one_iff _ _ 0).mp hidx
    simp only [hidx, if_true]
    exact List.nodup_append.mpr ⟨h, List.nodup_singleton _,
      fun a ha hb => hnot (by rw [List.mem_singleton.mp hb] at ha; exact ha)⟩
  · simp only [hidx, if_false]
    exact h

theorem TagPool_set_elements (s : PoolState) (tag : Tag) :
    (TagPool.set s tag).elements = s.elements := by
  unfold TagPool.set
  split <;> rfl

theorem mem_of_arrayGet {α : Type} (l : List (Option α)) (j : Nat) (x : α)
    (h : arrayGet l j = some x) : some x ∈ l := by
  unfold arrayGet at h
  cases hx : l[j]? with
  | none => simp [hx] at h
  | some y =>
    rw [hx] at h
    have hy : y = some x := by simpa [Option.join] using h
    rw [hy] at hx
    exact List.getElem?_mem hx

/-- What the loop of `remove` does to the Free Pool: it adds only contents of cells not yet
visited, and nothing twice. -/
theorem removeLoop_pool (src : String) :
    ∀ (n i : Nat) (s : PoolState),
      (s._tagPool.Nodup → (removeLoop src n i s).state._tagPool.Nodup) ∧
      (∀ x ∈ (removeLoop src n i s).state._tagPool,
        x ∈ s._tagPool ∨ ∃ j, i ≤ j ∧ x = arrayGet (slotsOf s src) j) ∧
      (removeLoop src n i s).state.elements = s.elements := by
  intro n
  induction n with
  | zero =>
    intro i s
    exact ⟨fun h => h, fun x hx => Or.inl hx, rfl⟩
  | succ n ih =>
    intro i s
    have hset := mem_TagPool_set s (arrayGet ((lookup s._tags src).getD []) i)
    have hnd := TagPool_set_nodup s (arrayGet ((lookup s._tags src).getD []) i)
    have hel := TagPool_set_elements s (arrayGet ((lookup s._tags src).getD []) i)
    unfold removeLoop
    simp only
    cases hus : lookup (TagPool.set s (arrayGet ((lookup s._tags src).getD []) i))._tagUsed src with
    | none =>
      cases hproto : lookup objectPrototype src with
      | none =>
        simp only [Completion.state]
        refine ⟨hnd, ?_, hel⟩
        intro x hx
        rcases (hset x).mp hx with h1 | h1
        · exact Or.inl h1
        · exact Or.inr ⟨i, Nat.le_refl _, h1⟩
      | some l =>
        simp only
        obtain ⟨g1, g2, g3⟩ := ih (i + 1)
          { TagPool.set s (arrayGet ((lookup s._tags src).getD []) i) with
            _tags := assign (TagPool.set s (arrayGet ((lookup s._tags src).getD []) i))._tags src
              (arrayDelete ((lookup s._tags src).getD []) i) }
        refine ⟨fun h => g1 (hnd h), ?_, by rw [g3]; exact hel⟩
        intro x hx
        rcases g2 x hx with h1 | ⟨j, hj, hxj⟩
        · rcases (hset x).mp h1 with h2 | h2
          · exact Or.inl h2
          · exact Or.inr ⟨i, Nat.le_refl _, h2⟩
        · right
          refine ⟨j, by omega, ?_⟩
          rw [hxj]
          simp only [slotsOf, lookup_assign_same, Option.getD_some]
          rw [arrayGet_arrayDelete]
          have : ¬ j = i := by omega
          simp only [this, if_false]
    | some us =>
      simp only
      obtain ⟨g1, g2, g3⟩ := ih (i + 1)
        { TagPool.set s (arrayGet ((lookup s._tags src).getD []) i) with
          _tags := assign (TagPool.set s (arrayGet ((lookup s._tags src).getD []) i))._tags src
            (arrayDelete ((lookup s._tags src).getD []) i)
          _tagUsed := assign (TagPool.set s (arrayGet ((lookup s._tags src).getD []) i))._tagUsed
            src (arrayDelete us i) }
      refine ⟨fun h => g1 (hnd h), ?_, by rw [g3]; exact hel⟩
      intro x hx
      rcases g2 x hx with h1 | ⟨j, hj, hxj⟩
      · rcases (hset x).mp h1 with h2 | h2
        · exact Or.inl h2
        · exact Or.inr ⟨i, Nat.le_refl _, h2⟩
      · right
        refine ⟨j, by omega, ?_⟩
        rw [hxj]
        simp only [slotsOf, lookup_assign_same, Option.getD_some]
        rw [arrayGet_arrayDelete]
        have : ¬ j = i := by omega
        simp only [this, if_false]

/-- `remove` keeps an aligned state separated. -/
theorem separated_remove (s : PoolState) (k : String) (hs : Separated s) (ha : Aligned s) :
    Separated (HTMLAudioTagPool.remove s k).state := by
  unfold HTMLAudioTagPool.remove
  cases hts : lookup s._tags k with
  | none =>
    cases hproto : lookup objectPrototype k with
    | none => exact hs
    | some l =>
      simp only [Completion.state]
      obtain ⟨g1, _, g3, g4, g5⟩ := removeLoopInherited_spec k (l.getD 0) 0 s
      obtain ⟨i1, i2, i3, i4, i5⟩ := hs
      have hsl : ∀ k1, slotsOf (removeLoopInherited k (l.getD 0) 0 s) k1 = slotsOf s k1 :=
        fun k1 => slotsOf_of_tags_eq s _ k1 g1
      have hpl : ∀ h, some h ∈ (removeLoopInherited k (l.getD 0) 0 s)._tagPool →
          some h ∈ s._tagPool := by
        intro h hp
        rcases (g4 (some h)).mp hp with h1 | h1
        · exact h1
        · cases h1.1
      refine ⟨?_, ?_, ?_, ?_, g5 i5⟩
      · intro k1 k2 h h1 h2
        rw [hsl] at h1 h2
        exact i1 k1 k2 h h1 h2
      · intro h k1 hp hk
        rw [hsl] at hk
        exact i2 h k1 (hpl h hp) hk
      · intro h hp
        rw [g3]
        exact i3 h (hpl h hp)
      · intro h k1 hk
        rw [hsl] at hk
        rw [g3]
        exact i4 h k1 hk
  | some ts =>
    obtain ⟨us, hus, _⟩ := ha k ts hts
    obtain ⟨s1, ts1, us1, hrun, hts1, _, hcells, _, _, _, hother, _, _, _⟩ :=
      removeLoop_spec k ts.length 0 s ts us hts hus
    obtain ⟨p1, p2, p3⟩ := removeLoop_pool k ts.length 0 s
    rw [hrun] at p1 p2 p3
    simp only [Completion.state] at p1 p2 p3
    simp only [hrun, Completion.state]
    obtain ⟨i1, i2, i3, i4, i5⟩ := hs
    have hk_empty : ∀ h, some h ∉ slotsOf s1 k := by
      intro h hm
      simp only [slotsOf, hts1, Option.getD_some] at hm
      obtain ⟨j, hj⟩ := List.mem_iff_getElem?.mp hm
      have h1 : arrayGet ts1 j = some h := by simp [arrayGet, hj]
      have h2 : arrayGet ts1 j = none := by
        rw [hcells]
        split
        · rfl
        · exact arrayGet_of_length_le ts j (by omega)
      rw [h2] at h1
      cases h1
    have hk_other : ∀ k1, k1 ≠ k → slotsOf s1 k1 = slotsOf s k1 := by
      intro k1 hk1
      simp only [slotsOf, (hother k1 hk1).1]
    have hsub : ∀ k1 h, some h ∈ slotsOf s1 k1 → k1 ≠ k ∧ some h ∈ slotsOf s k1 := by
      intro k1 h hm
      by_cases hk1 : k1 = k
      · rw [hk1] at hm
        exact absurd hm (hk_empty h)
      · rw [hk_other k1 hk1] at hm
        exact ⟨hk1, hm⟩
    have hts2 : slotsOf s k = ts := by simp only [slotsOf, hts, Option.getD_some]
    refine ⟨?_, ?_, ?_, ?_, p1 i5⟩
    · intro k1 k2 h h1 h2
      exact i1 k1 k2 h (hsub k1 h h1).2 (hsub k2 h h2).2
    · intro h k1 hp hk
      obtain ⟨hne, hold⟩ := hsub k1 h hk
      rcases p2 _ hp with h1 | ⟨j, _, hj⟩
      · exact i2 h k1 h1 hold
      · rw [hts2] at hj
        have hm : some h ∈ slotsOf s k := by
          rw [hts2]
          exact mem_of_arrayGet ts j h hj.symm
        exact hne (i1 k1 k h hold hm)
    · intro h hp
      rw [p3]
      rcases p2 _ hp with h1 | ⟨j, _, hj⟩
      · exact i3 h h1
      · rw [hts2] at hj
        exact i4 h k (by rw [hts2]; exact mem_of_arrayGet ts j h hj.symm)
    · intro h k1 hk
      rw [p3]
      exact i4 h k1 (hsub k1 h hk).2

/-- The inner loop of `_handleMaximumInstances` leaves the Free Pool alone, creates nothing and
adds no tag to any slot array. -/
theorem sweepSource_shrinks (e : ErrorEvent) (k : String) :
    ∀ (i : Nat) (s : PoolState) (rc : Nat),
      (sweepSource e k i s rc).state._tagPool = s._tagPool ∧
      (sweepSource e k i s rc).state.elements.length = s.elements.length ∧
      ∀ k1 h, some h ∈ slotsOf (sweepSource e k i s rc).state k1 → some h ∈ slotsOf s k1 := by
  intro i
  induction i with
  | zero => intro s rc; exact ⟨rfl, rfl, fun _ _ hm => hm⟩
  | succ i ih =>
    intro s rc
    unfold sweepSource
    by_cases hrc : rc ≥ 4
    · simp only [hrc, if_true]
      exact ⟨rfl, rfl, fun _ _ hm => hm⟩
    · simp only [hrc, if_false]
      cases hus : flagCells s k with
      | none => exact ⟨rfl, rfl, fun _ _ hm => hm⟩
      | some used =>
        simp only
        by_cases hb : arrayGet used (i + 1) = some true
        · simp only [hb, if_true]
          exact ih s rc
        · simp only [hb, if_false]
          cases hcell : arrayGet ((lookup s._tags k).getD []) (i + 1) with
          | none =>
            have hset : HTMLAudioTagPool.set s k none = .thrown s := by
              unfold HTMLAudioTagPool.set
              cases hts : lookup s._tags k with
              | none => cases hproto : lookup objectPrototype k <;> rfl
              | some ts => rfl
            simp only [hset]
            exact ⟨rfl, rfl, fun _ _ hm => hm⟩
          | some h =>
            have hmem := mem_of_arrayGet _ _ _ hcell
            cases hts : lookup s._tags k with
            | none => simp [hts] at hmem
            | some ts =>
              simp only [hts, Option.getD_some] at hmem
              have hc : ts.contains (some h) = true := by simpa using hmem
              have hshrink : ∀ (s2 : PoolState), s2._tags = assign s._tags k (ts.eraseIdx (i + 1)) →
                  ∀ k1 h1, some h1 ∈ slotsOf s2 k1 → some h1 ∈ slotsOf s k1 := by
                intro s2 h2 k1 h1 hm
                rw [slotsOf_assign s s2 k k1 (ts.eraseIdx (i + 1)) h2] at hm
                by_cases hk1 : k1 = k
                · simp only [hk1, if_true] at hm
                  rw [hk1]
                  simp only [slotsOf, hts, Option.getD_some]
                  exact List.mem_of_mem_eraseIdx hm
                · simp only [hk1, if_false] at hm
                  exact hm
              cases hown : lookup s._tagUsed k with
              | none =>
                cases hproto : lookup objectPrototype k with
                | none => simp [flagCells, hown, hproto] at hus
                | some l =>
                  have hset : HTMLAudioTagPool.set s k (some h) = .normal { s with
                      elements :=
                        updateElement s.elements h (fun e => { e with errorListener := false }) }
                      () := by
                    unfold HTMLAudioTagPool.set
                    simp only [hts, hc, if_true, hown, hproto]
                  simp only [hset, hown]
                  exact ⟨rfl, length_updateElement _ _ _, hshrink _ rfl⟩
              | some used0 =>
                have hset : HTMLAudioTagPool.set s k (some h) = .normal { s with
                    elements :=
                      updateElement s.elements h (fun e => { e with errorListener := false })
                    _tagUsed := assign s._tagUsed k (markUnused h ts 0 used0) } () := by
                  unfold HTMLAudioTagPool.set
                  simp only [hts, hc, if_true, hown]
                simp only [hset, lookup_assign_same, Option.getD_some]
                obtain ⟨g1, g2, g3⟩ := ih
                  { s with
                    elements :=
                      updateElement s.elements h (fun e => { e with errorListener := false })
                    _tags := assign s._tags k (ts.eraseIdx (i + 1))
                    _tagUsed := assign (assign s._tagUsed k (markUnused h ts 0 used0)) k
                      ((markUnused h ts 0 used0).eraseIdx (i + 1)) }
                  (rc + 1)
                refine ⟨g1, by rw [g2]; exact length_updateElement _ _ _, ?_⟩
                intro k1 h1 hm
                exact hshrink _ rfl k1 h1 (g3 k1 h1 hm)

/-- The outer loop of `_handleMaximumInstances` leaves the Free Pool alone, creates nothing and
adds no tag to any slot array. -/
theorem sweepSources_shrinks (e : ErrorEvent) :
    ∀ (ks : List String) (s : PoolState) (rc : Nat),
      (sweepSources e ks s rc).state._tagPool = s._tagPool ∧
      (sweepSources e ks s rc).state.elements.length = s.elements.length ∧
      ∀ k1 h, some h ∈ slotsOf (sweepSources e ks s rc).state k1 → some h ∈ slotsOf s k1 := by
  intro ks
  induction ks with
  | nil => intro s rc; exact ⟨rfl, rfl, fun _ _ hm => hm⟩
  | cons k rest ih =>
    intro s rc
    unfold sweepSources
    by_cases hlen : ((lookup s._tags k).getD []).length > 1
    · simp only [hlen, if_true]
      obtain ⟨g1, g2, g3⟩ := sweepSource_shrinks e k (((lookup s._tags k).getD []).length - 1) s rc
      cases hr : sweepSource e k (((lookup s._tags k).getD []).length - 1) s rc with
      | done s1 rc1 =>
        rw [hr] at g1 g2 g3
        simp only [Sweep.state] at g1 g2 g3
        obtain ⟨q1, q2, q3⟩ := ih s1 rc1
        exact ⟨by rw [q1, g1], by rw [q2, g2], fun k1 h hm => g3 k1 h (q3 k1 h hm)⟩
      | returned s1 =>
        rw [hr] at g1 g2 g3
        exact ⟨g1, g2, g3⟩
      | raised s1 =>
        rw [hr] at g1 g2 g3
        exact ⟨g1, g2, g3⟩
    · simp only [hlen, if_false]
      exact ih s rc

/-- `_handleMaximumInstances` keeps a state separated. -/
theorem separated_handleMaximumInstances (s : PoolState) (e : ErrorEvent) (hs : Separated s) :
    Separated (HTMLAudioTagPool._handleMaximumInstances s e).state := by
  unfold HTMLAudioTagPool._handleMaximumInstances
  by_cases hc : e.code = 4
  · simp only [hc, if_true]
    obtain ⟨g1, g2, g3⟩ := sweepSources_shrinks e (keys s._tags) s 0
    have hsep : Separated (sweepSources e (keys s._tags) s 0).state :=
      separated_mono s _ hs (fun x hx => by rw [g1] at hx; exact hx) (by rw [g1]; exact hs.2.2.2.2)
        (by rw [g2]) g3
    cases hr : sweepSources e (keys s._tags) s 0 with
    | done s1 rc1 =>
      rw [hr] at hsep
      simp only [Sweep.state] at hsep
      by_cases h0 : rc1 = 0
      · simp only [h0, if_true, Completion.state]
        exact separated_mono s1 _ hsep (fun x hx => hx) hsep.2.2.2.2 (Nat.le_refl _)
          (fun _ _ hm => hm)
      · simp only [h0, if_false, Completion.state]
        exact separated_mono s1 _ hsep (fun x hx => hx) hsep.2.2.2.2 (Nat.le_refl _)
          (fun _ _ hm => hm)
    | returned s1 =>
      rw [hr] at hsep
      exact hsep
    | raised s1 =>
      rw [hr] at hsep
      exact hsep
  · simp only [hc, if_false]
    exact hs

theorem separated_empty (ie : Bool) : Separated (empty ie) := by
  refine ⟨?_, ?_, ?_, ?_, List.nodup_nil⟩
  · intro k1 k2 h h1
    simp [slotsOf, empty, lookup] at h1
  · intro h k hp
    simp [empty] at hp
  · intro h hp
    simp [empty] at hp
  · intro h k h1
    simp [slotsOf, empty, lookup] at h1

/-- Reachable states are separated and aligned when every `set` is given an element that is in a
slot of the source named or in no slot. -/
theorem separated_of_reachable (s : PoolState) (hr : Reachable Owned s) :
    Separated s ∧ Aligned s := by
  induction hr with
  | loaded ie => exact ⟨separated_empty ie, aligned_empty ie⟩
  | step s c _ hown ih =>
    refine ⟨?_, aligned_perform s c ih.2⟩
    cases c with
    | acquire src => exact separated_get s src ih.1 ih.2
    | release src tag => exact separated_set s src tag ih.1 hown
    | remove src => exact separated_remove s src ih.1 ih.2
    | quota e => exact separated_handleMaximumInstances s e ih.1

/-- C16 (amended): in every state reached from the state after loading the script by calls of
`get`, `remove`, error events, and calls of `set` that are given an element that exists and that
is held by a slot of the source named or by no slot at all, no tag is in the slot arrays of two
different sources, and no tag of the Free Pool is in a slot array. -/
theorem C16_handle_bound_to_one_source (s : PoolState) (hr : Reachable Owned s) :
    (∀ k1 k2 h, some h ∈ slotsOf s k1 → some h ∈ slotsOf s k2 → k1 = k2) ∧
    (∀ h k, some h ∈ s._tagPool → some h ∉ slotsOf s k) := by
  obtain ⟨⟨i1, i2, _⟩, _⟩ := separated_of_reachable s hr
  exact ⟨i1, i2⟩

/-- C16 (witness): `get("a")`, `get("b")`, `set("a", tag 0)`, `remove("a")` and two `get("b")`;
tag 0 goes from `"a"` to the Free Pool and from there to `"b"`. -/
theorem C16_handle_bound_to_one_source_witness :
    (∀ k1 k2 h,
      some h ∈ slotsOf (performAll (empty false) [.acquire "a", .acquire "b", .release "a" 0,
        .remove "a", .acquire "b", .acquire "b"]) k1 →
      some h ∈ slotsOf (performAll (empty false) [.acquire "a", .acquire "b", .release "a" 0,
        .remove "a", .acquire "b", .acquire "b"]) k2 → k1 = k2) ∧
    (∀ h k,
      some h ∈ (performAll (empty false) [.acquire "a", .acquire "b", .release "a" 0,
        .remove "a", .acquire "b", .acquire "b"])._tagPool →
      some h ∉ slotsOf (performAll (empty false) [.acquire "a", .acquire "b", .release "a" 0,
        .remove "a", .acquire "b", .acquire "b"]) k) :=
  C16_handle_bound_to_one_source _
    (Reachable.step _ (.acquire "b") (Reachable.step _ (.acquire "b")
      (Reachable.step _ (.remove "a") (Reachable.step _ (.release "a" 0)
        (Reachable.step _ (.acquire "b") (Reachable.step _ (.acquire "a")
          (Reachable.loaded false) trivial) trivial)
        ⟨by decide, Or.inl (by decide)⟩) trivial) trivial) trivial)

/-- C16 (counterexample): tag 0 is obtained for `"a"` and given to `set` under the key `"b"`,
which does not hold it: it is pushed onto the Free Pool while slot 0 of `"a"` still holds it.  Two
more `get("b")` take it from the Free Pool into slot 1 of `"b"`, so that it is in the slot arrays
of `"a"` and of `"b"`. -/
theorem C16_counterexample_release_under_other_key :
    some 0 ∈ (performAll (empty false) [.acquire "a", .acquire "b", .release "b" 0])._tagPool ∧
    some 0 ∈ slotsOf (performAll (empty false) [.acquire "a", .acquire "b", .release "b" 0])
      "a" ∧
    slotsOf (performAll (empty false) [.acquire "a", .acquire "b", .release "b" 0, .acquire "b",
      .acquire "b"]) "a" = [some 0] ∧
    slotsOf (performAll (empty false) [.acquire "a", .acquire "b", .release "b" 0, .acquire "b",
      .acquire "b"]) "b" = [some 1, some 0] := by
  decide

/-! ## Conservation of the elements created -/

/-- A state with the same slots and elements whose Free Pool holds at least the same tags is
accounted when the first is. -/
theorem accounted_mono (s s1 : PoolState) (ha : Accounted s)
    (hpool : ∀ h, some h ∈ s._tagPool → some h ∈ s1._tagPool)
    (hlen : s1.elements.length = s.elements.length)
    (hslots : ∀ k, slotsOf s1 k = slotsOf s k) : Accounted s1 := by
  obtain ⟨a1, a2⟩ := ha
  refine ⟨?_, ?_⟩
  · intro h hh
    rw [hlen] at hh
    rcases a1 h hh with h1 | ⟨k, hk⟩
    · exact Or.inl (hpool h h1)
    · exact Or.inr ⟨k, by rw [hslots k]; exact hk⟩
  · intro k
    rw [hslots k]
    exact a2 k

/-- Binding to the source `k` a tag `t` that is in no slot keeps the state accounted, when `t` is
the only tag that left the Free Pool and the only element that may be new. -/
theorem accounted_bind (s s1 : PoolState) (k : String) (t : Handle) (ha : Accounted s)
    (hfresh : ∀ k1, some t ∉ slotsOf s k1)
    (hpool : ∀ h, some h ∈ s._tagPool → h = t ∨ some h ∈ s1._tagPool)
    (hlen : ∀ h, h < s1.elements.length → h < s.elements.length ∨ h = t)
    (hslots : ∀ k1, slotsOf s1 k1 = if k1 = k then slotsOf s k ++ [some t] else slotsOf s k1) :
    Accounted s1 := by
  obtain ⟨a1, a2⟩ := ha
  have hk : some t ∈ slotsOf s1 k := by
    rw [hslots k]
    simp
  have hold : ∀ k1 h, some h ∈ slotsOf s k1 → some h ∈ slotsOf s1 k1 := by
    intro k1 h hm
    rw [hslots k1]
    by_cases e : k1 = k
    · simp only [e, if_true]
      rw [e] at hm
      exact List.mem_append_left _ hm
    · simp only [e, if_false]
      exact hm
  refine ⟨?_, ?_⟩
  · intro h hh
    rcases hlen h hh with h1 | h1
    · rcases a1 h h1 with h2 | ⟨k1, h2⟩
      · rcases hpool h h2 with h3 | h3
        · exact Or.inr ⟨k, by rw [h3]; exact hk⟩
        · exact Or.inl h3
      · exact Or.inr ⟨k1, hold k1 h h2⟩
    · exact Or.inr ⟨k, by rw [h1]; exact hk⟩
  · intro k1
    rw [hslots k1]
    by_cases e : k1 = k
    · simp only [e, if_true]
      rw [List.reduceOption_append]
      refine List.nodup_append.mpr ⟨a2 k, by simp [List.reduceOption_singleton], ?_⟩
      intro x hx1 hx2
      have hx3 : x = t := by simpa [List.reduceOption_singleton] using hx2
      rw [hx3] at hx1
      exact hfresh k (List.reduceOption_mem_iff.mp hx1)
    · simp only [e, if_false]
      exact a2 k1

/-- What `TagPool.get` takes from the Free Pool and adds to the elements. -/
theorem TagPool_get_accounted (s : PoolState) :
    (∀ p t, TagPool.get s = .normal p t →
      (∀ h, some h ∈ s._tagPool → h = t ∨ some h ∈ p._tagPool) ∧
      (∀ h, h < p.elements.length → h < s.elements.length ∨ h = t)) ∧
    (∀ p, TagPool.get s = .thrown p →
      (∀ h, some h ∈ s._tagPool → some h ∈ p._tagPool) ∧
      p.elements.length = s.elements.length) := by
  rcases TagPool_get_cases s with ⟨hp, hget⟩ | ⟨rest, t, hp, hget⟩ | ⟨rest, hp, hget⟩
  · rw [hget]
    refine ⟨?_, (fun p h => by cases h)⟩
    intro p t h
    injection h with e1 e2
    subst e1; subst e2
    refine ⟨?_, ?_⟩
    · intro h hm
      rw [hp] at hm
      cases hm
    · intro h hh
      simp only [List.length_append, List.length_singleton] at hh
      rcases Nat.lt_succ_iff_lt_or_eq.mp hh with h1 | h1
      · exact Or.inl h1
      · exact Or.inr h1
  · rw [hget]
    refine ⟨?_, (fun p h => by cases h)⟩
    intro p t1 h
    injection h with e1 e2
    subst e1; subst e2
    refine ⟨?_, ?_⟩
    · intro h hm
      rw [hp] at hm
      rcases List.mem_append.mp hm with h1 | h1
      · exact Or.inr h1
      · left
        have := List.mem_singleton.mp h1
        injection this
    · intro h hh
      simp only [length_updateElement] at hh
      exact Or.inl hh
  · rw [hget]
    refine ⟨(fun p t h => by cases h), ?_⟩
    intro p h
    injection h with e1
    subst e1
    refine ⟨?_, rfl⟩
    intro h hm
    rw [hp] at hm
    rcases List.mem_append.mp hm with h1 | h1
    · exact h1
    · have := List.mem_singleton.mp h1
      cases this

/-- `get` keeps a separated, aligned state accounted, when the key is not the name of an
inherited member. -/
theorem accounted_get (s : PoolState) (k : String) (hplain : lookup objectPrototype k = none)
    (hs : Separated s) (ha : Aligned s) (hc : Accounted s) :
    Accounted (HTMLAudioTagPool.get s k).state := by
  unfold HTMLAudioTagPool.get
  cases hscan : scan (flagCells s k) ((lookup s._tags k).getD []) 0 with
  | found i h1 =>
    simp only [hscan]
    cases hown : lookup s._tagUsed k with
    | none => exact hc
    | some us =>
      simp only [Completion.state]
      exact accounted_mono s _ hc (fun h hm => hm) rfl (fun k => rfl)
  | typeError =>
    simp only [hscan, Completion.state]
    exact hc
  | exhausted =>
    simp only [hscan]
    by_cases hlen : lengthOf s._tags k = some 0
    · simp only [hlen, if_true]
      have hnil : slotsOf s k = [] := slotsOf_nil_of_lengthOf s k hlen
      obtain ⟨g1, g2⟩ := TagPool_get_separated s hs
      obtain ⟨r1, r2⟩ := TagPool_get_accounted s
      cases hp : TagPool.get s with
      | thrown p =>
        obtain ⟨_, _, _, q4, _⟩ := g2 p hp
        obtain ⟨t1, t2⟩ := r2 p hp
        simp only [Completion.state]
        exact accounted_mono s p hc t1 t2 (fun k1 => slotsOf_of_tags_eq s p k1 q4)
      | normal p t =>
        obtain ⟨q1, _, _, _, _, _, q7, _⟩ := g1 p t hp
        obtain ⟨t1, t2⟩ := r1 p t hp
        simp only [Completion.state]
        refine accounted_bind s _ k t hc q1 ?_ ?_ ?_
        · exact t1
        · intro h hh
          simp only [length_updateElement] at hh
          exact t2 h hh
        · intro k1
          rw [slotsOf_assign s _ k k1 [some t] (by rw [q7]), hnil]
          rfl
    · simp only [hlen, if_false]
      have hs0 : Separated { s with console := s.console ++ [.creatingNewTag k] } :=
        separated_mono s _ hs (fun x hx => hx) hs.2.2.2.2 (Nat.le_refl _) (fun k h hm => hm)
      obtain ⟨g1, g2⟩ := TagPool_get_separated _ hs0
      obtain ⟨r1, r2⟩ := TagPool_get_accounted { s with console := s.console ++ [.creatingNewTag k] }
      cases hts : lookup s._tags k with
      | none =>
        rw [lengthOf_of_plain _ _ hplain, hts] at hlen
        exact absurd rfl hlen
      | some ts =>
        obtain ⟨us, hus, _⟩ := ha k ts hts
        cases hp : TagPool.get { s with console := s.console ++ [.creatingNewTag k] } with
        | thrown p =>
          obtain ⟨_, _, _, q4, _⟩ := g2 p hp
          obtain ⟨t1, t2⟩ := r2 p hp
          simp only [Completion.state]
          exact accounted_mono s p hc t1 t2 (fun k1 => slotsOf_of_tags_eq s p k1 q4)
        | normal p t =>
          obtain ⟨q1, _, _, _, _, _, q7, q8⟩ := g1 p t hp
          obtain ⟨t1, t2⟩ := r1 p t hp
          have hus1 : lookup p._tagUsed k = some us := by rw [q8]; exact hus
          simp only [hus1, Completion.state, Option.getD_some]
          refine accounted_bind s _ k t hc q1 ?_ ?_ ?_
          · exact t1
          · intro h hh
            simp only [length_updateElement] at hh
            exact t2 h hh
          · intro k1
            rw [slotsOf_assign s _ k k1 (ts ++ [some t]) (by rw [q7])]
            simp only [slotsOf, hts, Option.getD_some]

/-- `set` keeps a state accounted. -/
theorem accounted_set (s : PoolState) (k : String) (h : Handle) (hc : Accounted s) :
    Accounted (HTMLAudioTagPool.set s k (some h)).state := by
  have hpush : Accounted (TagPool.set { s with
      elements := updateElement s.elements h (fun e => { e with errorListener := false })
      _audioTagCount := s._audioTagCount - 1 } (some h)) := by
    refine accounted_mono s _ hc ?_ ?_ ?_
    · intro x hx
      exact (mem_TagPool_set _ _ _).mpr (Or.inl hx)
    · rw [TagPool_set_elements]
      exact length_updateElement _ _ _
    · intro k1
      exact slotsOf_of_tags_eq s _ k1 (TagPool_set_frame _ _).1
  unfold HTMLAudioTagPool.set
  cases hts : lookup s._tags k with
  | none =>
    cases hproto : lookup objectPrototype k with
    | none => exact hc
    | some l =>
      simp only [Completion.state]
      exact hpush
  | some ts =>
    simp only
    by_cases hin : ts.contains (some h) = true
    · simp only [hin, if_true]
      cases hus : lookup s._tagUsed k with
      | none =>
        cases hproto : lookup objectPrototype k with
        | none =>
          simp only [Completion.state]
          exact accounted_mono s _ hc (fun x hx => hx) (length_updateElement _ _ _)
            (fun k => rfl)
        | some l =>
          simp only [Completion.state]
          exact accounted_mono s _ hc (fun x hx => hx) (length_updateElement _ _ _)
            (fun k => rfl)
      | some us =>
        simp only [Completion.state]
        exact accounted_mono s _ hc (fun x hx => hx) (length_updateElement _ _ _) (fun k => rfl)
    · simp only [hin, Bool.false_eq_true, if_false, Completion.state]
      exact hpush

/-- `remove` keeps an aligned state accounted. -/
theorem accounted_remove (s : PoolState) (k : String) (ha : Aligned s) (hc : Accounted s) :
    Accounted (HTMLAudioTagPool.remove s k).state := by
  unfold HTMLAudioTagPool.remove
  cases hts : lookup s._tags k with
  | none =>
    cases hproto : lookup objectPrototype k with
    | none => exact hc
    | some l =>
      simp only [Completion.state]
      obtain ⟨g1, _, g3, g4, _⟩ := removeLoopInherited_spec k (l.getD 0) 0 s
      exact accounted_mono s _ hc (fun h hm => (g4 (some h)).mpr (Or.inl hm))
        (by rw [g3]) (fun k1 => slotsOf_of_tags_eq s _ k1 g1)
  | some ts =>
    obtain ⟨us, hus, _⟩ := ha k ts hts
    obtain ⟨s1, ts1, us1, hrun, hts1, _, hcells, _, _, _, hother, hpool, hgain, _⟩ :=
      removeLoop_spec k ts.length 0 s ts us hts hus
    obtain ⟨_, _, p3⟩ := removeLoop_pool k ts.length 0 s
    rw [hrun] at p3
    simp only [Completion.state] at p3
    simp only [hrun, Completion.state]
    obtain ⟨a1, a2⟩ := hc
    have hk_empty : ∀ h, some h ∉ slotsOf s1 k := by
      intro h hm
      simp only [slotsOf, hts1, Option.getD_some] at hm
      obtain ⟨j, hj⟩ := List.mem_iff_getElem?.mp hm
      have h1 : arrayGet ts1 j = some h := by simp [arrayGet, hj]
      have h2 : arrayGet ts1 j = none := by
        rw [hcells]
        split
        · rfl
        · exact arrayGet_of_length_le ts j (by omega)
      rw [h2] at h1
      cases h1
    have hk_other : ∀ k1, k1 ≠ k → slotsOf s1 k1 = slotsOf s k1 := by
      intro k1 hk1
      simp only [slotsOf, (hother k1 hk1).1]
    have hts2 : slotsOf s k = ts := by simp only [slotsOf, hts, Option.getD_some]
    refine ⟨?_, ?_⟩
    · intro h hh
      rw [p3] at hh
      rcases a1 h hh with h1 | ⟨k1, h1⟩
      · exact Or.inl (hpool _ h1)
      · by_cases e : k1 = k
        · left
          rw [e, hts2] at h1
          obtain ⟨j, hj⟩ := List.mem_iff_getElem?.mp h1
          have hjlt : j < ts.length := by
            by_contra hge
            rw [List.getElem?_eq_none (by omega)] at hj
            cases hj
          have hget : arrayGet ts j = some h := by simp [arrayGet, hj]
          have := hgain j (Nat.zero_le _) (by omega)
          rw [hget] at this
          exact this
        · exact Or.inr ⟨k1, by rw [hk_other k1 e]; exact h1⟩
    · intro k1
      by_cases e : k1 = k
      · rw [e]
        have : (slotsOf s1 k).reduceOption = [] := by
          apply List.eq_nil_iff_forall_not_mem.mpr
          intro x hx
          exact hk_empty x (List.reduceOption_mem_iff.mp hx)
        rw [this]
        exact List.nodup_nil
      · rw [hk_other k1 e]
        exact a2 k1

theorem accounted_empty (ie : Bool) : Accounted (empty ie) := by
  refine ⟨?_, ?_⟩
  · intro h hh
    simp [empty] at hh
  · intro k
    simp [slotsOf, empty, lookup]

/-- Without error events, reachable states are separated, aligned and accounted when every `set`
is given an element that is in a slot of the source named or in no slot, and every `get` a key
that is not the name of an inherited member. -/
theorem accounted_of_reachable (s : PoolState) (hr : Reachable OwnedNoQuota s) :
    Separated s ∧ Aligned s ∧ Accounted s := by
  induction hr with
  | loaded ie => exact ⟨separated_empty ie, aligned_empty ie, accounted_empty ie⟩
  | step s c _ hown ih =>
    obtain ⟨i1, i2, i3⟩ := ih
    refine ⟨?_, aligned_perform s c i2, ?_⟩
    · cases c with
      | acquire src => exact separated_get s src i1 i2
      | release src tag => exact separated_set s src tag i1 hown.1
      | remove src => exact separated_remove s src i1 i2
      | quota e => exact absurd rfl (hown.2.1 e)
    · cases c with
      | acquire src => exact accounted_get s src (hown.2.2 src rfl) i1 i2 i3
      | release src tag => exact accounted_set s src tag i3
      | remove src => exact accounted_remove s src i2 i3
      | quota e => exact absurd rfl (hown.2.1 e)

/-- In a separated and accounted state the tags in slots and the tags in the Free Pool are,
together, the elements created, each once. -/
theorem created_eq_bound_add_free (s : PoolState) (hs : Separated s) (hc : Accounted s) :
    createdCount s = boundCount s + freeCount s := by
  obtain ⟨i1, i2, i3, i4, i5⟩ := hs
  obtain ⟨a1, a2⟩ := hc
  have hA : ((keys s._tags).flatMap (fun k => (slotsOf s k).reduceOption)).length =
      boundCount s := by
    rw [List.length_flatMap]
    rfl
  have hndA : ((keys s._tags).flatMap (fun k => (slotsOf s k).reduceOption)).Nodup := by
    refine List.nodup_flatMap.mpr ⟨fun k _ => a2 k, ?_⟩
    refine List.Pairwise.imp ?_ (keys_nodup s._tags)
    intro k1 k2 hne x hx1 hx2
    exact hne (i1 k1 k2 x (List.reduceOption_mem_iff.mp hx1) (List.reduceOption_mem_iff.mp hx2))
  have hndB : s._tagPool.reduceOption.Nodup := by
    unfold List.reduceOption
    refine List.Nodup.filterMap ?_ i5
    intro a b x ha hb
    simp only [id, Option.mem_def] at ha hb
    rw [ha, hb]
  have hnd : ((keys s._tags).flatMap (fun k => (slotsOf s k).reduceOption) ++
      s._tagPool.reduceOption).Nodup := by
    refine List.nodup_append.mpr ⟨hndA, hndB, ?_⟩
    intro x hx1 hx2
    obtain ⟨k, _, hk⟩ := List.mem_flatMap.mp hx1
    exact i2 x k (List.reduceOption_mem_iff.mp hx2) (List.reduceOption_mem_iff.mp hk)
  have hmem : ∀ h, h ∈ (keys s._tags).flatMap (fun k => (slotsOf s k).reduceOption) ++
      s._tagPool.reduceOption ↔ h ∈ List.range s.elements.length := by
    intro h
    rw [List.mem_range]
    constructor
    · intro hm
      rcases List.mem_append.mp hm with h1 | h1
      · obtain ⟨k, _, hk⟩ := List.mem_flatMap.mp h1
        exact i4 h k (List.reduceOption_mem_iff.mp hk)
      · exact i3 h (List.reduceOption_mem_iff.mp h1)
    · intro hlt
      rcases a1 h hlt with h1 | ⟨k, h1⟩
      · exact List.mem_append_right _ (List.reduceOption_mem_iff.mpr h1)
      · refine List.mem_append_left _ (List.mem_flatMap.mpr ⟨k, ?_, List.reduceOption_mem_iff.mpr h1⟩)
        have hne : slotsOf s k ≠ [] := List.ne_nil_of_mem h1
        exact mem_keys_of_lookup _ _ _ (lookup_of_slotsOf s k _ rfl hne)
  have hlen := ((List.perm_ext_iff_of_nodup hnd (List.nodup_range _)).mpr hmem).length_eq
  rw [List.length_append, List.length_range, hA] at hlen
  unfold createdCount
  rw [← hlen]
  rfl

/-- C17 (amended): in every state reached from the state after loading the script by calls of
`remove`, calls of `get` with a key that is not the name of a member that `s._tags` inherits
from `Object.prototype`, and calls of `set` that are given an element that exists and that is
held by a slot of the source named or by no slot at all, with no error events, the number of
elements
created equals the number of tags in the slot arrays of all sources plus the number of tags in
the Free Pool, and every element created is in the Free Pool or in a slot. -/
theorem C17_created_equals_bound_plus_free (s : PoolState) (hr : Reachable OwnedNoQuota s) :
    createdCount s = boundCount s + freeCount s ∧
    (∀ h, h < createdCount s → some h ∈ s._tagPool ∨ ∃ k, some h ∈ slotsOf s k) := by
  obtain ⟨hs, _, hc⟩ := accounted_of_reachable s hr
  exact ⟨created_eq_bound_add_free s hs hc, hc.1⟩

/-- C17 (witness): `get("a")`, `get("b")`, `set("a", tag 0)`, `remove("a")` and two `get("b")`. -/
theorem C17_created_equals_bound_plus_free_witness :
    createdCount (performAll (empty false) [.acquire "a", .acquire "b", .release "a" 0,
        .remove "a", .acquire "b", .acquire "b"]) =
      boundCount (performAll (empty false) [.acquire "a", .acquire "b", .release "a" 0,
        .remove "a", .acquire "b", .acquire "b"]) +
      freeCount (performAll (empty false) [.acquire "a", .acquire "b", .release "a" 0,
        .remove "a", .acquire "b", .acquire "b"]) ∧
    (∀ h, h < createdCount (performAll (empty false) [.acquire "a", .acquire "b",
        .release "a" 0, .remove "a", .acquire "b", .acquire "b"]) →
      some h ∈ (performAll (empty false) [.acquire "a", .acquire "b", .release "a" 0,
        .remove "a", .acquire "b", .acquire "b"])._tagPool ∨
      ∃ k, some h ∈ slotsOf (performAll (empty false) [.acquire "a", .acquire "b",
        .release "a" 0, .remove "a", .acquire "b", .acquire "b"]) k) :=
  C17_created_equals_bound_plus_free _
    (Reachable.step _ (.acquire "b") (Reachable.step _ (.acquire "b")
      (Reachable.step _ (.remove "a") (Reachable.step _ (.release "a" 0)
        (Reachable.step _ (.acquire "b") (Reachable.step _ (.acquire "a")
          (Reachable.loaded false)
          ⟨trivial, (fun e h => by cases h), (fun src h => by cases h; decide)⟩)
          ⟨trivial, (fun e h => by cases h), (fun src h => by cases h; decide)⟩)
        ⟨⟨by decide, Or.inl (by decide)⟩, (fun e h => by cases h), (fun src h => by cases h)⟩)
        ⟨trivial, (fun e h => by cases h), (fun src h => by cases h)⟩)
        ⟨trivial, (fun e h => by cases h), (fun src h => by cases h; decide)⟩)
      ⟨trivial, (fun e h => by cases h), (fun src h => by cases h; decide)⟩)

/-- C17 (counterexample): tag 0 is obtained by `get("a")`, `remove("a")` puts it in the Free
Pool, `get("b")` takes it from there, and `set("a", tag 0)` then pushes it onto the Free Pool
again because the slot array of `"a"` does not hold it: one element was created, one tag is in a
slot and one in the Free Pool.  Likewise, after `get("a")`, `get("b")` and `set("b", tag 0)` two
elements were created, two tags are in slots and one is in the Free Pool.  And `get("constructor")`
creates an element and raises before it has a slot: one element was created, no tag is in a slot
and none is in the Free Pool. -/
theorem C17_counterexample_stale_release :
    createdCount (performAll (empty false) [.acquire "a", .remove "a", .acquire "b",
      .release "a" 0]) = 1 ∧
    boundCount (performAll (empty false) [.acquire "a", .remove "a", .acquire "b",
      .release "a" 0]) = 1 ∧
    freeCount (performAll (empty false) [.acquire "a", .remove "a", .acquire "b",
      .release "a" 0]) = 1 ∧
    createdCount (performAll (empty false) [.acquire "a", .acquire "b", .release "b" 0]) = 2 ∧
    boundCount (performAll (empty false) [.acquire "a", .acquire "b", .release "b" 0]) = 2 ∧
    freeCount (performAll (empty false) [.acquire "a", .acquire "b", .release "b" 0]) = 1 ∧
    createdCount (performAll (empty false) [.acquire "constructor"]) = 1 ∧
    boundCount (performAll (empty false) [.acquire "constructor"]) = 0 ∧
    freeCount (performAll (empty false) [.acquire "constructor"]) = 0 := by
  decide

end SoundJS
